import Mathlib

/-!
Verification development for the item-normalization and lineup-selection
pipeline of `daily_brief.py`.

The Python source is shallowly embedded in Lean:

* Python `str` values are `String` / `List Char` (code points, as in CPython).
* The helpers of `urllib.parse` used by `canonicalize_url` — `urlparse`,
  `parse_qsl`, `urlencode`, `urlunparse` and their quoting machinery — are
  modelled after the CPython implementation, working on `List Char`
  (suffix `L` marks the list-of-chars versions).  Percent escapes are
  resolved through real UTF-8 encoding/decoding on `Nat` byte values.
  The only exception path of that stack, the bracket-mismatch check of
  `urlsplit`, is modelled with `Except` (the Python `try/except` of
  `canonicalize_url` becomes a `match`).  The reference is CPython 3.11;
  its NFKC-based netloc rejection and bracketed-host validation (relevant
  only to some `[`-bracketed or non-ASCII authorities) are not modelled,
  and the character classes of `str.lower`, `str.strip`, `\w`, `\s` are
  modelled on their documented ASCII ranges.
* Timestamps are modelled as their fixed-width ISO-8601 UTC strings; the
  `datetime` order used by the time-window filter coincides with
  lexicographic string order for this format (the source relies on the
  same fact when it compares `published_utc` strings during dedup).
* Mutable state (the `used_ids` set of the selector, the `dedup` dict) is
  threaded explicitly; Python dicts become insertion-ordered association
  lists, and the stable `list.sort(reverse=True)` becomes a stable
  insertion sort.
-/

namespace DailyBrief

abbrev Chars := List Char

/-! ### Basic character helpers -/

/-- Hex digit value of a byte (accepts both cases), as used by CPython's
`_hextobyte` table in `unquote_to_bytes`. -/
def hexValB (b : Nat) : Option Nat :=
  if 48 ≤ b ∧ b ≤ 57 then some (b - 48)
  else if 65 ≤ b ∧ b ≤ 70 then some (b - 55)
  else if 97 ≤ b ∧ b ≤ 102 then some (b - 87)
  else none

/-- Upper-case hex digit character, as emitted by `quote_from_bytes`. -/
def hexUpperDigit (n : Nat) : Char :=
  if n < 10 then Char.ofNat (48 + n) else Char.ofNat (55 + n)

/-! ### UTF-8 (CPython `str.encode('utf-8')` / `bytes.decode('utf-8', 'replace')`) -/

/-- UTF-8 encoding of one Unicode scalar value. -/
def utf8EncodeChar (n : Nat) : List Nat :=
  if n < 128 then [n]
  else if n < 2048 then [192 + n / 64, 128 + n % 64]
  else if n < 65536 then [224 + n / 4096, 128 + n / 64 % 64, 128 + n % 64]
  else [240 + n / 262144, 128 + n / 4096 % 64, 128 + n / 64 % 64, 128 + n % 64]

/-- UTF-8 encoding of a string (as a list of code points). -/
def utf8Encode (s : Chars) : List Nat := s.flatMap (fun c => utf8EncodeChar c.toNat)

/-- Is `b` a UTF-8 continuation byte? -/
def utf8Cont (b : Nat) : Bool := 128 ≤ b && b ≤ 191

/-- The replacement character U+FFFD. -/
def replChar : Char := Char.ofNat 0xFFFD

/-- Admissible first continuation byte for a given 3- or 4-byte lead,
following the UTF-8 well-formedness table (this is what makes the decoder
reject overlong encodings, surrogates and values above U+10FFFF). -/
def utf8Cont1Ok (lead b : Nat) : Bool :=
  if lead = 224 then 160 ≤ b && b ≤ 191
  else if lead = 237 then 128 ≤ b && b ≤ 159
  else if lead = 240 then 144 ≤ b && b ≤ 191
  else if lead = 244 then 128 ≤ b && b ≤ 143
  else utf8Cont b

/-- UTF-8 decoding with the `'replace'` error handler: each maximal subpart
of an ill-formed subsequence yields one U+FFFD, as in CPython's decoder. -/
def utf8DecodeReplace : List Nat → List Char
  | [] => []
  | b0 :: bs =>
    if b0 < 128 then
      Char.ofNat b0 :: utf8DecodeReplace bs
    else if 194 ≤ b0 ∧ b0 ≤ 223 then
      match bs with
      | [] => [replChar]
      | b1 :: rest =>
        if utf8Cont b1 then
          Char.ofNat ((b0 - 192) * 64 + (b1 - 128)) :: utf8DecodeReplace rest
        else replChar :: utf8DecodeReplace (b1 :: rest)
    else if 224 ≤ b0 ∧ b0 ≤ 239 then
      match bs with
      | [] => [replChar]
      | b1 :: rest1 =>
        if utf8Cont1Ok b0 b1 then
          match rest1 with
          | [] => [replChar]
          | b2 :: rest2 =>
            if utf8Cont b2 then
              Char.ofNat ((b0 - 224) * 4096 + (b1 - 128) * 64 + (b2 - 128)) ::
                utf8DecodeReplace rest2
            else replChar :: utf8DecodeReplace (b2 :: rest2)
        else replChar :: utf8DecodeReplace (b1 :: rest1)
    else if 240 ≤ b0 ∧ b0 ≤ 244 then
      match bs with
      | [] => [replChar]
      | b1 :: rest1 =>
        if utf8Cont1Ok b0 b1 then
          match rest1 with
          | [] => [replChar]
          | b2 :: rest2 =>
            if utf8Cont b2 then
              match rest2 with
              | [] => [replChar]
              | b3 :: rest3 =>
                if utf8Cont b3 then
                  Char.ofNat ((b0 - 240) * 262144 + (b1 - 128) * 4096 +
                      (b2 - 128) * 64 + (b3 - 128)) :: utf8DecodeReplace rest3
                else replChar :: utf8DecodeReplace (b3 :: rest3)
            else replChar :: utf8DecodeReplace (b2 :: rest2)
        else replChar :: utf8DecodeReplace (b1 :: rest1)
    else
      replChar :: utf8DecodeReplace bs

/-! ### Percent quoting (`urllib.parse.quote_plus` / `unquote_plus`) -/

/-- CPython's `ALWAYS_SAFE` byte set: ASCII letters, digits and `_.-~`. -/
def alwaysSafeB (b : Nat) : Bool :=
  (65 ≤ b && b ≤ 90) || (97 ≤ b && b ≤ 122) || (48 ≤ b && b ≤ 57) ||
    b == 95 || b == 46 || b == 45 || b == 126

/-- One byte of `quote_from_bytes`: safe bytes pass through, the rest become
`%XX` with upper-case hex. -/
def quoteByte (safe : List Nat) (b : Nat) : Chars :=
  if alwaysSafeB b || safe.contains b then [Char.ofNat b]
  else ['%', hexUpperDigit (b / 16), hexUpperDigit (b % 16)]

/-- `urllib.parse.quote(s, safe)`: UTF-8 encode, then percent-quote each
unsafe byte. -/
def quoteL (safe : List Nat) (s : Chars) : Chars :=
  (utf8Encode s).flatMap (quoteByte safe)

/-- `urllib.parse.quote_plus(s)` with `safe=''`: like `quote`, but when the
string contains a space, the space is kept safe and then turned into `+`. -/
def quote_plusL (s : Chars) : Chars :=
  if ' ' ∈ s then (quoteL [32] s).map (fun c => if c = ' ' then '+' else c)
  else quoteL [] s

/-- Byte-level percent substitution of `unquote_to_bytes`: a `%` followed by
two hex digits becomes that byte, anything else is passed through. -/
def percentSubst : List Nat → List Nat
  | [] => []
  | b :: b1 :: b2 :: rest =>
    if b = 37 then
      match hexValB b1, hexValB b2 with
      | some x, some y => (16 * x + y) :: percentSubst rest
      | _, _ => b :: percentSubst (b1 :: b2 :: rest)
    else b :: percentSubst (b1 :: b2 :: rest)
  | b :: bs => b :: percentSubst bs

/-- Accumulating worker for `splitRuns`; `run` is the current run in
reverse, tagged `ascii`. -/
def splitRunsGo (ascii : Bool) (run : Chars) : Chars → List (Bool × Chars)
  | [] => [(ascii, run.reverse)]
  | c :: cs =>
    if decide (c.toNat ≤ 127) = ascii then splitRunsGo ascii (c :: run) cs
    else (ascii, run.reverse) :: splitRunsGo (decide (c.toNat ≤ 127)) [c] cs

/-- Split a string into maximal runs of ASCII (`≤ 0x7f`) and non-ASCII
characters, as CPython's `unquote` does with `_asciire`. -/
def splitRuns : Chars → List (Bool × Chars)
  | [] => []
  | c :: cs => splitRunsGo (decide (c.toNat ≤ 127)) [c] cs

/-- `urllib.parse.unquote(s)` (encoding `utf-8`, errors `replace`): ASCII
runs are percent-substituted at byte level and UTF-8 decoded; non-ASCII
runs pass through.  (CPython's early return when no `%` is present is a
pure optimization and is dropped.) -/
def unquoteL (s : Chars) : Chars :=
  (splitRuns s).flatMap fun br =>
    if br.1 then utf8DecodeReplace (percentSubst (br.2.map Char.toNat)) else br.2

/-- `urllib.parse.unquote_plus(s)`: `+` becomes a space, then `unquote`. -/
def unquote_plusL (s : Chars) : Chars :=
  unquoteL (s.map fun c => if c = '+' then ' ' else c)

/-! ### Query strings (`parse_qsl` / `urlencode`) -/

/-- `l.split(sep)` on lists of characters (Python `str.split` with an
explicit separator: empty pieces are kept). -/
def splitOnChar (sep : Char) : Chars → List Chars
  | [] => [[]]
  | x :: xs =>
    match splitOnChar sep xs with
    | [] => [[]]
    | r :: rs => if x = sep then [] :: r :: rs else (x :: r) :: rs

/-- Split `l` at the first occurrence of `t` (Python `str.split(t, 1)` when
it succeeds). -/
def breakAt (t : Char) : Chars → Option (Chars × Chars)
  | [] => none
  | c :: cs =>
    if c = t then some ([], cs)
    else (breakAt t cs).map fun ab => (c :: ab.1, ab.2)

/-- `urllib.parse.parse_qsl(qs, keep_blank_values=True)` with the default
`&` separator: split on `&`, drop empty chunks, split each chunk at the
first `=` (a chunk without `=` gets a blank value), then `+`/percent-decode
names and values. -/
def parse_qslL (qs : Chars) : List (Chars × Chars) :=
  if qs = [] then []
  else
    (splitOnChar '&' qs).filterMap fun chunk =>
      if chunk = [] then none
      else
        match breakAt '=' chunk with
        | some nv => some (unquote_plusL nv.1, unquote_plusL nv.2)
        | none => some (unquote_plusL chunk, unquote_plusL [])

/-- Join with `&` (`'&'.join`). -/
def joinAmp : List Chars → Chars
  | [] => []
  | [x] => x
  | x :: y :: xs => x ++ '&' :: joinAmp (y :: xs)

/-- `urllib.parse.urlencode(q, doseq=True)` on string pairs: each pair is
`quote_plus(k) + '=' + quote_plus(v)`, joined with `&`. -/
def urlencodeL (l : List (Chars × Chars)) : Chars :=
  joinAmp (l.map fun kv => quote_plusL kv.1 ++ '=' :: quote_plusL kv.2)

/-! ### URL splitting (`urlsplit` / `urlparse` / `urlunsplit` / `urlunparse`) -/

structure SplitParts where
  scheme : Chars
  netloc : Chars
  path : Chars
  query : Chars
  fragment : Chars
deriving DecidableEq, Repr

structure ParseParts where
  scheme : Chars
  netloc : Chars
  path : Chars
  params : Chars
  query : Chars
  fragment : Chars
deriving DecidableEq, Repr

/-- Leading WHATWG C0-control-or-space strip performed by `urlsplit`. -/
def lstripC0 : Chars → Chars
  | [] => []
  | c :: cs => if c.toNat ≤ 32 then lstripC0 cs else c :: cs

/-- `urlsplit` removes every tab, CR and LF from the URL. -/
def stripUrlTabsNewlines (l : Chars) : Chars :=
  l.filter fun c => !(c == '\t' || c == '\r' || c == '\n')

/-- The characters allowed in a scheme name (`urllib.parse.scheme_chars`). -/
def schemeChar (c : Char) : Bool :=
  c.isAlpha || c.isDigit || c == '+' || c == '-' || c == '.'

/-- Scheme detection of `urlsplit`: the part before the first `:` must be
nonempty, start with an ASCII letter and consist of scheme characters;
the scheme is lower-cased.  Returns `(scheme, rest)`. -/
def splitScheme (url : Chars) : Chars × Chars :=
  let pre := url.takeWhile (fun c => c ≠ ':')
  if pre.length < url.length ∧ 0 < pre.length ∧ (pre.headD ' ').isAlpha ∧
      pre.all schemeChar then
    (pre.map Char.toLower, url.drop (pre.length + 1))
  else ([], url)

/-- Is `c` a netloc delimiter (`_splitnetloc` stops at `/`, `?` or `#`)? -/
def netlocDelim (c : Char) : Bool := c == '/' || c == '?' || c == '#'

/-- Netloc extraction: when the remainder starts with `//`, the netloc is
everything up to the next `/`, `?` or `#`.  Returns `(netloc, rest)`. -/
def netlocSplit (u : Chars) : Chars × Chars :=
  match u with
  | '/' :: '/' :: rest =>
    (rest.takeWhile (fun c => !netlocDelim c), rest.dropWhile (fun c => !netlocDelim c))
  | _ => ([], u)

/-- The `Invalid IPv6 URL` check of `urlsplit`: a `[` without `]` in the
netloc (or vice versa) raises. -/
def bracketMismatch (n : Chars) : Bool :=
  (n.contains '[' && !n.contains ']') || (n.contains ']' && !n.contains '[')

/-- Split off the fragment at the first `#` (`allow_fragments` is true). -/
def fragSplit (u : Chars) : Chars × Chars :=
  match breakAt '#' u with
  | some ab => ab
  | none => (u, [])

/-- Split off the query at the first `?`. -/
def querySplit (u : Chars) : Chars × Chars :=
  match breakAt '?' u with
  | some ab => ab
  | none => (u, [])

/-- The splitting phase of `urlsplit` after input cleanup. -/
def urlsplitCore (url1 : Chars) : SplitParts :=
  let sp := splitScheme url1
  let nl := netlocSplit sp.2
  let fr := fragSplit nl.2
  let qy := querySplit fr.1
  ⟨sp.1, nl.1, qy.1, qy.2, fr.2⟩

/-- `urllib.parse.urlsplit`: strip leading C0 controls/space, remove
tab/CR/LF, split, and raise on a bracket mismatch in the netloc.  (CPython
raises before the fragment/query splits; as raising discards the partial
result, performing the check last is observationally identical.) -/
def urlsplitL (url : Chars) : Except String SplitParts :=
  let r := urlsplitCore (stripUrlTabsNewlines (lstripC0 url))
  if bracketMismatch r.netloc then Except.error "Invalid IPv6 URL"
  else Except.ok r

/-- The schemes for which `urlparse` splits path parameters
(`urllib.parse.uses_params`, CPython 3.11). -/
def uses_paramsL : List Chars :=
  ["", "ftp", "hdl", "prospero", "http", "imap", "https", "shttp", "rtsp",
    "rtsps", "rtspu", "sip", "sips", "mms", "sftp", "tel"].map String.data

/-- The schemes whose URLs use a network location
(`urllib.parse.uses_netloc`, CPython 3.11), consulted by `urlunsplit`. -/
def uses_netlocL : List Chars :=
  ["", "ftp", "http", "gopher", "nntp", "telnet", "imap", "wais", "file",
    "mms", "https", "shttp", "snews", "prospero", "rtsp", "rtsps", "rtspu",
    "rsync", "svn", "svn+ssh", "sftp", "nfs", "git", "git+ssh", "ws",
    "wss"].map String.data

/-- `_splitparams`: split the path at the first `;` that follows the last
`/` (or at the first `;` when there is no `/`).  The caller guarantees a
`;` is present; without one the path is returned unchanged. -/
def splitparamsL (pw : Chars) : Chars × Chars :=
  if '/' ∈ pw then
    let revSeg := pw.reverse.takeWhile (fun c => c ≠ '/')
    let revHead := pw.reverse.dropWhile (fun c => c ≠ '/')
    match breakAt ';' revSeg.reverse with
    | none => (pw, [])
    | some ab => (revHead.reverse ++ ab.1, ab.2)
  else
    match breakAt ';' pw with
    | none => (pw, [])
    | some ab => ab

/-- `urllib.parse.urlparse`: `urlsplit` plus parameter splitting for the
schemes in `uses_params`. -/
def urlparseL (url : Chars) : Except String ParseParts :=
  (urlsplitL url).map fun r =>
    if r.scheme ∈ uses_paramsL ∧ ';' ∈ r.path then
      let pp := splitparamsL r.path
      ⟨r.scheme, r.netloc, pp.1, pp.2, r.query, r.fragment⟩
    else ⟨r.scheme, r.netloc, r.path, [], r.query, r.fragment⟩

/-- `urllib.parse.urlunsplit` (CPython 3.11: the `//` marker is emitted when
the netloc is nonempty, or when the scheme uses a netloc and the path does
not already start with `//`). -/
def urlunsplitL (r : SplitParts) : Chars :=
  let u1 := r.path
  let u2 :=
    if r.netloc ≠ [] ∨ (r.scheme ≠ [] ∧ r.scheme ∈ uses_netlocL ∧ u1.take 2 ≠ ['/', '/']) then
      '/' :: '/' :: (r.netloc ++ (if u1 ≠ [] ∧ u1.head? ≠ some '/' then '/' :: u1 else u1))
    else u1
  let u3 := if r.scheme ≠ [] then r.scheme ++ ':' :: u2 else u2
  let u4 := if r.query ≠ [] then u3 ++ '?' :: r.query else u3
  if r.fragment ≠ [] then u4 ++ '#' :: r.fragment else u4

/-- `urllib.parse.urlunparse`: rejoin path and params, then `urlunsplit`. -/
def urlunparseL (p : ParseParts) : Chars :=
  let pw := if p.params ≠ [] then p.path ++ ';' :: p.params else p.path
  urlunsplitL ⟨p.scheme, p.netloc, pw, p.query, p.fragment⟩

/-! ### `canonicalize_url` -/

/-- The exact tracking parameter names removed by canonicalization. -/
def TRACKING_PARAMS : List Chars := ["fbclid", "gclid", "ref"].map String.data

/-- The tracking parameter prefixes removed by canonicalization. -/
def TRACKING_PREFIXES : List Chars := ["utm_"].map String.data

/-- ASCII lower-casing (`str.lower` restricted to its ASCII behaviour). -/
def lowerL (l : Chars) : Chars := l.map Char.toLower

/-- Does the query pair survive the tracking filter of `canonicalize_url`?
The key is lower-cased and kept unless it is one of `TRACKING_PARAMS` or
starts with one of `TRACKING_PREFIXES`. -/
def keepPairB (kv : Chars × Chars) : Bool :=
  let kl := lowerL kv.1
  !(TRACKING_PARAMS.contains kl) && !(TRACKING_PREFIXES.any fun p => p.isPrefixOf kl)

/-- `canonicalize_url`: parse, drop tracking query pairs (preserving the
order of the survivors), re-encode the query, rebuild without the fragment;
on a parse failure return the input unchanged (the `try/except`). -/
def canonicalize_url (url : String) : String :=
  match urlparseL url.data with
  | Except.error _ => url
  | Except.ok p =>
    let q := (parse_qslL p.query).filter keepPairB
    let new_query := urlencodeL q
    String.mk (urlunparseL ⟨p.scheme, p.netloc, p.path, p.params, new_query, []⟩)

/-! ### `normalize_title` -/

/-- The ASCII range of Python's `\s` (and of `str.strip`'s default set). -/
def pyIsSpace (c : Char) : Bool :=
  c == ' ' || c == '\t' || c == '\n' || c == '\r' || c == '\x0b' || c == '\x0c'

/-- The ASCII range of Python's `\w`: letters, digits and underscore. -/
def pyIsWord (c : Char) : Bool := c.isAlphanum || c == '_'

/-- Python `str.strip()` (ASCII whitespace). -/
def pyStrip (l : Chars) : Chars :=
  ((l.dropWhile pyIsSpace).reverse.dropWhile pyIsSpace).reverse

/-- `re.sub(r"\s+", " ", t)`: each maximal whitespace run becomes one space. -/
def collapseSpaces : Chars → Chars
  | [] => []
  | c :: cs =>
    if pyIsSpace c then
      match cs with
      | c2 :: _ => if pyIsSpace c2 then collapseSpaces cs else ' ' :: collapseSpaces cs
      | [] => [' ']
    else c :: collapseSpaces cs

/-- `normalize_title`: lower-case, strip, collapse whitespace runs, then
remove every character that is neither a word character nor whitespace. -/
def normalize_title (title : String) : String :=
  let t := pyStrip (lowerL title.data)
  let t2 := collapseSpaces t
  String.mk (t2.filter fun c => pyIsWord c || pyIsSpace c)

/-! ### `stable_id` (SHA-256 over `Nat` with explicit `% 2^32`) -/

def M32 : Nat := 4294967296

def rotr32 (n x : Nat) : Nat := x / 2 ^ n + x % 2 ^ n * 2 ^ (32 - n)

def shr32 (n x : Nat) : Nat := x / 2 ^ n

def bsig0 (x : Nat) : Nat := rotr32 2 x ^^^ rotr32 13 x ^^^ rotr32 22 x

def bsig1 (x : Nat) : Nat := rotr32 6 x ^^^ rotr32 11 x ^^^ rotr32 25 x

def ssig0 (x : Nat) : Nat := rotr32 7 x ^^^ rotr32 18 x ^^^ shr32 3 x

def ssig1 (x : Nat) : Nat := rotr32 17 x ^^^ rotr32 19 x ^^^ shr32 10 x

def chF (x y z : Nat) : Nat := x &&& y ^^^ (M32 - 1 - x % M32) &&& z

def majF (x y z : Nat) : Nat := x &&& y ^^^ x &&& z ^^^ y &&& z

def sha256K : List Nat :=
  [1116352408, 1899447441, 3049323471, 3921009573, 961987163, 1508970993,
   2453635748, 2870763221, 3624381080, 310598401, 607225278, 1426881987,
   1925078388, 2162078206, 2614888103, 3248222580, 3835390401, 4022224774,
   264347078, 604807628, 770255983, 1249150122, 1555081692, 1996064986,
   2554220882, 2821834349, 2952996808, 3210313671, 3336571891, 3584528711,
   113926993, 338241895, 666307205, 773529912, 1294757372, 1396182291,
   1695183700, 1986661051, 2177026350, 2456956037, 2730485921, 2820302411,
   3259730800, 3345764771, 3516065817, 3600352804, 4094571909, 275423344,
   430227734, 506948616, 659060556, 883997877, 958139571, 1322822218,
   1537002063, 1747873779, 1955562222, 2024104815, 2227730452, 2361852424,
   2428436474, 2756734187, 3204031479, 3329325298]

def sha256H0 : List Nat :=
  [1779033703, 3144134277, 1013904242, 2773480762,
   1359893119, 2600822924, 528734635, 1541459225]

/-- Big-endian bytes of a value, fixed width (higher bits are dropped). -/
def beBytes : Nat → Nat → List Nat
  | 0, _ => []
  | n + 1, v => beBytes n (v / 256) ++ [v % 256]

/-- SHA-256 message padding. -/
def sha256Pad (msg : List Nat) : List Nat :=
  let len := msg.length
  let r := len % 64
  let k := if r < 56 then 55 - r else 119 - r
  msg ++ 128 :: List.replicate k 0 ++ beBytes 8 (8 * len)

/-- Pack bytes into big-endian 32-bit words. -/
def chunkWords : List Nat → List Nat
  | b0 :: b1 :: b2 :: b3 :: rest =>
    (((b0 * 256 + b1) * 256 + b2) * 256 + b3) :: chunkWords rest
  | _ => []

/-- Worker for `chunkBlocks`: `cur` is the current block in reverse,
`cap` the number of bytes it still accepts. -/
def blocksGo (cur : List Nat) (cap : Nat) : List Nat → List (List Nat)
  | [] => if cur = [] then [] else [cur.reverse]
  | b :: rest =>
    if cap ≤ 1 then (b :: cur).reverse :: blocksGo [] 64 rest
    else blocksGo (b :: cur) (cap - 1) rest

/-- Split into 64-byte blocks (the padded message is a multiple of 64). -/
def chunkBlocks (l : List Nat) : List (List Nat) := blocksGo [] 64 l

/-- Extend the 16 message-schedule words to 64. -/
def sha256Sched (w : List Nat) : Nat → List Nat
  | 0 => w
  | n + 1 =>
    sha256Sched
      (w ++ [(ssig1 (w.getD (w.length - 2) 0) + w.getD (w.length - 7) 0 +
          ssig0 (w.getD (w.length - 15) 0) + w.getD (w.length - 16) 0) % M32]) n

/-- One SHA-256 round on the state `[a, b, c, d, e, f, g, h]`. -/
def sha256Round (st : List Nat) (kt wt : Nat) : List Nat :=
  match st with
  | [a, b, c, d, e, f, g, h] =>
    let t1 := (h + bsig1 e + chF e f g + kt + wt) % M32
    let t2 := (bsig0 a + majF a b c) % M32
    [(t1 + t2) % M32, a, b, c, (d + t1) % M32, e, f, g]
  | _ => st

/-- Compress one 64-byte block into the hash state. -/
def sha256Compress (h : List Nat) (block : List Nat) : List Nat :=
  let w := sha256Sched (chunkWords block) 48
  let st := (List.zip sha256K w).foldl (fun st kw => sha256Round st kw.1 kw.2) h
  (List.zip h st).map fun p => (p.1 + p.2) % M32

def hexLowerDigit (n : Nat) : Char :=
  if n < 10 then Char.ofNat (48 + n) else Char.ofNat (87 + n)

def toHex8 (w : Nat) : Chars :=
  [28, 24, 20, 16, 12, 8, 4, 0].map fun s => hexLowerDigit (w / 2 ^ s % 16)

/-- `hashlib.sha256(bytes).hexdigest()`. -/
def sha256Hex (msg : List Nat) : Chars :=
  ((chunkBlocks (sha256Pad msg)).foldl sha256Compress sha256H0).flatMap toHex8

/-- `stable_id`: sha256 of `normalized title + "|" + canonical url` (UTF-8),
first 24 hex characters.  (In `fetch_items` the `url` argument is already a
canonical URL, so the canonicalization here runs a second time, as in the
source.) -/
def stable_id (title url : String) : String :=
  let base := normalize_title title ++ "|" ++ canonicalize_url url
  String.mk ((sha256Hex (utf8Encode base.data)).take 24)

/-! ### `looks_like_live_update` -/

/-- The literal texts of `LIVE_UPDATE_PATTERNS`; each pattern is the text
wrapped in `\b` word boundaries. -/
def LIVE_UPDATE_PHRASES : List Chars :=
  ["live updates", "live blog", "live"].map String.data

/-- Does `pat` occur at the head of `t`, with `\b` word boundaries against
`prev` (the character before `t`, if any) and the character after the
match?  (The phrases begin and end with word characters, so `\b` holds
exactly when the neighbour is absent or a non-word character.) -/
def phraseAt (pat : Chars) (prev : Option Char) (t : Chars) : Bool :=
  pat.isPrefixOf t &&
    (match prev with | none => true | some c => !pyIsWord c) &&
    (match t.drop pat.length with | [] => true | c :: _ => !pyIsWord c)

/-- `re.search` of a `\b`-delimited literal phrase: try every position. -/
def phraseSearch (pat : Chars) : Option Char → Chars → Bool
  | prev, [] => phraseAt pat prev []
  | prev, c :: rest => phraseAt pat prev (c :: rest) || phraseSearch pat (some c) rest

/-- `looks_like_live_update`: lower-case the title and search each pattern. -/
def looks_like_live_update (title : String) : Bool :=
  let t := lowerL title.data
  LIVE_UPDATE_PHRASES.any fun pat => phraseSearch pat none t

/-! ### Items and ingestion (`fetch_items`) -/

/-- A normalized item, as built by `fetch_items` (one Python dict). -/
structure Item where
  id : String
  title : String
  url : String
  published_utc : String
  category : String
  feed : String
  is_live_update : Bool
deriving DecidableEq, Repr

/-- One feedparser entry, reduced to the fields the source reads.  The two
time structs are modelled as resolved ISO-8601 UTC timestamp strings
(`none` when absent or unparseable); for this fixed-width format the
`datetime` order used by the code equals lexicographic string order. -/
structure FeedEntry where
  title : String
  link : String
  published_parsed : Option String
  updated_parsed : Option String
deriving DecidableEq, Repr

/-- `parse_entry_datetime`: `published_parsed or updated_parsed`. -/
def parse_entry_datetime (e : FeedEntry) : Option String :=
  match e.published_parsed with
  | some t => some t
  | none => e.updated_parsed

def pyStripStr (s : String) : String := String.mk (pyStrip s.data)

/-- Code-point lexicographic `<` on character lists, as a computable
`Bool` (Python string comparison; Lean's own `String.lt` decision
procedure is compiled by well-founded recursion and does not reduce). -/
def charsLtB : Chars → Chars → Bool
  | [], [] => false
  | [], _ :: _ => true
  | _ :: _, [] => false
  | a :: as, b :: bs =>
    if a < b then true else if b < a then false else charsLtB as bs

/-- Python `<` on strings. -/
def strLtB (a b : String) : Bool := charsLtB a.data b.data

/-- One step of the dedup dict: `dedup[id] = it` when the id is new or the
incoming `published_utc` is strictly greater; a replacement keeps the
key's original position (Python dict update semantics). -/
def dedupInsert (acc : List (String × Item)) (it : Item) : List (String × Item) :=
  match acc with
  | [] => [(it.id, it)]
  | (k, e) :: rest =>
    if k = it.id then
      if strLtB e.published_utc it.published_utc then (k, it) :: rest
      else (k, e) :: rest
    else (k, e) :: dedupInsert rest it

/-- Stable insertion (descending `published_utc`) for the final sort. -/
def insertDesc (it : Item) : List Item → List Item
  | [] => [it]
  | x :: xs =>
    if strLtB x.published_utc it.published_utc then it :: x :: xs
    else x :: insertDesc it xs

/-- `items.sort(key=published_utc, reverse=True)`: Python's sort is stable,
so the result is the unique descending order that keeps ties in dict
order; a stable insertion sort computes exactly that list. -/
def sortByRecency (l : List Item) : List Item :=
  l.foldl (fun acc it => insertDesc it acc) []

/-- The surviving items of the dedup dict, in dict (first-insertion) order. -/
def dedupValues (raw : List Item) : List Item :=
  (raw.foldl dedupInsert []).map Prod.snd

/-- The deduplicated, recency-sorted working set built from the raw item
collection (the second half of `fetch_items`). -/
def workingSet (raw : List Item) : List Item :=
  sortByRecency (dedupValues raw)

/-- `fetch_items`, parameterized by the cutoff timestamp (the source
computes `now − 36h`) and by the configured feeds with their entries (the
network fetch is the external boundary).  Returns `(raw, items)`: the
per-entry filters (missing title/link/timestamp, stale) run before an item
is appended to `raw`; `items` is the deduplicated, recency-sorted set. -/
def fetch_items (cutoff : String)
    (feeds : List (String × String × List FeedEntry)) : List Item × List Item :=
  let raw := feeds.flatMap fun cf =>
    cf.2.2.filterMap fun e =>
      let title := pyStripStr e.title
      let link := pyStripStr e.link
      match parse_entry_datetime e with
      | none => none
      | some dt =>
        if title = "" ∨ link = "" then none
        else if strLtB dt cutoff then none
        else
          let c_url := canonicalize_url link
          some { id := stable_id title c_url, title := title, url := c_url,
                 published_utc := dt, category := cf.1, feed := cf.2.1,
                 is_live_update := looks_like_live_update title }
  (raw, workingSet raw)

/-! ### Lineup selection -/

/-- Per-category quota bounds. -/
structure Bounds where
  min : Nat
  max : Nat
deriving DecidableEq, Repr

/-- The `PLAN` dict as a function; the source only ever looks up the seven
categories below. -/
def PLAN : String → Bounds := fun c =>
  if c = "TOP" then ⟨5, 5⟩
  else if c = "US_POLITICS" then ⟨1, 2⟩
  else if c = "FOREIGN_POLICY" then ⟨1, 2⟩
  else if c = "WORLD" then ⟨1, 2⟩
  else if c = "BUSINESS" then ⟨1, 2⟩
  else if c = "TECH" then ⟨1, 2⟩
  else if c = "SPORTS" then ⟨1, 1⟩
  else ⟨0, 0⟩

/-- `pick_items`, with the mutable `used_ids` set threaded through.  The
loop breaks when `len(picks) >= count` *after* appending, which with the
count of still-wanted picks is the test `count ≤ 1` below (so a call with
`count = 0` still selects one eligible item, exactly as the source does;
`build_lineup` never passes 0). -/
def pick_items (items : List Item) (category : String) (used_ids : List String)
    (count : Nat) (avoid_live_updates : Bool) : List Item × List String :=
  match items with
  | [] => ([], used_ids)
  | it :: rest =>
    if it.id ∈ used_ids ∨ it.category ≠ category ∨
        (avoid_live_updates ∧ it.is_live_update) then
      pick_items rest category used_ids count avoid_live_updates
    else
      let used' := it.id :: used_ids
      if count ≤ 1 then ([it], used')
      else
        let pr := pick_items rest category used' (count - 1) avoid_live_updates
        (it :: pr.1, pr.2)

/-- The topical categories of the `build_lineup` loop, in order. -/
def CATS : List String := ["US_POLITICS", "FOREIGN_POLICY", "WORLD", "BUSINESS", "TECH", "SPORTS"]

/-- The loop body of `build_lineup` for one topical category: a first pass
up to `max` avoiding live updates, then, if short of `min`, a second pass
for `min − count` admitting them. -/
def selectCategory (plan : String → Bounds) (items : List Item) (cat : String)
    (used : List String) : List Item × List String :=
  let fp := pick_items items cat used (plan cat).max true
  if fp.1.length < (plan cat).min then
    let sp := pick_items items cat fp.2 ((plan cat).min - fp.1.length) false
    (fp.1 ++ sp.1, sp.2)
  else fp

/-- The `build_lineup` loop over the topical categories, threading the
used-id set. -/
def selectRest (plan : String → Bounds) (items : List Item) :
    List String → List String → List (String × List Item)
  | _, [] => []
  | used, cat :: cats =>
    let sc := selectCategory plan items cat used
    (cat, sc.1) :: selectRest plan items sc.2 cats

/-- `build_lineup` with the quota plan as a parameter: TOP is selected
first with a single live-update-avoiding pass up to its `max` (the source
has no second pass for TOP), then each topical category runs the two-pass
body. -/
def build_lineup_with (plan : String → Bounds) (items : List Item) :
    List (String × List Item) :=
  let top := pick_items items "TOP" [] (plan "TOP").max true
  ("TOP", top.1) :: selectRest plan items top.2 CATS

/-- `build_lineup` as in the source, with the fixed `PLAN`. -/
def build_lineup (items : List Item) : List (String × List Item) :=
  build_lineup_with PLAN items

/-- Look a category's list up in a lineup (absent categories are empty). -/
def lineupGet (lineup : List (String × List Item)) (cat : String) : List Item :=
  match lineup.lookup cat with
  | some l => l
  | none => []

/-- The per-item eligibility test of a `pick_items` pass, ignoring the
used-id set: category match, and no live update when avoiding them. -/
def eligB (cat : String) (avoid : Bool) (it : Item) : Bool :=
  it.category == cat && !(avoid && it.is_live_update)

/-! ### Spec-modelled selector

These definitions follow the wording of the specification (§4.5) rather
than the source, to compare the two. -/

/-- Modelled from the spec: scan the candidate sequence in order, selecting
at most `target` items of the category whose id is unused (and which are
not live updates when `avoidLive` is set), marking each selected id used. -/
def specScan (cat : String) (avoidLive : Bool) :
    Nat → List Item → List String → List Item × List String
  | 0, _, used => ([], used)
  | _ + 1, [], used => ([], used)
  | t + 1, it :: rest, used =>
    if it.category = cat ∧ it.id ∉ used ∧ (avoidLive → it.is_live_update = false) then
      let pr := specScan cat avoidLive t rest (it.id :: used)
      (it :: pr.1, pr.2)
    else specScan cat avoidLive (t + 1) rest used

/-- Modelled from the spec: the two-pass mechanics for one category —
first pass up to `max` excluding live updates; when fewer than `min` were
selected, a second pass over the same order admitting live updates with
target `min − count_so_far`. -/
def spec_two_pass_category (plan : String → Bounds) (items : List Item)
    (cat : String) (used : List String) : List Item × List String :=
  let fp := specScan cat true (plan cat).max items used
  if fp.1.length < (plan cat).min then
    let sp := specScan cat false ((plan cat).min - fp.1.length) items fp.2
    (fp.1 ++ sp.1, sp.2)
  else fp

/-- Modelled from the spec: apply the two-pass mechanics category by
category in priority order, threading the used-id set. -/
def spec_rest (plan : String → Bounds) (items : List Item) :
    List String → List String → List (String × List Item)
  | _, [] => []
  | used, cat :: cats =>
    let sc := spec_two_pass_category plan items cat used
    (cat, sc.1) :: spec_rest plan items sc.2 cats

/-- Modelled from the claim as stated: every category, TOP included,
follows the two-pass mechanics. -/
def spec_uniform_lineup (plan : String → Bounds) (items : List Item) :
    List (String × List Item) :=
  spec_rest plan items [] ("TOP" :: CATS)

/-- Modelled from the spec as amended: TOP runs only the first pass, the
topical categories follow the two-pass mechanics. -/
def spec_lineup (plan : String → Bounds) (items : List Item) :
    List (String × List Item) :=
  let top := specScan "TOP" true (plan "TOP").max items []
  ("TOP", top.1) :: spec_rest plan items top.2 CATS

/-- The characters that can occur in `quote_plus` output: unreserved
characters (alphanumerics and `_.-~`), `%` and `+`. -/
def goodPairChar (c : Char) : Bool :=
  (48 ≤ c.toNat && c.toNat ≤ 57) || (65 ≤ c.toNat && c.toNat ≤ 90) ||
    (97 ≤ c.toNat && c.toNat ≤ 122) || c.toNat == 95 || c.toNat == 46 ||
    c.toNat == 45 || c.toNat == 126 || c.toNat == 37 || c.toNat == 43

/-- The characters that can occur in `urlencode` output: `quote_plus`
output plus the separators `=` and `&`. -/
def goodQueryChar (c : Char) : Bool :=
  goodPairChar c || c.toNat == 61 || c.toNat == 38

/-! ## The boolean string comparison agrees with the order on `String` -/

theorem charsLtB_iff : ∀ as bs : Chars, charsLtB as bs = true ↔ List.Lex (· < ·) as bs := by
  intro as
  induction as with
  | nil =>
    intro bs
    cases bs with
    | nil =>
      refine iff_of_false (by simp [charsLtB]) fun h => ?_
      cases h
    | cons b bs => exact iff_of_true rfl List.Lex.nil
  | cons a as ih =>
    intro bs
    cases bs with
    | nil =>
      refine iff_of_false (by simp [charsLtB]) fun h => ?_
      cases h
    | cons b bs =>
      simp only [charsLtB]
      by_cases h1 : a < b
      · rw [if_pos h1]
        exact iff_of_true rfl (List.Lex.rel h1)
      · rw [if_neg h1]
        by_cases h2 : b < a
        · rw [if_pos h2]
          refine iff_of_false (by simp) fun h => ?_
          cases h with
          | cons h' => exact absurd h2 (lt_irrefl _)
          | rel h' => exact h1 h'
        · rw [if_neg h2]
          have hab : a = b := le_antisymm (le_of_not_lt h2) (le_of_not_lt h1)
          subst hab
          rw [ih bs]
          constructor
          · exact List.Lex.cons
          · intro h
            cases h with
            | cons h' => exact h'
            | rel h' => exact absurd h' (lt_irrefl _)

theorem strLtB_iff (a b : String) : strLtB a b = true ↔ a < b := by
  rw [String.lt_iff_toList_lt]
  exact charsLtB_iff a.data b.data

theorem strLtB_false_iff (a b : String) : strLtB a b = false ↔ b ≤ a := by
  show strLtB a b = false ↔ ¬a < b
  rw [← strLtB_iff]
  cases strLtB a b <;> simp

/-! ## Lemmas about the selector -/

theorem pick_items_used_mono (items : List Item) (cat : String) :
    ∀ (used : List String) (count : Nat) (avoid : Bool),
      used ⊆ (pick_items items cat used count avoid).2 := by
  induction items with
  | nil => intro used count avoid; simp [pick_items]
  | cons it rest ih =>
    intro used count avoid
    simp only [pick_items]
    split
    · exact ih used count avoid
    · by_cases hc : count ≤ 1
      · simp only [if_pos hc]
        exact List.subset_cons_self _ _
      · simp only [if_neg hc]
        exact (List.subset_cons_self _ _).trans (ih (it.id :: used) (count - 1) avoid)

theorem pick_items_mem_used (items : List Item) (cat : String) :
    ∀ (used : List String) (count : Nat) (avoid : Bool) (it : Item),
      it ∈ (pick_items items cat used count avoid).1 →
      it.id ∈ (pick_items items cat used count avoid).2 := by
  induction items with
  | nil => intro used count avoid it h; simp [pick_items] at h
  | cons x rest ih =>
    intro used count avoid it h
    simp only [pick_items] at h ⊢
    split at h
    · rename_i hskip
      rw [if_pos hskip]  -- keep goal and hypothesis on the same branch
      exact ih used count avoid it h
    · rename_i hskip
      rw [if_neg hskip]
      by_cases hc : count ≤ 1
      · simp only [if_pos hc] at h ⊢
        rcases List.mem_singleton.mp h with rfl
        exact List.mem_cons_self _ _
      · simp only [if_neg hc] at h ⊢
        rcases List.mem_cons.mp h with rfl | hmem
        · exact pick_items_used_mono rest cat _ _ _ (List.mem_cons_self _ _)
        · exact ih _ _ _ _ hmem

theorem pick_items_fresh (items : List Item) (cat : String) :
    ∀ (used : List String) (count : Nat) (avoid : Bool) (it : Item),
      it ∈ (pick_items items cat used count avoid).1 → it.id ∉ used := by
  induction items with
  | nil => intro used count avoid it h; simp [pick_items] at h
  | cons x rest ih =>
    intro used count avoid it h
    simp only [pick_items] at h
    split at h
    · exact ih used count avoid it h
    · rename_i hskip
      push_neg at hskip
      by_cases hc : count ≤ 1
      · simp only [if_pos hc] at h
        rcases List.mem_singleton.mp h with rfl
        exact hskip.1
      · simp only [if_neg hc] at h
        rcases List.mem_cons.mp h with rfl | hmem
        · exact hskip.1
        · intro hu
          exact ih _ _ _ _ hmem (List.mem_cons_of_mem _ hu)

theorem pick_items_sub (items : List Item) (cat : String) :
    ∀ (used : List String) (count : Nat) (avoid : Bool),
      (pick_items items cat used count avoid).1 ⊆ items := by
  induction items with
  | nil => intro used count avoid; simp [pick_items]
  | cons x rest ih =>
    intro used count avoid
    simp only [pick_items]
    split
    · exact (ih used count avoid).trans (List.subset_cons_self _ _)
    · by_cases hc : count ≤ 1
      · simp only [if_pos hc]
        intro y hy
        rcases List.mem_singleton.mp hy with rfl
        exact List.mem_cons_self _ _
      · simp only [if_neg hc]
        intro y hy
        rcases List.mem_cons.mp hy with rfl | hmem
        · exact List.mem_cons_self _ _
        · exact List.mem_cons_of_mem _ (ih _ _ _ hmem)

theorem selectCategory_used_mono (plan : String → Bounds) (items : List Item)
    (cat : String) (used : List String) :
    used ⊆ (selectCategory plan items cat used).2 := by
  simp only [selectCategory]
  split
  · exact (pick_items_used_mono items cat used _ true).trans
      (pick_items_used_mono items cat _ _ false)
  · exact pick_items_used_mono items cat used _ true

theorem selectCategory_mem_used (plan : String → Bounds) (items : List Item)
    (cat : String) (used : List String) (it : Item)
    (h : it ∈ (selectCategory plan items cat used).1) :
    it.id ∈ (selectCategory plan items cat used).2 := by
  simp only [selectCategory] at h ⊢
  split at h <;> rename_i hlt
  · rw [if_pos hlt]
    rcases List.mem_append.mp h with h1 | h2
    · exact pick_items_used_mono items cat _ _ false
        (pick_items_mem_used items cat used _ true it h1)
    · exact pick_items_mem_used items cat _ _ false it h2
  · rw [if_neg hlt]
    exact pick_items_mem_used items cat used _ true it h

theorem selectCategory_fresh (plan : String → Bounds) (items : List Item)
    (cat : String) (used : List String) (it : Item)
    (h : it ∈ (selectCategory plan items cat used).1) : it.id ∉ used := by
  simp only [selectCategory] at h
  split at h
  · rcases List.mem_append.mp h with h1 | h2
    · exact pick_items_fresh items cat used _ true it h1
    · intro hu
      exact pick_items_fresh items cat _ _ false it h2
        (pick_items_used_mono items cat used _ true hu)
  · exact pick_items_fresh items cat used _ true it h

theorem selectCategory_sub (plan : String → Bounds) (items : List Item)
    (cat : String) (used : List String) :
    (selectCategory plan items cat used).1 ⊆ items := by
  simp only [selectCategory]
  split
  · intro y hy
    rcases List.mem_append.mp hy with h1 | h2
    · exact pick_items_sub items cat used _ true h1
    · exact pick_items_sub items cat _ _ false h2
  · exact pick_items_sub items cat used _ true

theorem lineupGet_cons (k : String) (l : List Item)
    (rest : List (String × List Item)) (c : String) :
    lineupGet ((k, l) :: rest) c = if c = k then l else lineupGet rest c := by
  by_cases h : c = k
  · subst h
    simp [lineupGet, List.lookup]
  · have hbeq : (c == k) = false := beq_eq_false_iff_ne.mpr h
    simp [lineupGet, List.lookup, hbeq, h]

theorem selectRest_get_fresh (plan : String → Bounds) (items : List Item) :
    ∀ (cats : List String) (used : List String) (c : String) (it : Item),
      it ∈ lineupGet (selectRest plan items used cats) c → it.id ∉ used := by
  intro cats
  induction cats with
  | nil => intro used c it h; simp [selectRest, lineupGet, List.lookup] at h
  | cons cat cats ih =>
    intro used c it h
    simp only [selectRest] at h
    rw [lineupGet_cons] at h
    by_cases hc : c = cat
    · rw [if_pos hc] at h
      exact selectCategory_fresh plan items cat used it h
    · rw [if_neg hc] at h
      intro hu
      exact ih _ c it h (selectCategory_used_mono plan items cat used hu)

theorem selectRest_get_sub (plan : String → Bounds) (items : List Item) :
    ∀ (cats : List String) (used : List String) (c : String) (it : Item),
      it ∈ lineupGet (selectRest plan items used cats) c → it ∈ items := by
  intro cats
  induction cats with
  | nil => intro used c it h; simp [selectRest, lineupGet, List.lookup] at h
  | cons cat cats ih =>
    intro used c it h
    simp only [selectRest] at h
    rw [lineupGet_cons] at h
    by_cases hc : c = cat
    · rw [if_pos hc] at h
      exact selectCategory_sub plan items cat used h
    · rw [if_neg hc] at h
      exact ih _ c it h

theorem selectRest_get_cross (plan : String → Bounds) (items : List Item) :
    ∀ (cats : List String) (used : List String) (c1 c2 : String) (it1 it2 : Item),
      it1 ∈ lineupGet (selectRest plan items used cats) c1 →
      it2 ∈ lineupGet (selectRest plan items used cats) c2 →
      it1.id = it2.id → c1 = c2 := by
  intro cats
  induction cats with
  | nil => intro used c1 c2 it1 it2 h1 h2 _; simp [selectRest, lineupGet, List.lookup] at h1
  | cons cat cats ih =>
    intro used c1 c2 it1 it2 h1 h2 hid
    simp only [selectRest] at h1 h2
    rw [lineupGet_cons] at h1 h2
    by_cases hc1 : c1 = cat <;> by_cases hc2 : c2 = cat
    · rw [hc1, hc2]
    · rw [if_pos hc1] at h1
      rw [if_neg hc2] at h2
      have hmem := selectCategory_mem_used plan items cat used it1 h1
      have hfresh := selectRest_get_fresh plan items cats _ c2 it2 h2
      rw [hid] at hmem
      exact absurd hmem hfresh
    · rw [if_neg hc1] at h1
      rw [if_pos hc2] at h2
      have hmem := selectCategory_mem_used plan items cat used it2 h2
      have hfresh := selectRest_get_fresh plan items cats _ c1 it1 h1
      rw [← hid] at hmem
      exact absurd hmem hfresh
    · rw [if_neg hc1] at h1
      rw [if_neg hc2] at h2
      exact ih _ c1 c2 it1 it2 h1 h2 hid

/-- C1: the Lineup assigns no item identifier to two distinct categories:
the selection-time used-id set is threaded through every pick, so an id
selected for one category is skipped by all later ones.  Stated for every
input item sequence and every quota plan (`build_lineup` is the instance
at the source's `PLAN`). -/
theorem lineup_cross_category_exclusive (plan : String → Bounds) (items : List Item)
    (c1 c2 : String) (it1 it2 : Item)
    (h1 : it1 ∈ lineupGet (build_lineup_with plan items) c1)
    (h2 : it2 ∈ lineupGet (build_lineup_with plan items) c2)
    (hid : it1.id = it2.id) : c1 = c2 := by
  simp only [build_lineup_with] at h1 h2
  rw [lineupGet_cons] at h1 h2
  by_cases hc1 : c1 = "TOP" <;> by_cases hc2 : c2 = "TOP"
  · rw [hc1, hc2]
  · rw [if_pos hc1] at h1
    rw [if_neg hc2] at h2
    have hmem := pick_items_mem_used items "TOP" [] (plan "TOP").max true it1 h1
    have hfresh := selectRest_get_fresh plan items CATS _ c2 it2 h2
    rw [hid] at hmem
    exact absurd hmem hfresh
  · rw [if_neg hc1] at h1
    rw [if_pos hc2] at h2
    have hmem := pick_items_mem_used items "TOP" [] (plan "TOP").max true it2 h2
    have hfresh := selectRest_get_fresh plan items CATS _ c1 it1 h1
    rw [← hid] at hmem
    exact absurd hmem hfresh
  · rw [if_neg hc1] at h1
    rw [if_neg hc2] at h2
    exact selectRest_get_cross plan items CATS _ c1 c2 it1 it2 h1 h2 hid

theorem lineup_cross_category_exclusive_witness :
    (Item.mk "a1" "t" "u" "2024-01-01T00:00:00+00:00" "TOP" "f" false ∈
      lineupGet (build_lineup_with PLAN
        [Item.mk "a1" "t" "u" "2024-01-01T00:00:00+00:00" "TOP" "f" false]) "TOP") ∧
    ("TOP" : String) = "TOP" :=
  ⟨by decide,
   lineup_cross_category_exclusive PLAN
     [Item.mk "a1" "t" "u" "2024-01-01T00:00:00+00:00" "TOP" "f" false]
     "TOP" "TOP" (Item.mk "a1" "t" "u" "2024-01-01T00:00:00+00:00" "TOP" "f" false)
     (Item.mk "a1" "t" "u" "2024-01-01T00:00:00+00:00" "TOP" "f" false)
     (by decide) (by decide) rfl⟩

/-! ## The two-pass mechanics (C2) -/

theorem pick_items_eq_specScan (items : List Item) (cat : String) :
    ∀ (used : List String) (count : Nat) (avoid : Bool), 1 ≤ count →
      pick_items items cat used count avoid = specScan cat avoid count items used := by
  induction items with
  | nil =>
    intro used count avoid hc
    obtain ⟨t, rfl⟩ : ∃ t, count = t + 1 := ⟨count - 1, by omega⟩
    simp [pick_items, specScan]
  | cons x rest ih =>
    intro used count avoid hc
    obtain ⟨t, rfl⟩ : ∃ t, count = t + 1 := ⟨count - 1, by omega⟩
    rw [pick_items, specScan]
    by_cases hskip : x.id ∈ used ∨ x.category ≠ cat ∨ (avoid ∧ x.is_live_update)
    · rw [if_pos hskip]
      have hnp : ¬(x.category = cat ∧ x.id ∉ used ∧ (avoid → x.is_live_update = false)) := by
        intro ⟨h1, h2, h3⟩
        rcases hskip with h | h | ⟨ha, hl⟩
        · exact h2 h
        · exact h h1
        · rw [h3 ha] at hl
          cases hl
      rw [if_neg hnp]
      exact ih used (t + 1) avoid hc
    · rw [if_neg hskip]
      push_neg at hskip
      have hp : x.category = cat ∧ x.id ∉ used ∧ (avoid → x.is_live_update = false) := by
        refine ⟨hskip.2.1, hskip.1, fun ha => ?_⟩
        by_contra hl
        exact hskip.2.2 ha (by simpa using hl)
      rw [if_pos hp]
      rcases Nat.eq_zero_or_pos t with rfl | ht

      · simp [specScan]
      · have h1 : ¬(t + 1 ≤ 1) := by omega
        rw [if_neg h1]
        simp only [Nat.add_sub_cancel]
        rw [ih (x.id :: used) t avoid (by omega)]

theorem selectCategory_eq_spec (plan : String → Bounds) (items : List Item)
    (cat : String) (used : List String) (h : 1 ≤ (plan cat).max) :
    selectCategory plan items cat used = spec_two_pass_category plan items cat used := by
  rw [selectCategory, spec_two_pass_category,
    pick_items_eq_specScan items cat used (plan cat).max true h]
  split <;> rename_i hlt
  · rw [pick_items_eq_specScan items cat _ _ false (by omega)]
  · rfl

theorem selectRest_eq_spec (plan : String → Bounds) (items : List Item) :
    ∀ (cats : List String) (used : List String), (∀ c ∈ cats, 1 ≤ (plan c).max) →
      selectRest plan items used cats = spec_rest plan items used cats := by
  intro cats
  induction cats with
  | nil => intro used _; rfl
  | cons cat cats ih =>
    intro used h
    rw [selectRest, spec_rest,
      selectCategory_eq_spec plan items cat used (h cat (List.mem_cons_self _ _)),
      ih _ fun c hc => h c (List.mem_cons_of_mem _ hc)]

/-- C2 (counterexample): the claim says TOP follows the two-pass mechanics
as well.  On a working set holding a single live-update TOP item, the
two-pass mechanics would admit it in the second pass (TOP's first pass
leaves 0 < min = 5), but `build_lineup` has no second pass for TOP and
returns an empty TOP list. -/
theorem top_two_pass_counterexample :
    build_lineup [Item.mk "L1" "t" "u" "2024-01-02T00:00:00+00:00" "TOP" "f" true] ≠
      spec_uniform_lineup PLAN
        [Item.mk "L1" "t" "u" "2024-01-02T00:00:00+00:00" "TOP" "f" true] := by
  decide

/-- C2 (amended): the six topical categories follow the two-pass selection
mechanics — a first pass selecting up to `max` non-live-update unused
items in candidate order, then, when short of `min`, a second pass over
the same order admitting live updates with target `min − count_so_far` —
but TOP runs only the first pass (up to its `max`, avoiding live updates)
and has no second pass.  Stated for every plan whose `max` bounds are
positive (as the source's `PLAN` is). -/
theorem build_lineup_top_first_pass_only (plan : String → Bounds) (items : List Item)
    (h : ∀ c ∈ ("TOP" :: CATS), 1 ≤ (plan c).max) :
    build_lineup_with plan items = spec_lineup plan items := by
  rw [build_lineup_with, spec_lineup,
    pick_items_eq_specScan items "TOP" [] (plan "TOP").max true
      (h "TOP" (List.mem_cons_self _ _)),
    selectRest_eq_spec plan items CATS _ fun c hc => h c (List.mem_cons_of_mem _ hc)]

theorem build_lineup_top_first_pass_only_witness :
    (∀ c ∈ ("TOP" :: CATS), 1 ≤ (PLAN c).max) ∧
    build_lineup_with PLAN
        [Item.mk "L1" "t" "u" "2024-01-02T00:00:00+00:00" "TOP" "f" true] =
      spec_lineup PLAN [Item.mk "L1" "t" "u" "2024-01-02T00:00:00+00:00" "TOP" "f" true] :=
  ⟨by decide,
   build_lineup_top_first_pass_only PLAN
     [Item.mk "L1" "t" "u" "2024-01-02T00:00:00+00:00" "TOP" "f" true] (by decide)⟩

/-! ## Exact capture of eligible items (C5) -/

theorem pick_items_all_eligible (cat : String) (avoid : Bool) :
    ∀ (items : List Item) (used : List String) (count : Nat),
      (items.map Item.id).Nodup →
      (∀ it ∈ items, it.id ∉ used) →
      (items.filter (eligB cat avoid)).length ≤ count →
      (pick_items items cat used count avoid).1 = items.filter (eligB cat avoid) := by
  intro items
  induction items with
  | nil => intro used count _ _ _; simp [pick_items]
  | cons x rest ih =>
    intro used count hnd hused hlen
    rw [List.map_cons] at hnd
    rcases List.nodup_cons.mp hnd with ⟨hxid, hnd'⟩
    by_cases helig : eligB cat avoid x = true
    · have hcond : ¬(x.id ∈ used ∨ x.category ≠ cat ∨ (avoid ∧ x.is_live_update)) := by
        simp only [eligB, Bool.and_eq_true, beq_iff_eq, Bool.not_eq_true',
          Bool.and_eq_false_iff] at helig
        push_neg
        refine ⟨hused x (List.mem_cons_self _ _), helig.1, fun ha => ?_⟩
        rcases helig.2 with h | h
        · rw [h] at ha
          cases ha
        · simpa using h
      rw [pick_items, if_neg hcond]
      rw [List.filter_cons_of_pos helig] at hlen ⊢
      by_cases hc : count ≤ 1
      · rw [if_pos hc]
        have : (rest.filter (eligB cat avoid)).length = 0 := by
          simp only [List.length_cons] at hlen
          omega
        rw [List.length_eq_zero] at this
        rw [this]
      · rw [if_neg hc]
        have hused' : ∀ it ∈ rest, it.id ∉ x.id :: used := by
          intro y hy
          simp only [List.mem_cons, not_or]
          refine ⟨fun hEq => hxid ?_, hused y (List.mem_cons_of_mem _ hy)⟩
          rw [← hEq]
          exact List.mem_map_of_mem Item.id hy
        have hlen' : (rest.filter (eligB cat avoid)).length ≤ count - 1 := by
          simp only [List.length_cons] at hlen
          omega
        show x :: (pick_items rest cat (x.id :: used) (count - 1) avoid).1 =
          x :: rest.filter (eligB cat avoid)
        rw [ih (x.id :: used) (count - 1) hnd' hused' hlen']
    · have hcond : x.id ∈ used ∨ x.category ≠ cat ∨ (avoid ∧ x.is_live_update) := by
        simp only [eligB, Bool.and_eq_true, beq_iff_eq, Bool.not_eq_true',
          Bool.and_eq_false_iff] at helig
        by_cases hcat : x.category = cat
        · right; right
          have h2 : ¬(avoid = false ∨ x.is_live_update = false) :=
            fun h => helig ⟨hcat, h⟩
          push_neg at h2
          exact ⟨by simpa using h2.1, by simpa using h2.2⟩
        · exact Or.inr (Or.inl hcat)
      rw [pick_items, if_pos hcond, List.filter_cons_of_neg (by simpa using helig)]
      have hlen' : (rest.filter (eligB cat avoid)).length ≤ count := by
        rw [List.filter_cons_of_neg (by simpa using helig)] at hlen
        exact hlen
      exact ih used count hnd' (fun y hy => hused y (List.mem_cons_of_mem _ hy)) hlen'

/-! ## Dedup keys and recency sort -/

theorem dedupInsert_fst_mem (it : Item) (k : String) :
    ∀ acc : List (String × Item),
      (k ∈ (dedupInsert acc it).map Prod.fst ↔ k ∈ acc.map Prod.fst ∨ k = it.id) := by
  intro acc
  induction acc with
  | nil => simp [dedupInsert]
  | cons kv rest ih =>
    obtain ⟨k', e⟩ := kv
    rw [dedupInsert]
    by_cases hk : k' = it.id
    · rw [if_pos hk]
      subst hk
      split <;> simp <;> tauto
    · rw [if_neg hk]
      simp only [List.map_cons, List.mem_cons, ih]
      tauto

theorem dedupInsert_keys_nodup (it : Item) :
    ∀ acc : List (String × Item), (acc.map Prod.fst).Nodup →
      ((dedupInsert acc it).map Prod.fst).Nodup := by
  intro acc
  induction acc with
  | nil => intro _; simp [dedupInsert]
  | cons kv rest ih =>
    obtain ⟨k', e⟩ := kv
    intro h
    simp only [List.map_cons] at h
    rcases List.nodup_cons.mp h with ⟨hk', hrest⟩
    rw [dedupInsert]
    by_cases hk : k' = it.id
    · rw [if_pos hk]
      split <;>
      · simp only [List.map_cons]
        exact List.nodup_cons.mpr ⟨hk', hrest⟩
    · rw [if_neg hk]
      simp only [List.map_cons]
      refine List.nodup_cons.mpr ⟨?_, ih hrest⟩
      rw [dedupInsert_fst_mem]
      rintro (h1 | h1)
      · exact hk' h1
      · exact hk h1

theorem foldl_dedupInsert_keys_nodup (raw : List Item) :
    ∀ acc, (acc.map Prod.fst).Nodup →
      ((raw.foldl dedupInsert acc).map Prod.fst).Nodup := by
  induction raw with
  | nil => intro acc h; exact h
  | cons it raw ih =>
    intro acc h
    rw [List.foldl_cons]
    exact ih _ (dedupInsert_keys_nodup it acc h)

theorem dedupInsert_snd_id (it : Item) :
    ∀ acc : List (String × Item), (∀ kv ∈ acc, Item.id kv.2 = kv.1) →
      ∀ kv ∈ dedupInsert acc it, Item.id kv.2 = kv.1 := by
  intro acc
  induction acc with
  | nil =>
    intro _ kv hkv
    rcases List.mem_singleton.mp hkv with rfl
    rfl
  | cons kv0 rest ih =>
    obtain ⟨k', e⟩ := kv0
    intro h kv hkv
    rw [dedupInsert] at hkv
    by_cases hk : k' = it.id
    · rw [if_pos hk] at hkv
      split at hkv <;>
        rcases List.mem_cons.mp hkv with rfl | hmem
      · exact hk.symm
      · exact h _ (List.mem_cons_of_mem _ hmem)
      · exact h _ (List.mem_cons_self _ _)
      · exact h _ (List.mem_cons_of_mem _ hmem)
    · rw [if_neg hk] at hkv
      rcases List.mem_cons.mp hkv with rfl | hmem
      · exact h _ (List.mem_cons_self _ _)
      · exact ih (fun kv h1 => h kv (List.mem_cons_of_mem _ h1)) kv hmem

theorem foldl_dedupInsert_snd_id (raw : List Item) :
    ∀ acc, (∀ kv ∈ acc, Item.id kv.2 = kv.1) →
      ∀ kv ∈ raw.foldl dedupInsert acc, Item.id kv.2 = kv.1 := by
  induction raw with
  | nil => intro acc h; exact h
  | cons it raw ih =>
    intro acc h
    rw [List.foldl_cons]
    exact ih _ (dedupInsert_snd_id it acc h)

theorem dedupValues_ids_nodup (raw : List Item) :
    ((dedupValues raw).map Item.id).Nodup := by
  have h1 := foldl_dedupInsert_keys_nodup raw [] (by simp)
  have h2 := foldl_dedupInsert_snd_id raw [] (by simp)
  have heq : (dedupValues raw).map Item.id = (raw.foldl dedupInsert []).map Prod.fst := by
    rw [dedupValues, List.map_map]
    exact List.map_congr_left fun kv hkv => h2 kv hkv
  rw [heq]
  exact h1

theorem insertDesc_perm (it : Item) (l : List Item) :
    List.Perm (insertDesc it l) (it :: l) := by
  induction l with
  | nil => exact List.Perm.refl _
  | cons x xs ih =>
    rw [insertDesc]
    split
    · exact List.Perm.refl _
    · exact (ih.cons x).trans (List.Perm.swap it x xs)

theorem sortByRecency_perm (l : List Item) : List.Perm (sortByRecency l) l := by
  suffices h : ∀ acc, List.Perm (l.foldl (fun acc it => insertDesc it acc) acc) (l ++ acc) by
    simpa using h []
  induction l with
  | nil => intro acc; simp
  | cons it l ih =>
    intro acc
    rw [List.foldl_cons]
    exact ((ih _).trans (List.Perm.append_left l (insertDesc_perm it acc))).trans
      List.perm_middle

theorem insertDesc_sorted (it : Item) (l : List Item)
    (h : l.Pairwise (fun a b => b.published_utc ≤ a.published_utc)) :
    (insertDesc it l).Pairwise (fun a b => b.published_utc ≤ a.published_utc) := by
  induction l with
  | nil => simp [insertDesc]
  | cons x xs ih =>
    rcases List.pairwise_cons.mp h with ⟨hx, hxs⟩
    rw [insertDesc]
    split <;> rename_i hlt
    · rw [strLtB_iff] at hlt
      refine List.pairwise_cons.mpr ⟨?_, h⟩
      intro y hy
      rcases List.mem_cons.mp hy with rfl | hyxs
      · exact le_of_lt hlt
      · exact le_trans (hx y hyxs) (le_of_lt hlt)
    · rw [Bool.not_eq_true, strLtB_false_iff] at hlt
      refine List.pairwise_cons.mpr ⟨?_, ih hxs⟩
      intro y hy
      rcases List.mem_cons.mp ((insertDesc_perm it xs).mem_iff.mp hy) with rfl | hyxs
      · exact hlt
      · exact hx y hyxs

theorem sortByRecency_sorted (l : List Item) :
    (sortByRecency l).Pairwise (fun a b => b.published_utc ≤ a.published_utc) := by
  suffices h : ∀ acc, acc.Pairwise (fun a b => b.published_utc ≤ a.published_utc) →
      (l.foldl (fun acc it => insertDesc it acc) acc).Pairwise
        (fun a b => b.published_utc ≤ a.published_utc) by
    exact h [] (by simp)
  induction l with
  | nil => intro acc h; exact h
  | cons it l ih =>
    intro acc h
    rw [List.foldl_cons]
    exact ih _ (insertDesc_sorted it acc h)

theorem workingSet_ids_nodup (raw : List Item) :
    ((workingSet raw).map Item.id).Nodup :=
  (((sortByRecency_perm (dedupValues raw)).map Item.id).nodup_iff).mpr
    (dedupValues_ids_nodup raw)

theorem workingSet_sorted (raw : List Item) :
    (workingSet raw).Pairwise (fun a b => b.published_utc ≤ a.published_utc) :=
  sortByRecency_sorted _

/-- C5: when the deduplicated, recency-sorted working set contains exactly
5 distinct non-live-update TOP items (and `PLAN` gives TOP min = max = 5),
the Lineup's TOP list is exactly those 5 items, ordered among themselves
by `published_utc` descending. -/
theorem top_list_exactly_five (raw : List Item)
    (h5 : ((workingSet raw).filter (eligB "TOP" true)).length = 5) :
    lineupGet (build_lineup (workingSet raw)) "TOP" =
      (workingSet raw).filter (eligB "TOP" true) ∧
    ((workingSet raw).filter (eligB "TOP" true)).Pairwise
      (fun a b => b.published_utc ≤ a.published_utc) := by
  constructor
  · have hmax : (PLAN "TOP").max = 5 := by decide
    have hget : lineupGet (build_lineup (workingSet raw)) "TOP" =
        (pick_items (workingSet raw) "TOP" [] (PLAN "TOP").max true).1 := by
      rw [build_lineup, build_lineup_with, lineupGet_cons, if_pos rfl]
    rw [hget, hmax]
    exact pick_items_all_eligible "TOP" true (workingSet raw) [] 5
      (workingSet_ids_nodup raw) (by simp) (by omega)
  · exact (workingSet_sorted raw).filter _

theorem top_list_exactly_five_witness :
    ((workingSet [
        Item.mk "a" "t" "u" "2024-01-05T00:00:00+00:00" "TOP" "f" false,
        Item.mk "b" "t" "u" "2024-01-04T00:00:00+00:00" "TOP" "f" false,
        Item.mk "c" "t" "u" "2024-01-03T00:00:00+00:00" "TOP" "f" false,
        Item.mk "d" "t" "u" "2024-01-02T00:00:00+00:00" "TOP" "f" false,
        Item.mk "e" "t" "u" "2024-01-01T00:00:00+00:00" "TOP" "f" false,
        Item.mk "g" "t" "u" "2024-01-06T00:00:00+00:00" "TOP" "f" true,
        Item.mk "h" "t" "u" "2024-01-06T00:00:00+00:00" "SPORTS" "f" false]).filter
          (eligB "TOP" true)).length = 5 ∧
    lineupGet (build_lineup (workingSet [
        Item.mk "a" "t" "u" "2024-01-05T00:00:00+00:00" "TOP" "f" false,
        Item.mk "b" "t" "u" "2024-01-04T00:00:00+00:00" "TOP" "f" false,
        Item.mk "c" "t" "u" "2024-01-03T00:00:00+00:00" "TOP" "f" false,
        Item.mk "d" "t" "u" "2024-01-02T00:00:00+00:00" "TOP" "f" false,
        Item.mk "e" "t" "u" "2024-01-01T00:00:00+00:00" "TOP" "f" false,
        Item.mk "g" "t" "u" "2024-01-06T00:00:00+00:00" "TOP" "f" true,
        Item.mk "h" "t" "u" "2024-01-06T00:00:00+00:00" "SPORTS" "f" false])) "TOP" =
      (workingSet [
        Item.mk "a" "t" "u" "2024-01-05T00:00:00+00:00" "TOP" "f" false,
        Item.mk "b" "t" "u" "2024-01-04T00:00:00+00:00" "TOP" "f" false,
        Item.mk "c" "t" "u" "2024-01-03T00:00:00+00:00" "TOP" "f" false,
        Item.mk "d" "t" "u" "2024-01-02T00:00:00+00:00" "TOP" "f" false,
        Item.mk "e" "t" "u" "2024-01-01T00:00:00+00:00" "TOP" "f" false,
        Item.mk "g" "t" "u" "2024-01-06T00:00:00+00:00" "TOP" "f" true,
        Item.mk "h" "t" "u" "2024-01-06T00:00:00+00:00" "SPORTS" "f" false]).filter
          (eligB "TOP" true) :=
  ⟨by decide,
   (top_list_exactly_five [
      Item.mk "a" "t" "u" "2024-01-05T00:00:00+00:00" "TOP" "f" false,
      Item.mk "b" "t" "u" "2024-01-04T00:00:00+00:00" "TOP" "f" false,
      Item.mk "c" "t" "u" "2024-01-03T00:00:00+00:00" "TOP" "f" false,
      Item.mk "d" "t" "u" "2024-01-02T00:00:00+00:00" "TOP" "f" false,
      Item.mk "e" "t" "u" "2024-01-01T00:00:00+00:00" "TOP" "f" false,
      Item.mk "g" "t" "u" "2024-01-06T00:00:00+00:00" "TOP" "f" true,
      Item.mk "h" "t" "u" "2024-01-06T00:00:00+00:00" "SPORTS" "f" false] (by decide)).1⟩

/-! ## Dedup lookup characterization (C4, C10) -/

theorem lookup_mem : ∀ (l : List (String × Item)) (k : String) (v : Item),
    l.lookup k = some v → (k, v) ∈ l := by
  intro l
  induction l with
  | nil => intro k v h; simp [List.lookup] at h
  | cons kv rest ih =>
    intro k v h
    obtain ⟨k', v'⟩ := kv
    rw [List.lookup] at h
    by_cases hk : k = k'
    · subst hk
      simp only [beq_self_eq_true, Option.some.injEq] at h
      subst h
      exact List.mem_cons_self _ _
    · simp only [beq_eq_false_iff_ne.mpr hk] at h
      exact List.mem_cons_of_mem _ (ih k v h)

theorem lookup_eq_none_iff (k : String) :
    ∀ l : List (String × Item), (l.lookup k = none ↔ k ∉ l.map Prod.fst) := by
  intro l
  induction l with
  | nil => simp [List.lookup]
  | cons kv rest ih =>
    obtain ⟨k', v⟩ := kv
    rw [List.lookup]
    by_cases hk : k = k'
    · subst hk
      simp
    · simp [beq_eq_false_iff_ne.mpr hk, ih, hk]

theorem dedupInsert_lookup_ne (it : Item) (k : String) (hne : k ≠ it.id) :
    ∀ acc : List (String × Item), (dedupInsert acc it).lookup k = acc.lookup k := by
  intro acc
  induction acc with
  | nil => simp [dedupInsert, List.lookup, beq_eq_false_iff_ne.mpr hne]
  | cons kv rest ih =>
    obtain ⟨k', e⟩ := kv
    rw [dedupInsert]
    by_cases hk : k' = it.id
    · rw [if_pos hk]
      have hkk : (k == k') = false := beq_eq_false_iff_ne.mpr (hk ▸ hne)
      split <;> simp [List.lookup, hkk]
    · rw [if_neg hk]
      rw [List.lookup, List.lookup]
      by_cases hkk : k = k'
      · subst hkk
        simp
      · simp [beq_eq_false_iff_ne.mpr hkk, ih]

theorem dedupInsert_lookup_self (it : Item) :
    ∀ acc : List (String × Item),
      (dedupInsert acc it).lookup it.id =
        some (match acc.lookup it.id with
              | none => it
              | some e => if strLtB e.published_utc it.published_utc then it else e) := by
  intro acc
  induction acc with
  | nil => simp [dedupInsert, List.lookup]
  | cons kv rest ih =>
    obtain ⟨k', e⟩ := kv
    rw [dedupInsert]
    by_cases hk : k' = it.id
    · rw [if_pos hk]
      subst hk
      split <;> rename_i hpu <;> simp [List.lookup, hpu]
    · rw [if_neg hk]
      have hne : (it.id == k') = false := beq_eq_false_iff_ne.mpr fun h => hk h.symm
      rw [List.lookup, List.lookup]
      simp only [hne, ih]

theorem foldl_dedupInsert_fst_mem (k : String) :
    ∀ (raw : List Item) (acc : List (String × Item)),
      (k ∈ (raw.foldl dedupInsert acc).map Prod.fst ↔
        k ∈ acc.map Prod.fst ∨ k ∈ raw.map Item.id) := by
  intro raw
  induction raw with
  | nil => intro acc; simp
  | cons it raw ih =>
    intro acc
    rw [List.foldl_cons, ih, dedupInsert_fst_mem]
    simp only [List.map_cons, List.mem_cons]
    tauto

/-- The survivor that the dedup dict stores for a key is the first item of
the input attaining the maximum `published_utc` among that id: everything
before it with the same id is strictly older, everything after it no
newer. -/
theorem dedup_lookup_first_max (raw : List Item) (id : String) :
    ∀ s : Item, (raw.foldl dedupInsert []).lookup id = some s →
    ∃ l1 l2, raw = l1 ++ s :: l2 ∧ s.id = id ∧
      (∀ x ∈ l1, x.id = id → x.published_utc < s.published_utc) ∧
      (∀ x ∈ l2, x.id = id → x.published_utc ≤ s.published_utc) := by
  induction raw using List.reverseRecOn with
  | nil => intro s h; simp [List.lookup] at h
  | append_singleton l x ih =>
    intro s h
    rw [List.foldl_append, List.foldl_cons, List.foldl_nil] at h
    by_cases hne : id = x.id
    case neg =>
      rw [dedupInsert_lookup_ne x id hne] at h
      obtain ⟨l1, l2, heq, hsid, h1, h2⟩ := ih s h
      subst heq
      refine ⟨l1, l2 ++ [x], by simp, hsid, h1, ?_⟩
      intro y hy hyid
      rcases List.mem_append.mp hy with hy | hy
      · exact h2 y hy hyid
      · rcases List.mem_singleton.mp hy with rfl
        exact absurd hyid.symm hne
    case pos =>
      subst hne
      rw [dedupInsert_lookup_self] at h
      cases hD : (l.foldl dedupInsert []).lookup x.id with
      | none =>
        rw [hD] at h
        simp only [Option.some.injEq] at h
        subst h
        refine ⟨l, [], by simp, rfl, ?_, by simp⟩
        intro y hy hyid
        exfalso
        have hnone := (lookup_eq_none_iff x.id _).mp hD
        rw [foldl_dedupInsert_fst_mem] at hnone
        push_neg at hnone
        exact hnone.2 (hyid ▸ List.mem_map_of_mem Item.id hy)
      | some e =>
        rw [hD] at h
        simp only [Option.some.injEq] at h
        obtain ⟨l1, l2, heq, heid, h1, h2⟩ := ih e hD
        subst heq
        by_cases hpu : strLtB e.published_utc x.published_utc = true
        · rw [if_pos hpu] at h
          subst h
          rw [strLtB_iff] at hpu
          refine ⟨l1 ++ e :: l2, [], by simp, rfl, ?_, by simp⟩
          intro y hy hyid
          rcases List.mem_append.mp hy with hy | hy
          · exact lt_trans (h1 y hy hyid) hpu
          rcases List.mem_cons.mp hy with rfl | hy
          · exact hpu
          · exact lt_of_le_of_lt (h2 y hy hyid) hpu
        · rw [if_neg hpu] at h
          subst h
          rw [Bool.not_eq_true, strLtB_false_iff] at hpu
          refine ⟨l1, l2 ++ [x], by simp, heid, h1, ?_⟩
          intro y hy hyid
          rcases List.mem_append.mp hy with hy | hy
          · exact h2 y hy hyid
          · rcases List.mem_singleton.mp hy with rfl
            exact hpu

theorem dedupInsert_snd_mem (it : Item) :
    ∀ (acc : List (String × Item)) (kv : String × Item), kv ∈ dedupInsert acc it →
      kv.2 ∈ acc.map Prod.snd ∨ kv.2 = it := by
  intro acc
  induction acc with
  | nil =>
    intro kv h
    rcases List.mem_singleton.mp h with rfl
    right
    rfl
  | cons kv0 rest ih =>
    obtain ⟨k', e⟩ := kv0
    intro kv h
    rw [dedupInsert] at h
    by_cases hk : k' = it.id
    · rw [if_pos hk] at h
      split at h <;> rcases List.mem_cons.mp h with rfl | hm
      · right
        rfl
      · left
        exact List.mem_cons_of_mem _ (List.mem_map_of_mem Prod.snd hm)
      · left
        exact List.mem_cons_self _ _
      · left
        exact List.mem_cons_of_mem _ (List.mem_map_of_mem Prod.snd hm)
    · rw [if_neg hk] at h
      rcases List.mem_cons.mp h with rfl | hm
      · left
        exact List.mem_cons_self _ _
      · rcases ih kv hm with h' | h'
        · left
          exact List.mem_cons_of_mem _ h'
        · right
          exact h'

theorem dedupInsert_snd_map_sub (acc : List (String × Item)) (it : Item) :
    ∀ v ∈ (dedupInsert acc it).map Prod.snd, v ∈ acc.map Prod.snd ∨ v = it := by
  intro v hv
  rcases List.mem_map.mp hv with ⟨kv, hkv, rfl⟩
  exact dedupInsert_snd_mem it acc kv hkv

theorem foldl_dedupInsert_snd_mem (raw : List Item) :
    ∀ (acc : List (String × Item)) (kv : String × Item),
      kv ∈ raw.foldl dedupInsert acc → kv.2 ∈ acc.map Prod.snd ∨ kv.2 ∈ raw := by
  induction raw with
  | nil =>
    intro acc kv h
    left
    exact List.mem_map_of_mem Prod.snd h
  | cons it raw ih =>
    intro acc kv h
    rw [List.foldl_cons] at h
    rcases ih _ kv h with h' | h'
    · rcases dedupInsert_snd_map_sub acc it kv.2 h' with h'' | h''
      · left
        exact h''
      · right
        rw [h'']
        exact List.mem_cons_self _ _
    · right
      exact List.mem_cons_of_mem _ h'

theorem dedupValues_sub (raw : List Item) : ∀ v ∈ dedupValues raw, v ∈ raw := by
  intro v hv
  rcases List.mem_map.mp hv with ⟨kv, hkv, rfl⟩
  rcases foldl_dedupInsert_snd_mem raw [] kv hkv with h | h
  · simp at h
  · exact h

theorem workingSet_sub (raw : List Item) : ∀ v ∈ workingSet raw, v ∈ raw := fun v hv =>
  dedupValues_sub raw v ((sortByRecency_perm _).mem_iff.mp hv)

/-- C4: deduplication yields one item per distinct id (ids of the output
are distinct, the output comes from the input, and every input id is
represented), and for each id the survivor's `published_utc` string is
lexicographically greatest among all items sharing that id. -/
theorem dedup_one_per_id_max_survivor (raw : List Item) :
    ((dedupValues raw).map Item.id).Nodup ∧
    (∀ s ∈ dedupValues raw, s ∈ raw) ∧
    (∀ it ∈ raw, ∃ s ∈ dedupValues raw, s.id = it.id ∧
      ∀ x ∈ raw, x.id = it.id → x.published_utc ≤ s.published_utc) := by
  refine ⟨dedupValues_ids_nodup raw, dedupValues_sub raw, ?_⟩
  intro it hit
  have hkey : it.id ∈ (raw.foldl dedupInsert []).map Prod.fst := by
    rw [foldl_dedupInsert_fst_mem]
    exact Or.inr (List.mem_map_of_mem Item.id hit)
  obtain ⟨s, hs⟩ : ∃ s, (raw.foldl dedupInsert []).lookup it.id = some s := by
    cases hl : (raw.foldl dedupInsert []).lookup it.id with
    | none => exact absurd hkey ((lookup_eq_none_iff it.id _).mp hl)
    | some s => exact ⟨s, rfl⟩
  obtain ⟨l1, l2, heq, hsid, h1, h2⟩ := dedup_lookup_first_max raw it.id s hs
  refine ⟨s, List.mem_map_of_mem Prod.snd (lookup_mem _ it.id s hs), hsid, ?_⟩
  intro x hx hxid
  rw [heq] at hx
  rcases List.mem_append.mp hx with hx | hx
  · exact le_of_lt (h1 x hx hxid)
  rcases List.mem_cons.mp hx with rfl | hx
  · exact le_refl _
  · exact h2 x hx hxid

theorem dedup_one_per_id_max_survivor_witness :
    (Item.mk "x" "t" "u" "2024-01-01T00:00:00+00:00" "TOP" "f" false ∈
      [Item.mk "x" "t" "u" "2024-01-01T00:00:00+00:00" "TOP" "f" false,
       Item.mk "x" "t" "u" "2024-01-02T00:00:00+00:00" "TOP" "f" false]) ∧
    dedupValues
        [Item.mk "x" "t" "u" "2024-01-01T00:00:00+00:00" "TOP" "f" false,
         Item.mk "x" "t" "u" "2024-01-02T00:00:00+00:00" "TOP" "f" false] =
      [Item.mk "x" "t" "u" "2024-01-02T00:00:00+00:00" "TOP" "f" false] ∧
    (∃ s ∈ dedupValues
        [Item.mk "x" "t" "u" "2024-01-01T00:00:00+00:00" "TOP" "f" false,
         Item.mk "x" "t" "u" "2024-01-02T00:00:00+00:00" "TOP" "f" false],
      s.id = "x" ∧
      ∀ x ∈ [Item.mk "x" "t" "u" "2024-01-01T00:00:00+00:00" "TOP" "f" false,
             Item.mk "x" "t" "u" "2024-01-02T00:00:00+00:00" "TOP" "f" false],
        x.id = "x" → x.published_utc ≤ s.published_utc) :=
  ⟨by decide, by decide,
   (dedup_one_per_id_max_survivor
      [Item.mk "x" "t" "u" "2024-01-01T00:00:00+00:00" "TOP" "f" false,
       Item.mk "x" "t" "u" "2024-01-02T00:00:00+00:00" "TOP" "f" false]).2.2
     (Item.mk "x" "t" "u" "2024-01-01T00:00:00+00:00" "TOP" "f" false) (by decide)⟩

/-- C10: when several items share an id, the survivor is the first item in
ingestion order attaining the maximum `published_utc`: every earlier item
with that id is strictly older (a later item replaces only on a strictly
greater timestamp), and every later one is no newer — so among items with
the exact same `published_utc` the earliest-encountered one is kept. -/
theorem dedup_tie_keeps_first_arrival (raw : List Item) (id : String) (s : Item)
    (h : (raw.foldl dedupInsert []).lookup id = some s) :
    ∃ l1 l2, raw = l1 ++ s :: l2 ∧ s.id = id ∧
      (∀ x ∈ l1, x.id = id → x.published_utc < s.published_utc) ∧
      (∀ x ∈ l2, x.id = id → x.published_utc ≤ s.published_utc) :=
  dedup_lookup_first_max raw id s h

theorem dedup_tie_keeps_first_arrival_witness :
    (([Item.mk "x" "ta" "u" "2024-01-01T00:00:00+00:00" "TOP" "f" false,
       Item.mk "x" "tb" "u" "2024-01-01T00:00:00+00:00" "TOP" "f" false].foldl
        dedupInsert []).lookup "x" =
      some (Item.mk "x" "ta" "u" "2024-01-01T00:00:00+00:00" "TOP" "f" false)) ∧
    (∃ l1 l2,
      [Item.mk "x" "ta" "u" "2024-01-01T00:00:00+00:00" "TOP" "f" false,
       Item.mk "x" "tb" "u" "2024-01-01T00:00:00+00:00" "TOP" "f" false] =
        l1 ++ Item.mk "x" "ta" "u" "2024-01-01T00:00:00+00:00" "TOP" "f" false :: l2 ∧
      (Item.mk "x" "ta" "u" "2024-01-01T00:00:00+00:00" "TOP" "f" false).id = "x" ∧
      (∀ x ∈ l1, x.id = "x" →
        x.published_utc <
          (Item.mk "x" "ta" "u" "2024-01-01T00:00:00+00:00" "TOP" "f" false).published_utc) ∧
      (∀ x ∈ l2, x.id = "x" →
        x.published_utc ≤
          (Item.mk "x" "ta" "u" "2024-01-01T00:00:00+00:00" "TOP" "f" false).published_utc)) :=
  ⟨by decide,
   dedup_tie_keeps_first_arrival
     [Item.mk "x" "ta" "u" "2024-01-01T00:00:00+00:00" "TOP" "f" false,
      Item.mk "x" "tb" "u" "2024-01-01T00:00:00+00:00" "TOP" "f" false] "x"
     (Item.mk "x" "ta" "u" "2024-01-01T00:00:00+00:00" "TOP" "f" false) (by decide)⟩

/-! ## Ingestion and the time window (C3) -/

theorem fetch_items_raw_not_stale (cutoff : String)
    (feeds : List (String × String × List FeedEntry)) (it : Item)
    (h : it ∈ (fetch_items cutoff feeds).1) : ¬it.published_utc < cutoff := by
  simp only [fetch_items] at h
  rcases List.mem_flatMap.mp h with ⟨cf, _, hit⟩
  rcases List.mem_filterMap.mp hit with ⟨e, _, he⟩
  cases hdt : parse_entry_datetime e with
  | none =>
    simp only [hdt] at he
    cases he
  | some dt =>
    simp only [hdt] at he
    by_cases hg : pyStripStr e.title = "" ∨ pyStripStr e.link = ""
    · rw [if_pos hg] at he
      cases he
    · rw [if_neg hg] at he
      by_cases hst : strLtB dt cutoff
      · rw [if_pos hst] at he
        cases he
      · rw [if_neg hst] at he
        have hpu : it.published_utc = dt := by
          rw [← Option.some.inj he]
        rw [hpu, ← strLtB_iff]
        exact hst

theorem build_lineup_get_sub (plan : String → Bounds) (items : List Item) (c : String) :
    ∀ it ∈ lineupGet (build_lineup_with plan items) c, it ∈ items := by
  intro it h
  simp only [build_lineup_with] at h
  rw [lineupGet_cons] at h
  by_cases hc : c = "TOP"
  · rw [if_pos hc] at h
    exact pick_items_sub items "TOP" [] _ true h
  · rw [if_neg hc] at h
    exact selectRest_get_sub plan items CATS _ c it h

/-- C3 (counterexample): an ingested entry whose resolved timestamp is
strictly before the cutoff does not appear in the raw collection: the
staleness filter of `fetch_items` runs before the item is appended to
`raw`, so the raw collection here is empty rather than holding the stale
entry's item. -/
theorem stale_entry_not_in_raw_counterexample :
    (fetch_items "2024-01-02T00:00:00+00:00"
      [("SPORTS", "http://feeds.example/s",
        [FeedEntry.mk "Old story" "http://ex.com/a"
          (some "2024-01-01T00:00:00+00:00") none])]).1 = [] := by
  decide

/-- C3 (amended): an item whose `published_utc` is strictly before
`now − lookback_hours` appears nowhere: not in the raw collection (the
filter runs before the append to `raw`), not in the deduplicated working
set, and not in any category list of the Lineup. -/
theorem stale_items_appear_nowhere (cutoff : String)
    (feeds : List (String × String × List FeedEntry)) (it : Item) (c : String)
    (hstale : it.published_utc < cutoff) :
    it ∉ (fetch_items cutoff feeds).1 ∧ it ∉ (fetch_items cutoff feeds).2 ∧
    it ∉ lineupGet (build_lineup (fetch_items cutoff feeds).2) c := by
  have hraw : it ∉ (fetch_items cutoff feeds).1 :=
    fun h => fetch_items_raw_not_stale cutoff feeds it h hstale
  have hitems : it ∉ (fetch_items cutoff feeds).2 := by
    intro h
    exact hraw (workingSet_sub _ it h)
  exact ⟨hraw, hitems, fun h => hitems (build_lineup_get_sub PLAN _ c it h)⟩

theorem stale_items_appear_nowhere_witness :
    (Item.mk "i" "Old story" "u" "2024-01-01T00:00:00+00:00" "SPORTS" "f"
        false).published_utc < "2024-01-02T00:00:00+00:00" ∧
    Item.mk "i" "Old story" "u" "2024-01-01T00:00:00+00:00" "SPORTS" "f" false ∉
      (fetch_items "2024-01-02T00:00:00+00:00"
        [("SPORTS", "http://feeds.example/s",
          [FeedEntry.mk "Old story" "http://ex.com/a"
            (some "2024-01-01T00:00:00+00:00") none])]).1 :=
  have hlt : (Item.mk "i" "Old story" "u" "2024-01-01T00:00:00+00:00" "SPORTS" "f"
      false).published_utc < "2024-01-02T00:00:00+00:00" :=
    (strLtB_iff _ _).mp (by decide)
  ⟨hlt,
   (stale_items_appear_nowhere "2024-01-02T00:00:00+00:00"
      [("SPORTS", "http://feeds.example/s",
        [FeedEntry.mk "Old story" "http://ex.com/a"
          (some "2024-01-01T00:00:00+00:00") none])]
      (Item.mk "i" "Old story" "u" "2024-01-01T00:00:00+00:00" "SPORTS" "f" false)
      "SPORTS" hlt).1⟩

/-! ## Identity depends only on content (C9) -/

/-- C9: the derived identifier is a function of the normalized title and
the canonical URL alone — `stable_id` takes neither category nor source
feed — so entries whose titles normalize equally and whose URLs
canonicalize equally receive the same identifier. -/
theorem stable_id_content_only (t1 u1 t2 u2 : String)
    (ht : normalize_title t1 = normalize_title t2)
    (hu : canonicalize_url u1 = canonicalize_url u2) :
    stable_id t1 u1 = stable_id t2 u2 := by
  rw [stable_id, stable_id, ht, hu]

theorem stable_id_content_only_witness :
    normalize_title "Big Story!!" = normalize_title "big story" ∧
    stable_id "Big Story!!" "http://example.com/story" =
      stable_id "big story" "http://example.com/story" :=
  ⟨by decide,
   stable_id_content_only "Big Story!!" "http://example.com/story" "big story"
     "http://example.com/story" (by decide) rfl⟩

/-! ## UTF-8 round trip -/

theorem toNat_ofNat_valid (n : Nat) (h : n.isValidChar) : (Char.ofNat n).toNat = n := by
  rw [Char.ofNat, dif_pos h]
  simp [Char.ofNatAux, Char.toNat, UInt32.toNat, UInt32.ofNat', Nat.mod_eq_of_lt]

theorem utf8EncodeChar_lt_256 (n : Nat) (h : n < 0x110000) :
    ∀ b ∈ utf8EncodeChar n, b < 256 := by
  intro b hb
  rw [utf8EncodeChar] at hb
  split at hb
  · simp only [List.mem_cons, List.not_mem_nil, or_false] at hb
    omega
  · split at hb
    · simp only [List.mem_cons, List.not_mem_nil, or_false] at hb
      omega
    · split at hb
      · simp only [List.mem_cons, List.not_mem_nil, or_false] at hb
        omega
      · simp only [List.mem_cons, List.not_mem_nil, or_false] at hb
        omega

theorem utf8Encode_lt_256 (s : Chars) : ∀ b ∈ utf8Encode s, b < 256 := by
  intro b hb
  rcases List.mem_flatMap.mp hb with ⟨c, _, hbc⟩
  have hv : c.toNat.isValidChar := c.valid
  rcases hv with h | h
  · exact utf8EncodeChar_lt_256 c.toNat (by omega) b hbc
  · exact utf8EncodeChar_lt_256 c.toNat (by omega) b hbc

theorem utf8Decode_one (b0 : Nat) (bs : List Nat) (h : b0 < 128) :
    utf8DecodeReplace (b0 :: bs) = Char.ofNat b0 :: utf8DecodeReplace bs := by
  rw [utf8DecodeReplace.eq_def]
  simp only [h, if_true, if_pos]

theorem utf8Decode_two (b0 b1 : Nat) (bs : List Nat) (h0 : 194 ≤ b0 ∧ b0 ≤ 223)
    (h1 : utf8Cont b1 = true) :
    utf8DecodeReplace (b0 :: b1 :: bs) =
      Char.ofNat ((b0 - 192) * 64 + (b1 - 128)) :: utf8DecodeReplace bs := by
  have hn : ¬b0 < 128 := by omega
  rw [utf8DecodeReplace.eq_def]
  simp only [hn, h0, h1, if_true, if_false, ite_true, ite_false, and_self]

theorem utf8Decode_three (b0 b1 b2 : Nat) (bs : List Nat) (h0 : 224 ≤ b0 ∧ b0 ≤ 239)
    (h1 : utf8Cont1Ok b0 b1 = true) (h2 : utf8Cont b2 = true) :
    utf8DecodeReplace (b0 :: b1 :: b2 :: bs) =
      Char.ofNat ((b0 - 224) * 4096 + (b1 - 128) * 64 + (b2 - 128)) ::
        utf8DecodeReplace bs := by
  have hn : ¬b0 < 128 := by omega
  have hn2 : ¬(194 ≤ b0 ∧ b0 ≤ 223) := by omega
  rw [utf8DecodeReplace.eq_def]
  simp only [hn, hn2, h0, h1, h2, if_true, if_false, ite_true, ite_false, and_self]

theorem utf8Decode_four (b0 b1 b2 b3 : Nat) (bs : List Nat) (h0 : 240 ≤ b0 ∧ b0 ≤ 244)
    (h1 : utf8Cont1Ok b0 b1 = true) (h2 : utf8Cont b2 = true) (h3 : utf8Cont b3 = true) :
    utf8DecodeReplace (b0 :: b1 :: b2 :: b3 :: bs) =
      Char.ofNat ((b0 - 240) * 262144 + (b1 - 128) * 4096 + (b2 - 128) * 64 + (b3 - 128)) ::
        utf8DecodeReplace bs := by
  have hn : ¬b0 < 128 := by omega
  have hn2 : ¬(194 ≤ b0 ∧ b0 ≤ 223) := by omega
  have hn3 : ¬(224 ≤ b0 ∧ b0 ≤ 239) := by omega
  rw [utf8DecodeReplace.eq_def]
  simp only [hn, hn2, hn3, h0, h1, h2, h3, if_true, if_false, ite_true, ite_false, and_self]

theorem utf8ContTrue (b : Nat) (h : 128 ≤ b ∧ b ≤ 191) : utf8Cont b = true := by
  simp only [utf8Cont, Bool.and_eq_true, decide_eq_true_eq]
  omega

theorem utf8DecodeReplace_encodeChar (c : Char) (bs : List Nat) :
    utf8DecodeReplace (utf8EncodeChar c.toNat ++ bs) = c :: utf8DecodeReplace bs := by
  have hv : c.toNat.isValidChar := c.valid
  have hofn : Char.ofNat c.toNat = c := Char.ofNat_toNat c
  have hrange : c.toNat < 0xd800 ∨ (0xdfff < c.toNat ∧ c.toNat < 0x110000) := hv
  by_cases h1 : c.toNat < 128
  · rw [utf8EncodeChar, if_pos h1, List.cons_append, List.nil_append,
      utf8Decode_one _ _ h1, hofn]
  · by_cases h2 : c.toNat < 2048
    · rw [utf8EncodeChar, if_neg h1, if_pos h2]
      rw [show ([192 + c.toNat / 64, 128 + c.toNat % 64] ++ bs) =
        (192 + c.toNat / 64) :: (128 + c.toNat % 64) :: bs from rfl]
      rw [utf8Decode_two _ _ _ (by omega) (utf8ContTrue _ (by omega))]
      have hval : (192 + c.toNat / 64 - 192) * 64 + (128 + c.toNat % 64 - 128) = c.toNat := by
        omega
      rw [hval, hofn]
    · by_cases h3 : c.toNat < 65536
      · rw [utf8EncodeChar, if_neg h1, if_neg h2, if_pos h3]
        rw [show ([224 + c.toNat / 4096, 128 + c.toNat / 64 % 64, 128 + c.toNat % 64] ++ bs) =
          (224 + c.toNat / 4096) :: (128 + c.toNat / 64 % 64) :: (128 + c.toNat % 64) :: bs
          from rfl]
        have hc1 : utf8Cont1Ok (224 + c.toNat / 4096) (128 + c.toNat / 64 % 64) = true := by
          rw [utf8Cont1Ok]
          split <;> rename_i hl
          · -- lead 224: c.toNat < 4096
            simp only [Bool.and_eq_true, decide_eq_true_eq]
            omega
          · split <;> rename_i hl2
            · -- lead 237: c.toNat ∈ [0xD000, 0xDFFF], valid chars avoid surrogates
              simp only [Bool.and_eq_true, decide_eq_true_eq]
              omega
            · split <;> rename_i hl3
              · omega
              · split <;> rename_i hl4
                · omega
                · exact utf8ContTrue _ (by omega)
        rw [utf8Decode_three _ _ _ _ (by omega) hc1 (utf8ContTrue _ (by omega))]
        have hval : (224 + c.toNat / 4096 - 224) * 4096 +
            (128 + c.toNat / 64 % 64 - 128) * 64 + (128 + c.toNat % 64 - 128) = c.toNat := by
          omega
        rw [hval, hofn]
      · rw [utf8EncodeChar, if_neg h1, if_neg h2, if_neg h3]
        rw [show ([240 + c.toNat / 262144, 128 + c.toNat / 4096 % 64, 128 + c.toNat / 64 % 64,
            128 + c.toNat % 64] ++ bs) =
          (240 + c.toNat / 262144) :: (128 + c.toNat / 4096 % 64) ::
            (128 + c.toNat / 64 % 64) :: (128 + c.toNat % 64) :: bs from rfl]
        have hc1 : utf8Cont1Ok (240 + c.toNat / 262144) (128 + c.toNat / 4096 % 64) = true := by
          rw [utf8Cont1Ok]
          split <;> rename_i hl
          · omega
          · split <;> rename_i hl2
            · omega
            · split <;> rename_i hl3
              · -- lead 240: c.toNat < 262144, so c.toNat / 4096 ∈ [16, 63]
                simp only [Bool.and_eq_true, decide_eq_true_eq]
                omega
              · split <;> rename_i hl4
                · -- lead 244: c.toNat ≥ 0x100000, so c.toNat / 4096 % 64 ≤ 15
                  simp only [Bool.and_eq_true, decide_eq_true_eq]
                  omega
                · exact utf8ContTrue _ (by omega)
        rw [utf8Decode_four _ _ _ _ _ (by omega) hc1 (utf8ContTrue _ (by omega))
          (utf8ContTrue _ (by omega))]
        have hval : (240 + c.toNat / 262144 - 240) * 262144 +
            (128 + c.toNat / 4096 % 64 - 128) * 4096 +
            (128 + c.toNat / 64 % 64 - 128) * 64 + (128 + c.toNat % 64 - 128) = c.toNat := by
          omega
        rw [hval, hofn]

theorem utf8DecodeReplace_utf8Encode (s : Chars) :
    utf8DecodeReplace (utf8Encode s) = s := by
  induction s with
  | nil => rfl
  | cons c cs ih =>
    rw [utf8Encode, List.flatMap_cons]
    rw [show (cs.flatMap fun c => utf8EncodeChar c.toNat) = utf8Encode cs from rfl]
    rw [utf8DecodeReplace_encodeChar, ih]

set_option maxHeartbeats 1000000

/-! ## Percent-coding and URL round trips (claims C6, C7, C8) -/

theorem toNat_ofNat_byte (b : Nat) (h : b < 256) : (Char.ofNat b).toNat = b :=
  toNat_ofNat_valid b (Or.inl (by omega))

theorem percentSubst_cons_ne (b : Nat) (l : List Nat) (h : b ≠ 37) :
    percentSubst (b :: l) = b :: percentSubst l := by
  match l with
  | [] => rfl
  | [x] => rfl
  | x :: y :: ys =>
    rw [percentSubst, if_neg h]

theorem hexValB_hexUpper (n : Nat) (h : n < 16) :
    hexValB (hexUpperDigit n).toNat = some n := by
  rw [hexUpperDigit]
  by_cases h10 : n < 10
  · rw [if_pos h10, toNat_ofNat_byte _ (by omega)]
    rw [hexValB, if_pos (by omega)]
    have : 48 + n - 48 = n := by omega
    rw [this]
  · rw [if_neg h10, toNat_ofNat_byte _ (by omega)]
    rw [hexValB, if_neg (by omega), if_pos (by omega)]
    have : 55 + n - 55 = n := by omega
    rw [this]

theorem percentSubst_escape (b : Nat) (hb : b < 256) (rest : List Nat) :
    percentSubst
        (37 :: (hexUpperDigit (b / 16)).toNat :: (hexUpperDigit (b % 16)).toNat :: rest)
      = b :: percentSubst rest := by
  have h1 := hexValB_hexUpper (b / 16) (by omega)
  have h2 := hexValB_hexUpper (b % 16) (by omega)
  rw [percentSubst.eq_def]
  simp only [eq_self_iff_true, if_true, h1, h2]
  have : 16 * (b / 16) + b % 16 = b := by omega
  rw [this]

theorem percentSubst_quoteBytes (safe : List Nat) (hsafe : 37 ∉ safe)
    (bs : List Nat) (h : ∀ b ∈ bs, b < 256) :
    percentSubst ((bs.flatMap (quoteByte safe)).map Char.toNat) = bs := by
  induction bs with
  | nil => rfl
  | cons b rest ih =>
    have hb : b < 256 := h b (List.mem_cons_self b rest)
    have hrest : ∀ x ∈ rest, x < 256 := fun x hx => h x (List.mem_cons_of_mem b hx)
    rw [List.flatMap_cons, List.map_append, quoteByte]
    by_cases hq : (alwaysSafeB b || safe.contains b) = true
    · rw [if_pos hq]
      have hne : b ≠ 37 := by
        intro he
        subst he
        rcases Bool.or_eq_true_iff.mp hq with h1 | h1
        · exact absurd h1 (by decide)
        · exact hsafe (by simpa using h1)
      rw [show ([Char.ofNat b].map Char.toNat) = [b] by
        rw [List.map_singleton, toNat_ofNat_byte b hb]]
      rw [List.singleton_append, percentSubst_cons_ne b _ hne, ih hrest]
    · rw [if_neg hq, List.map_cons, List.map_cons, List.map_singleton]
      rw [show ('%').toNat = 37 from rfl, List.cons_append, List.cons_append,
        List.singleton_append]
      rw [percentSubst_escape b hb, ih hrest]


theorem char_toNat_inj (c d : Char) (h : c.toNat = d.toNat) : c = d := by
  have h1 := Char.ofNat_toNat c
  have h2 := Char.ofNat_toNat d
  rw [← h1, ← h2, h]

theorem hexUpper_toNat (n : Nat) (h : n < 16) :
    (48 ≤ (hexUpperDigit n).toNat ∧ (hexUpperDigit n).toNat ≤ 57) ∨
      (65 ≤ (hexUpperDigit n).toNat ∧ (hexUpperDigit n).toNat ≤ 70) := by
  rw [hexUpperDigit]
  by_cases h10 : n < 10
  · rw [if_pos h10, toNat_ofNat_byte _ (by omega)]
    omega
  · rw [if_neg h10, toNat_ofNat_byte _ (by omega)]
    omega

theorem quoteByte_cases (safe : List Nat) (b : Nat) (hb : b < 256) :
    ∀ c ∈ quoteByte safe b,
      (c.toNat = b ∧ (alwaysSafeB b = true ∨ b ∈ safe)) ∨
        c = '%' ∨ (∃ n, n < 16 ∧ c = hexUpperDigit n) := by
  intro c hc
  rw [quoteByte] at hc
  split at hc <;> rename_i hq
  · simp only [List.mem_singleton] at hc
    subst hc
    left
    refine ⟨toNat_ofNat_byte b hb, ?_⟩
    rcases Bool.or_eq_true_iff.mp hq with h1 | h1
    · exact Or.inl h1
    · exact Or.inr (by simpa using h1)
  · simp only [List.mem_cons, List.not_mem_nil, or_false] at hc
    rcases hc with rfl | rfl | rfl
    · exact Or.inr (Or.inl rfl)
    · exact Or.inr (Or.inr ⟨b / 16, by omega, rfl⟩)
    · exact Or.inr (Or.inr ⟨b % 16, by omega, rfl⟩)

theorem quoteL_cases (safe : List Nat) (s : Chars) :
    ∀ c ∈ quoteL safe s,
      (alwaysSafeB c.toNat = true ∨ c.toNat ∈ safe) ∨
        c = '%' ∨ (∃ n, n < 16 ∧ c = hexUpperDigit n) := by
  intro c hc
  rw [quoteL] at hc
  rcases List.mem_flatMap.mp hc with ⟨b, hbmem, hcb⟩
  have hb : b < 256 := utf8Encode_lt_256 s b hbmem
  rcases quoteByte_cases safe b hb c hcb with ⟨he, hs⟩ | h
  · left
    rw [he]
    exact hs
  · right
    exact h

theorem quoteL_ascii (safe : List Nat) (hs : ∀ x ∈ safe, x < 128) (s : Chars) :
    ∀ c ∈ quoteL safe s, c.toNat ≤ 127 := by
  intro c hc
  rcases quoteL_cases safe s c hc with hA | hm | ⟨n, hn, rfl⟩
  · rcases hA with hA | hA
    · simp only [alwaysSafeB, Bool.or_eq_true, Bool.and_eq_true, decide_eq_true_eq,
        beq_iff_eq] at hA
      omega
    · have := hs _ hA
      omega
  · subst hm
    decide
  · rcases hexUpper_toNat n hn with h | h <;> omega

theorem quoteL_no_plus (safe : List Nat) (h43 : 43 ∉ safe) (s : Chars) :
    '+' ∉ quoteL safe s := by
  intro hc
  rcases quoteL_cases safe s '+' hc with hA | hm | ⟨n, hn, he⟩
  · rcases hA with hA | hA
    · exact absurd hA (by decide)
    · exact h43 hA
  · exact absurd hm (by decide)
  · have := hexUpper_toNat n hn
    rw [← he] at this
    revert this
    decide

theorem splitRunsGo_all_ascii (run : Chars) (s : Chars) (h : ∀ c ∈ s, c.toNat ≤ 127) :
    splitRunsGo true run s = [(true, run.reverse ++ s)] := by
  induction s generalizing run with
  | nil => simp [splitRunsGo]
  | cons c cs ih =>
    have hc : c.toNat ≤ 127 := h c (List.mem_cons_self c cs)
    rw [splitRunsGo, if_pos (decide_eq_true hc)]
    rw [ih (c :: run) (fun x hx => h x (List.mem_cons_of_mem c hx))]
    simp

theorem unquoteL_all_ascii (s : Chars) (h : ∀ c ∈ s, c.toNat ≤ 127) :
    unquoteL s = utf8DecodeReplace (percentSubst (s.map Char.toNat)) := by
  cases s with
  | nil => rfl
  | cons c cs =>
    have hc : c.toNat ≤ 127 := h c (List.mem_cons_self c cs)
    rw [unquoteL, splitRuns]
    rw [show decide (c.toNat ≤ 127) = true from decide_eq_true hc]
    rw [splitRunsGo_all_ascii [c] cs (fun x hx => h x (List.mem_cons_of_mem c hx))]
    simp

theorem unquote_quoteL (safe : List Nat) (hs : ∀ x ∈ safe, x < 128) (h37 : 37 ∉ safe)
    (s : Chars) : unquoteL (quoteL safe s) = s := by
  rw [unquoteL_all_ascii _ (quoteL_ascii safe hs s), quoteL]
  rw [percentSubst_quoteBytes safe h37 _ (utf8Encode_lt_256 s)]
  exact utf8DecodeReplace_utf8Encode s

theorem unquote_plus_quote_plus (s : Chars) : unquote_plusL (quote_plusL s) = s := by
  rw [quote_plusL]
  by_cases hsp : ' ' ∈ s
  · rw [if_pos hsp, unquote_plusL, List.map_map]
    have hid : ∀ d ∈ quoteL [32] s,
        ((fun c => if c = '+' then ' ' else c) ∘ fun c => if c = ' ' then '+' else c) d
          = id d := by
      intro d hd
      by_cases hd' : d = ' '
      · subst hd'
        rfl
      · have hplus : d ≠ '+' := fun he => quoteL_no_plus [32] (by decide) s (he ▸ hd)
        simp only [Function.comp_apply, if_neg hd', if_neg hplus, id]
    rw [List.map_congr_left hid, List.map_id]
    exact unquote_quoteL [32] (by intro x hx; simp at hx; omega) (by decide) s
  · rw [if_neg hsp, unquote_plusL]
    have hid : ∀ d ∈ quoteL [] s, (fun c => if c = '+' then ' ' else c) d = id d := by
      intro d hd
      have hplus : d ≠ '+' := fun he => quoteL_no_plus [] (by decide) s (he ▸ hd)
      simp only [if_neg hplus, id]
    rw [List.map_congr_left hid, List.map_id]
    exact unquote_quoteL [] (by intro x hx; simp at hx) (by decide) s

theorem quote_plus_good (s : Chars) : ∀ c ∈ quote_plusL s, goodPairChar c = true := by
  intro c hc
  rw [quote_plusL] at hc
  split at hc
  · rcases List.mem_map.mp hc with ⟨d, hd, rfl⟩
    by_cases hd' : d = ' '
    · subst hd'
      decide
    · rw [if_neg hd']
      rcases quoteL_cases [32] s d hd with hA | hm | ⟨n, hn, rfl⟩
      · rcases hA with hA | hA
        · simp only [alwaysSafeB, Bool.or_eq_true, Bool.and_eq_true, decide_eq_true_eq,
            beq_iff_eq] at hA
          simp only [goodPairChar, Bool.or_eq_true, Bool.and_eq_true, decide_eq_true_eq,
            beq_iff_eq]
          omega
        · simp only [List.mem_singleton] at hA
          exact absurd (char_toNat_inj d ' ' (by rw [hA]; rfl)) hd'
      · subst hm
        decide
      · rcases hexUpper_toNat n hn with h | h <;>
          · simp only [goodPairChar, Bool.or_eq_true, Bool.and_eq_true, decide_eq_true_eq,
              beq_iff_eq]
            omega
  · rcases quoteL_cases [] s c hc with hA | hm | ⟨n, hn, rfl⟩
    · rcases hA with hA | hA
      · simp only [alwaysSafeB, Bool.or_eq_true, Bool.and_eq_true, decide_eq_true_eq,
          beq_iff_eq] at hA
        simp only [goodPairChar, Bool.or_eq_true, Bool.and_eq_true, decide_eq_true_eq,
          beq_iff_eq]
        omega
      · exact absurd hA (List.not_mem_nil _)
    · subst hm
      decide
    · rcases hexUpper_toNat n hn with h | h <;>
        · simp only [goodPairChar, Bool.or_eq_true, Bool.and_eq_true, decide_eq_true_eq,
            beq_iff_eq]
          omega


theorem quote_plus_ne (s : Chars) (c : Char) (hc : c ∈ quote_plusL s)
    (hg : goodPairChar c = false) : False := by
  rw [quote_plus_good s c hc] at hg
  exact absurd hg (by decide)

theorem splitOnChar_ne_nil (sep : Char) (l : Chars) : splitOnChar sep l ≠ [] := by
  cases l with
  | nil => simp [splitOnChar]
  | cons x xs =>
    rw [splitOnChar]
    split
    · simp
    · split <;> simp

theorem splitOnChar_no_sep (sep : Char) (l : Chars) (h : sep ∉ l) :
    splitOnChar sep l = [l] := by
  induction l with
  | nil => rfl
  | cons x xs ih =>
    have hx : x ≠ sep := fun he => h (he ▸ List.mem_cons_self x xs)
    have hxs : sep ∉ xs := fun hm => h (List.mem_cons_of_mem x hm)
    rw [splitOnChar, ih hxs]
    simp [hx]

theorem splitOnChar_append_sep (sep : Char) (a b : Chars) (ha : sep ∉ a) :
    splitOnChar sep (a ++ sep :: b) = a :: splitOnChar sep b := by
  induction a with
  | nil =>
    rw [List.nil_append, splitOnChar]
    split
    · rename_i h
      exact absurd h (splitOnChar_ne_nil sep b)
    · rename_i r rs h
      rw [if_pos rfl, ← h]
  | cons x xs ih =>
    have hx : x ≠ sep := fun he => ha (he ▸ List.mem_cons_self x xs)
    have hxs : sep ∉ xs := fun hm => ha (List.mem_cons_of_mem x hm)
    rw [List.cons_append, splitOnChar, ih hxs]
    simp [hx]

theorem splitOnChar_joinAmp (pieces : List Chars) (hne : pieces ≠ [])
    (h : ∀ p ∈ pieces, '&' ∉ p) :
    splitOnChar '&' (joinAmp pieces) = pieces := by
  induction pieces with
  | nil => exact absurd rfl hne
  | cons p ps ih =>
    cases ps with
    | nil =>
      rw [joinAmp, splitOnChar_no_sep '&' p (h p (List.mem_cons_self p []))]
    | cons q qs =>
      rw [joinAmp, splitOnChar_append_sep '&' p _ (h p (List.mem_cons_self p _))]
      rw [ih (by simp) (fun x hx => h x (List.mem_cons_of_mem p hx))]

theorem breakAt_append (t : Char) (a b : Chars) (ha : t ∉ a) :
    breakAt t (a ++ t :: b) = some (a, b) := by
  induction a with
  | nil =>
    rw [List.nil_append, breakAt, if_pos rfl]
  | cons x xs ih =>
    have hx : x ≠ t := fun he => ha (he ▸ List.mem_cons_self x xs)
    have hxs : t ∉ xs := fun hm => ha (List.mem_cons_of_mem x hm)
    rw [List.cons_append, breakAt, if_neg hx, ih hxs]
    rfl

theorem joinAmp_cons (p : Chars) (ps : List Chars) :
    ∃ tail, joinAmp (p :: ps) = p ++ tail := by
  cases ps with
  | nil => exact ⟨[], (List.append_nil p).symm⟩
  | cons q qs => exact ⟨'&' :: joinAmp (q :: qs), rfl⟩

theorem filterMap_id_of {A : Type} (f : A → Option A) (l : List A)
    (h : ∀ a ∈ l, f a = some a) : l.filterMap f = l := by
  induction l with
  | nil => rfl
  | cons a as ih =>
    simp only [List.filterMap_cons, h a (List.mem_cons_self a as)]
    rw [ih (fun x hx => h x (List.mem_cons_of_mem a hx))]

theorem parse_qsl_urlencode (l : List (Chars × Chars)) :
    parse_qslL (urlencodeL l) = l := by
  cases l with
  | nil => rfl
  | cons kv rest =>
    rw [urlencodeL, parse_qslL]
    have hpieces : ∀ p ∈ (kv :: rest).map
        (fun kv => quote_plusL kv.1 ++ '=' :: quote_plusL kv.2), '&' ∉ p := by
      intro p hp hamp
      rcases List.mem_map.mp hp with ⟨ab, _, rfl⟩
      rcases List.mem_append.mp hamp with h1 | h1
      · exact quote_plus_ne ab.1 '&' h1 (by decide)
      · rcases List.mem_cons.mp h1 with h2 | h2
        · exact absurd h2 (by decide)
        · exact quote_plus_ne ab.2 '&' h2 (by decide)
    have hjoin_ne : joinAmp ((kv :: rest).map
        (fun kv => quote_plusL kv.1 ++ '=' :: quote_plusL kv.2)) ≠ [] := by
      rw [List.map_cons]
      rcases joinAmp_cons (quote_plusL kv.1 ++ '=' :: quote_plusL kv.2)
        (rest.map (fun kv => quote_plusL kv.1 ++ '=' :: quote_plusL kv.2)) with ⟨tail, he⟩
      rw [he]
      simp
    rw [if_neg hjoin_ne]
    rw [splitOnChar_joinAmp _ (by simp) hpieces]
    rw [List.filterMap_map]
    refine filterMap_id_of _ _ (fun ab _ => ?_)
    have hchunk_ne : quote_plusL ab.1 ++ '=' :: quote_plusL ab.2 ≠ [] := by simp
    have hkeq : '=' ∉ quote_plusL ab.1 := fun hm =>
      quote_plus_ne ab.1 '=' hm (by decide)
    simp only [Function.comp_apply, if_neg hchunk_ne, breakAt_append '=' _ _ hkeq,
      unquote_plus_quote_plus]


theorem isUpper_iff (c : Char) : c.isUpper = true ↔ 65 ≤ c.toNat ∧ c.toNat ≤ 90 := by
  simp only [Char.isUpper, Bool.and_eq_true, decide_eq_true_eq, ge_iff_le,
    UInt32.le_def, BitVec.le_def]
  have h65 : ((65 : UInt32).toBitVec).toNat = 65 := rfl
  have h90 : ((90 : UInt32).toBitVec).toNat = 90 := rfl
  rw [h65, h90]
  rfl

theorem isLower_iff (c : Char) : c.isLower = true ↔ 97 ≤ c.toNat ∧ c.toNat ≤ 122 := by
  simp only [Char.isLower, Bool.and_eq_true, decide_eq_true_eq, ge_iff_le,
    UInt32.le_def, BitVec.le_def]
  have h97 : ((97 : UInt32).toBitVec).toNat = 97 := rfl
  have h122 : ((122 : UInt32).toBitVec).toNat = 122 := rfl
  rw [h97, h122]
  rfl

theorem isDigit_iff (c : Char) : c.isDigit = true ↔ 48 ≤ c.toNat ∧ c.toNat ≤ 57 := by
  simp only [Char.isDigit, Bool.and_eq_true, decide_eq_true_eq, ge_iff_le,
    UInt32.le_def, BitVec.le_def]
  have h48 : ((48 : UInt32).toBitVec).toNat = 48 := rfl
  have h57 : ((57 : UInt32).toBitVec).toNat = 57 := rfl
  rw [h48, h57]
  rfl

theorem isAlpha_iff (c : Char) :
    c.isAlpha = true ↔ (65 ≤ c.toNat ∧ c.toNat ≤ 90) ∨ (97 ≤ c.toNat ∧ c.toNat ≤ 122) := by
  simp only [Char.isAlpha, Bool.or_eq_true, isUpper_iff, isLower_iff]

theorem toLower_toNat (c : Char) :
    (Char.toLower c).toNat =
      if 65 ≤ c.toNat ∧ c.toNat ≤ 90 then c.toNat + 32 else c.toNat := by
  rw [Char.toLower]
  by_cases h : 65 ≤ c.toNat ∧ c.toNat ≤ 90
  · rw [if_pos h, if_pos h, toNat_ofNat_valid _ (Or.inl (by omega))]
  · rw [if_neg h, if_neg h]


/-! ## Step D batch 1: char classes and basic splitting lemmas -/

theorem char_ne_of_toNat_ne (c d : Char) (h : c.toNat ≠ d.toNat) : c ≠ d :=
  fun he => h (he ▸ rfl)

theorem schemeChar_toNat (c : Char) (h : schemeChar c = true) :
    (65 ≤ c.toNat ∧ c.toNat ≤ 90) ∨ (97 ≤ c.toNat ∧ c.toNat ≤ 122) ∨
      (48 ≤ c.toNat ∧ c.toNat ≤ 57) ∨ c.toNat = 43 ∨ c.toNat = 45 ∨ c.toNat = 46 := by
  rw [schemeChar] at h
  simp only [Bool.or_eq_true, beq_iff_eq] at h
  rcases h with ((((hA | hD) | hP) | hM) | hDot)
  · rcases (isAlpha_iff c).mp hA with h | h
    · exact Or.inl h
    · exact Or.inr (Or.inl h)
  · exact Or.inr (Or.inr (Or.inl ((isDigit_iff c).mp hD)))
  · subst hP
    exact Or.inr (Or.inr (Or.inr (Or.inl rfl)))
  · subst hM
    exact Or.inr (Or.inr (Or.inr (Or.inr (Or.inl rfl))))
  · subst hDot
    exact Or.inr (Or.inr (Or.inr (Or.inr (Or.inr rfl))))

theorem goodQueryChar_toNat (c : Char) (h : goodQueryChar c = true) :
    32 < c.toNat ∧ c.toNat ≠ 35 ∧ c.toNat ≠ 47 ∧ c.toNat ≠ 58 ∧ c.toNat ≠ 63 ∧
      c.toNat ≠ 91 ∧ c.toNat ≠ 93 ∧ c.toNat ≠ 9 ∧ c.toNat ≠ 13 ∧ c.toNat ≠ 10 := by
  simp only [goodQueryChar, goodPairChar, Bool.or_eq_true, Bool.and_eq_true,
    decide_eq_true_eq, beq_iff_eq] at h
  omega

theorem breakAt_eq_some (t : Char) :
    ∀ l a b, breakAt t l = some (a, b) → l = a ++ t :: b ∧ t ∉ a := by
  intro l
  induction l with
  | nil =>
    intro a b h
    exact absurd h (by rw [breakAt]; simp)
  | cons c cs ih =>
    intro a b h
    rw [breakAt] at h
    by_cases hc : c = t
    · rw [if_pos hc] at h
      have h' := Option.some.inj h
      obtain ⟨h1, h2⟩ := Prod.mk.injEq .. ▸ h'
      rw [← h1, ← h2]
      exact ⟨by rw [hc, List.nil_append], List.not_mem_nil t⟩
    · rw [if_neg hc] at h
      rcases Option.map_eq_some'.mp h with ⟨ab, hab, hmap⟩
      obtain ⟨h1, h2⟩ := Prod.mk.injEq .. ▸ hmap
      rcases ih ab.1 ab.2 (by rw [hab]) with ⟨hl, hni⟩
      constructor
      · rw [← h1, ← h2, hl, List.cons_append]
      · rw [← h1]
        intro hm
        rcases List.mem_cons.mp hm with he | hm2
        · exact hc he.symm
        · exact hni hm2

theorem breakAt_eq_none (t : Char) : ∀ l, breakAt t l = none → t ∉ l := by
  intro l
  induction l with
  | nil =>
    intro _ h
    exact List.not_mem_nil t h
  | cons c cs ih =>
    intro h
    rw [breakAt] at h
    by_cases hc : c = t
    · rw [if_pos hc] at h
      exact absurd h (by simp)
    · rw [if_neg hc] at h
      intro hm
      rcases List.mem_cons.mp hm with he | hm2
      · exact hc he.symm
      · exact ih (Option.map_eq_none'.mp h) hm2

theorem lstripC0_eq_self (l : Chars) (h : ∀ c, l.head? = some c → 32 < c.toNat) :
    lstripC0 l = l := by
  cases l with
  | nil => rfl
  | cons c cs =>
    have := h c rfl
    rw [lstripC0, if_neg (by omega)]

theorem stripUrlTabsNewlines_eq_self (l : Chars)
    (h : ∀ c ∈ l, c.toNat ≠ 9 ∧ c.toNat ≠ 13 ∧ c.toNat ≠ 10) :
    stripUrlTabsNewlines l = l := by
  rw [stripUrlTabsNewlines, List.filter_eq_self]
  intro c hc
  rcases h c hc with ⟨h9, h13, h10⟩
  simp only [Bool.not_eq_true', Bool.or_eq_false_iff, beq_eq_false_iff_ne, ne_eq]
  exact ⟨⟨char_ne_of_toNat_ne c '\t' (by simpa using h9),
    char_ne_of_toNat_ne c '\r' (by simpa using h13)⟩,
    char_ne_of_toNat_ne c '\n' (by simpa using h10)⟩

theorem stripUrlTabsNewlines_mem (l : Chars) (c : Char) (hc : c ∈ stripUrlTabsNewlines l) :
    c.toNat ≠ 9 ∧ c.toNat ≠ 13 ∧ c.toNat ≠ 10 := by
  rw [stripUrlTabsNewlines] at hc
  have := List.of_mem_filter hc
  simp only [Bool.not_eq_true', Bool.or_eq_false_iff, beq_eq_false_iff_ne, ne_eq] at this
  refine ⟨fun he => this.1.1 ?_, fun he => this.1.2 ?_, fun he => this.2 ?_⟩
  · exact char_toNat_inj c '\t' (by simpa using he)
  · exact char_toNat_inj c '\r' (by simpa using he)
  · exact char_toNat_inj c '\n' (by simpa using he)


/-! ## Step D batch 2: splitScheme -/

theorem schemeChar_ne_colon (c : Char) (h : schemeChar c = true) : c ≠ ':' := by
  have := schemeChar_toNat c h
  exact char_ne_of_toNat_ne c ':' (by intro he; rw [he] at this; revert this; decide)

theorem splitScheme_scheme (s rest : Chars) (hne : s ≠ [])
    (halpha : (s.headD ' ').isAlpha = true) (hall : s.all schemeChar = true) :
    splitScheme (s ++ ':' :: rest) = (s.map Char.toLower, rest) := by
  have hallm : ∀ c ∈ s, schemeChar c = true := List.all_eq_true.mp hall
  have hnc : ∀ c ∈ s, (fun c => decide (c ≠ ':')) c = true := by
    intro c hc
    simpa using schemeChar_ne_colon c (hallm c hc)
  have hpre : (s ++ ':' :: rest).takeWhile (fun c => decide (c ≠ ':')) = s := by
    rw [List.takeWhile_append_of_pos hnc, List.takeWhile_cons_of_neg (by simp)]
    exact List.append_nil s
  rw [splitScheme]
  simp only [hpre]
  rw [if_pos]
  · have hd : (s ++ ':' :: rest).drop (s.length + 1) = rest := by
      have : s ++ ':' :: rest = (s ++ [':']) ++ rest := by simp
      rw [this, List.drop_left' (by simp)]
    rw [hd]
  · refine ⟨?_, ?_, halpha, hall⟩
    · rw [List.length_append, List.length_cons]
      omega
    · exact List.length_pos.mpr hne

theorem splitScheme_spec (u : Chars) :
    (∃ pre, pre = u.takeWhile (fun c => decide (c ≠ ':')) ∧
      splitScheme u = (pre.map Char.toLower, u.drop (pre.length + 1)) ∧
      pre.length < u.length ∧ 0 < pre.length ∧
      (pre.headD ' ').isAlpha = true ∧ pre.all schemeChar = true) ∨
    splitScheme u = ([], u) := by
  rw [splitScheme]
  by_cases h : (u.takeWhile (fun c => decide (c ≠ ':'))).length < u.length ∧
      0 < (u.takeWhile (fun c => decide (c ≠ ':'))).length ∧
      ((u.takeWhile (fun c => decide (c ≠ ':'))).headD ' ').isAlpha = true ∧
      (u.takeWhile (fun c => decide (c ≠ ':'))).all schemeChar = true
  · left
    refine ⟨u.takeWhile (fun c => decide (c ≠ ':')), rfl, ?_, h.1, h.2.1, h.2.2.1, h.2.2.2⟩
    rw [if_pos h]
  · right
    rw [if_neg h]

/-! ## Step D batch 2b: netlocSplit / fragSplit / querySplit -/

theorem netlocSplit_slash (n rest : Chars) (hn : ∀ c ∈ n, netlocDelim c = false)
    (hrest : rest = [] ∨ ∃ d ds, rest = d :: ds ∧ netlocDelim d = true) :
    netlocSplit ('/' :: '/' :: (n ++ rest)) = (n, rest) := by
  have hnp : ∀ c ∈ n, (fun c => !netlocDelim c) c = true := by
    intro c hc
    simp [hn c hc]
  have h1 : List.takeWhile (fun c => !netlocDelim c) (n ++ rest) = n := by
    rw [List.takeWhile_append_of_pos hnp]
    rcases hrest with rfl | ⟨d, ds, rfl, hd⟩
    · exact List.append_nil n
    · rw [List.takeWhile_cons_of_neg (by simp [hd])]
      exact List.append_nil n
  have h2 : List.dropWhile (fun c => !netlocDelim c) (n ++ rest) = rest := by
    rw [List.dropWhile_append_of_pos hnp]
    rcases hrest with rfl | ⟨d, ds, rfl, hd⟩
    · rfl
    · rw [List.dropWhile_cons_of_neg (by simp [hd])]
  rw [netlocSplit, h1, h2]

theorem netlocSplit_not_slash (u : Chars) (h : u.take 2 ≠ ['/', '/']) :
    netlocSplit u = ([], u) := by
  rw [netlocSplit.eq_def]
  split
  · rename_i rest
    exact absurd rfl h
  · rfl

theorem netlocSplit_spec (u : Chars) :
    (∃ rest, u = '/' :: '/' :: rest ∧
      netlocSplit u = (rest.takeWhile (fun c => !netlocDelim c),
        rest.dropWhile (fun c => !netlocDelim c))) ∨
    netlocSplit u = ([], u) := by
  rw [netlocSplit.eq_def]
  split
  · rename_i rest
    exact Or.inl ⟨rest, rfl, rfl⟩
  · exact Or.inr rfl


theorem fragSplit_spec (u : Chars) :
    (∃ a b, fragSplit u = (a, b) ∧ u = a ++ '#' :: b ∧ '#' ∉ a) ∨
    (fragSplit u = (u, []) ∧ '#' ∉ u) := by
  rw [fragSplit]
  match h : breakAt '#' u with
  | some ab =>
    rcases breakAt_eq_some '#' u ab.1 ab.2 (by rw [h]) with ⟨hu, hni⟩
    exact Or.inl ⟨ab.1, ab.2, rfl, hu, hni⟩
  | none => exact Or.inr ⟨rfl, breakAt_eq_none '#' u h⟩

theorem querySplit_spec (u : Chars) :
    (∃ a b, querySplit u = (a, b) ∧ u = a ++ '?' :: b ∧ '?' ∉ a) ∨
    (querySplit u = (u, []) ∧ '?' ∉ u) := by
  rw [querySplit]
  match h : breakAt '?' u with
  | some ab =>
    rcases breakAt_eq_some '?' u ab.1 ab.2 (by rw [h]) with ⟨hu, hni⟩
    exact Or.inl ⟨ab.1, ab.2, rfl, hu, hni⟩
  | none => exact Or.inr ⟨rfl, breakAt_eq_none '?' u h⟩

theorem fragSplit_no_hash (u : Chars) (h : '#' ∉ u) : fragSplit u = (u, []) := by
  rw [fragSplit]
  match hb : breakAt '#' u with
  | some ab =>
    rcases breakAt_eq_some '#' u ab.1 ab.2 (by rw [hb]) with ⟨hu, _⟩
    exact absurd (hu ▸ List.mem_append_right ab.1 (List.mem_cons_self '#' ab.2)) h
  | none => rfl

theorem querySplit_append (a b : Chars) (ha : '?' ∉ a) :
    querySplit (a ++ '?' :: b) = (a, b) := by
  rw [querySplit]
  rw [show breakAt '?' (a ++ '?' :: b) = some (a, b) from breakAt_append '?' a b ha]

theorem querySplit_no_q (u : Chars) (h : '?' ∉ u) : querySplit u = (u, []) := by
  rw [querySplit]
  match hb : breakAt '?' u with
  | some ab =>
    rcases breakAt_eq_some '?' u ab.1 ab.2 (by rw [hb]) with ⟨hu, _⟩
    exact absurd (hu ▸ List.mem_append_right ab.1 (List.mem_cons_self '?' ab.2)) h
  | none => rfl


/-! ## Step D batch 3: splitparams -/

theorem breakAt_none_of_not_mem (t : Char) : ∀ l, t ∉ l → breakAt t l = none := by
  intro l
  induction l with
  | nil => intro _; rfl
  | cons c cs ih =>
    intro h
    have hc : c ≠ t := fun he => h (he ▸ List.mem_cons_self c cs)
    rw [breakAt, if_neg hc, ih (fun hm => h (List.mem_cons_of_mem c hm))]
    rfl

theorem takeWhile_append_stop {p : Char → Bool} (a b : Chars)
    (h : ∃ c ∈ a, p c = false) :
    List.takeWhile p (a ++ b) = List.takeWhile p a := by
  rw [List.takeWhile_append]
  rw [if_neg]
  intro hl
  have hpre := List.takeWhile_prefix (p := p) (l := a)
  have heq := hpre.eq_of_length hl
  rcases h with ⟨c, hc, hpc⟩
  have := List.mem_takeWhile_imp (heq ▸ hc)
  rw [this] at hpc
  exact Bool.true_eq_false.mp hpc

theorem dropWhile_append_stop {p : Char → Bool} (a b : Chars)
    (h : ∃ c ∈ a, p c = false) :
    List.dropWhile p (a ++ b) = List.dropWhile p a ++ b := by
  rw [List.dropWhile_append]
  rw [if_neg]
  intro hl
  have : List.dropWhile p a = [] := by
    cases hd : List.dropWhile p a with
    | nil => rfl
    | cons d t =>
      rw [hd] at hl
      exact absurd hl (by simp)
  have hall := List.dropWhile_eq_nil_iff.mp this
  rcases h with ⟨c, hc, hpc⟩
  rw [hall c hc] at hpc
  exact Bool.true_eq_false.mp hpc

theorem dropWhile_head_false {p : Char → Bool} (l : Chars) (d : Char) (t : Chars)
    (h : List.dropWhile p l = d :: t) : p d = false := by
  induction l with
  | nil => exact absurd h (by simp)
  | cons c cs ih =>
    rw [List.dropWhile_cons] at h
    by_cases hp : p c = true
    · rw [if_pos hp] at h
      exact ih h
    · rw [if_neg hp] at h
      have : c = d := (List.cons.injEq .. ▸ h).1
      rw [← this]
      exact Bool.not_eq_true _ ▸ hp

theorem splitparams_cons_slash (pw : Chars) :
    splitparamsL ('/' :: pw) = ('/' :: (splitparamsL pw).1, (splitparamsL pw).2) := by
  have hmem : '/' ∈ '/' :: pw := List.mem_cons_self '/' pw
  by_cases h : '/' ∈ pw
  · rw [splitparamsL, if_pos hmem, splitparamsL, if_pos h]
    have hrev : ('/' :: pw).reverse = pw.reverse ++ ['/'] := by simp
    have hmemr : ∃ c ∈ pw.reverse, (fun c => decide (c ≠ '/')) c = false := by
      refine ⟨'/', by simpa using h, by simp⟩
    simp only [hrev, takeWhile_append_stop _ _ hmemr, dropWhile_append_stop _ _ hmemr]
    cases hb : breakAt ';' (List.takeWhile (fun c => decide (c ≠ '/')) pw.reverse).reverse with
    | none => simp
    | some ab => simp
  · rw [splitparamsL, if_pos hmem, splitparamsL, if_neg h]
    have hrev : ('/' :: pw).reverse = pw.reverse ++ ['/'] := by simp
    have hall : ∀ c ∈ pw.reverse, (fun c => decide (c ≠ '/')) c = true := by
      intro c hc
      simp only [decide_eq_true_eq, ne_eq]
      intro he
      exact h (he ▸ (List.mem_reverse.mp hc))
    have htw : List.takeWhile (fun c => decide (c ≠ '/')) (pw.reverse ++ ['/'])
        = pw.reverse := by
      rw [List.takeWhile_append_of_pos hall, List.takeWhile_cons_of_neg (by simp)]
      exact List.append_nil _
    have hdw : List.dropWhile (fun c => decide (c ≠ '/')) (pw.reverse ++ ['/'])
        = ['/'] := by
      rw [List.dropWhile_append_of_pos hall, List.dropWhile_cons_of_neg (by simp)]
    simp only [hrev, htw, hdw, List.reverse_reverse]
    cases hb : breakAt ';' pw with
    | none => simp
    | some ab => simp

theorem splitparams_append (H A B : Chars) (hH : H = [] ∨ H.getLast? = some '/')
    (hA1 : ';' ∉ A) (hA2 : '/' ∉ A) (hB : '/' ∉ B) :
    splitparamsL (H ++ (A ++ ';' :: B)) = (H ++ A, B) := by
  rcases hH with rfl | hH
  · rw [List.nil_append, splitparamsL, if_neg]
    · rw [breakAt_append ';' A B hA1]
      rfl
    · intro hm
      rcases List.mem_append.mp hm with h1 | h1
      · exact hA2 h1
      · rcases List.mem_cons.mp h1 with he | h2
        · exact absurd he (by decide)
        · exact hB h2
  · have hHne : H ≠ [] := by
      intro he
      rw [he] at hH
      exact absurd hH (by simp)
    have hHrev : ∃ t, H.reverse = '/' :: t := by
      have : H.reverse.head? = some '/' := by
        rw [List.head?_reverse]
        exact hH
      cases hr : H.reverse with
      | nil => rw [hr] at this; exact absurd this (by simp)
      | cons d t =>
        rw [hr] at this
        simp only [List.head?_cons, Option.some.injEq] at this
        exact ⟨t, by rw [this]⟩
    rcases hHrev with ⟨t, ht⟩
    have hslash : '/' ∈ H ++ (A ++ ';' :: B) := by
      refine List.mem_append_left _ ?_
      have : '/' ∈ H.reverse := by rw [ht]; exact List.mem_cons_self _ _
      exact List.mem_reverse.mp this
    rw [splitparamsL, if_pos hslash]
    have hrev : (H ++ (A ++ ';' :: B)).reverse
        = (B.reverse ++ ';' :: A.reverse) ++ H.reverse := by
      simp
    have hallseg : ∀ c ∈ B.reverse ++ ';' :: A.reverse,
        (fun c => decide (c ≠ '/')) c = true := by
      intro c hc
      simp only [decide_eq_true_eq, ne_eq]
      intro he
      subst he
      rcases List.mem_append.mp hc with h1 | h1
      · exact hB (List.mem_reverse.mp h1)
      · rcases List.mem_cons.mp h1 with he2 | h2
        · exact absurd he2 (by decide)
        · exact hA2 (List.mem_reverse.mp h2)
    have htw : List.takeWhile (fun c => decide (c ≠ '/'))
        ((B.reverse ++ ';' :: A.reverse) ++ H.reverse)
        = B.reverse ++ ';' :: A.reverse := by
      rw [List.takeWhile_append_of_pos hallseg, ht,
        List.takeWhile_cons_of_neg (by simp)]
      exact List.append_nil _
    have hdw : List.dropWhile (fun c => decide (c ≠ '/'))
        ((B.reverse ++ ';' :: A.reverse) ++ H.reverse)
        = H.reverse := by
      rw [List.dropWhile_append_of_pos hallseg, ht,
        List.dropWhile_cons_of_neg (by simp), ← ht]
    simp only [hrev, htw, hdw]
    have hsegrev : (B.reverse ++ ';' :: A.reverse).reverse = A ++ ';' :: B := by
      simp
    rw [hsegrev, breakAt_append ';' A B hA1]
    simp

theorem splitparams_no_semi (H A : Chars) (hH : H = [] ∨ H.getLast? = some '/')
    (hA1 : ';' ∉ A) (hA2 : '/' ∉ A) :
    splitparamsL (H ++ A) = (H ++ A, []) := by
  rcases hH with rfl | hH
  · rw [List.nil_append, splitparamsL, if_neg hA2, breakAt_none_of_not_mem ';' A hA1]
  · have hHrev : ∃ t, H.reverse = '/' :: t := by
      have hne : H ≠ [] := by
        intro he
        rw [he] at hH
        exact absurd hH (by simp)
      have : H.reverse.head? = some '/' := by
        rw [List.head?_reverse]
        exact hH
      cases hr : H.reverse with
      | nil => rw [hr] at this; exact absurd this (by simp)
      | cons d t =>
        rw [hr] at this
        simp only [List.head?_cons, Option.some.injEq] at this
        exact ⟨t, by rw [this]⟩
    rcases hHrev with ⟨t, ht⟩
    have hslash : '/' ∈ H ++ A := by
      refine List.mem_append_left _ ?_
      have : '/' ∈ H.reverse := by rw [ht]; exact List.mem_cons_self _ _
      exact List.mem_reverse.mp this
    rw [splitparamsL, if_pos hslash]
    have hallseg : ∀ c ∈ A.reverse, (fun c => decide (c ≠ '/')) c = true := by
      intro c hc
      simp only [decide_eq_true_eq, ne_eq]
      intro he
      exact hA2 (he ▸ List.mem_reverse.mp hc)
    have hrev : (H ++ A).reverse = A.reverse ++ H.reverse := by simp
    have htw : List.takeWhile (fun c => decide (c ≠ '/')) (A.reverse ++ H.reverse)
        = A.reverse := by
      rw [List.takeWhile_append_of_pos hallseg, ht,
        List.takeWhile_cons_of_neg (by simp)]
      exact List.append_nil _
    simp only [hrev, htw, List.reverse_reverse]
    rw [breakAt_none_of_not_mem ';' A hA1]

theorem splitparams_shape (x : Chars) :
    ∃ H A, (splitparamsL x).1 = H ++ A ∧ (H = [] ∨ H.getLast? = some '/') ∧
      ';' ∉ A ∧ '/' ∉ A ∧ '/' ∉ (splitparamsL x).2 := by
  by_cases h : '/' ∈ x
  · have hdec := List.takeWhile_append_dropWhile (fun c => decide (c ≠ '/')) x.reverse
    have hx : x = (List.dropWhile (fun c => decide (c ≠ '/')) x.reverse).reverse
        ++ (List.takeWhile (fun c => decide (c ≠ '/')) x.reverse).reverse := by
      rw [← List.reverse_append, hdec, List.reverse_reverse]
    have hsegmem : ∀ c ∈ (List.takeWhile (fun c => decide (c ≠ '/')) x.reverse).reverse,
        c ≠ '/' := by
      intro c hc
      have := List.mem_takeWhile_imp (List.mem_reverse.mp hc)
      simpa using this
    have hheadprop : (List.dropWhile (fun c => decide (c ≠ '/')) x.reverse).reverse = [] ∨
        ((List.dropWhile (fun c => decide (c ≠ '/')) x.reverse).reverse).getLast?
          = some '/' := by
      cases hd : List.dropWhile (fun c => decide (c ≠ '/')) x.reverse with
      | nil => exact Or.inl rfl
      | cons d tl =>
        right
        have := dropWhile_head_false _ d tl hd
        have hdeq : d = '/' := by simpa using this
        rw [List.getLast?_reverse, List.head?_cons, hdeq]
    cases hb : breakAt ';' (List.takeWhile (fun c => decide (c ≠ '/')) x.reverse).reverse with
    | none =>
      have hval : splitparamsL x = (x, []) := by
        rw [splitparamsL, if_pos h]
        simp only [hb]
      rw [hval]
      refine ⟨(List.dropWhile (fun c => decide (c ≠ '/')) x.reverse).reverse,
        (List.takeWhile (fun c => decide (c ≠ '/')) x.reverse).reverse,
        hx, hheadprop, ?_, ?_, ?_⟩
      · exact breakAt_eq_none ';' _ hb
      · exact fun hm => hsegmem '/' hm rfl
      · exact List.not_mem_nil '/'
    | some ab =>
      have hval : splitparamsL x
          = ((List.dropWhile (fun c => decide (c ≠ '/')) x.reverse).reverse ++ ab.1,
            ab.2) := by
        rw [splitparamsL, if_pos h]
        simp only [hb]
      rcases breakAt_eq_some ';' _ ab.1 ab.2 (by rw [hb]) with ⟨hseg, hni⟩
      rw [hval]
      refine ⟨(List.dropWhile (fun c => decide (c ≠ '/')) x.reverse).reverse, ab.1,
        rfl, hheadprop, hni, ?_, ?_⟩
      · intro hm
        exact hsegmem '/' (hseg ▸ List.mem_append_left _ hm) rfl
      · intro hm
        exact hsegmem '/'
          (hseg ▸ List.mem_append_right _ (List.mem_cons_of_mem ';' hm)) rfl
  · cases hb : breakAt ';' x with
    | none =>
      have hval : splitparamsL x = (x, []) := by
        rw [splitparamsL, if_neg h, hb]
      rw [hval]
      exact ⟨[], x, rfl, Or.inl rfl, breakAt_eq_none ';' x hb, h, List.not_mem_nil '/'⟩
    | some ab =>
      have hval : splitparamsL x = ab := by
        rw [splitparamsL, if_neg h, hb]
      rcases breakAt_eq_some ';' x ab.1 ab.2 (by rw [hb]) with ⟨hseg, hni⟩
      rw [hval]
      refine ⟨[], ab.1, rfl, Or.inl rfl, hni, ?_, ?_⟩
      · intro hm
        exact h (hseg ▸ List.mem_append_left _ hm)
      · intro hm
        exact h (hseg ▸ List.mem_append_right _ (List.mem_cons_of_mem ';' hm))

theorem splitparams_rejoin (x : Chars) :
    (if (splitparamsL x).2 ≠ [] then (splitparamsL x).1 ++ ';' :: (splitparamsL x).2
      else (splitparamsL x).1) = x ∨
    x = (if (splitparamsL x).2 ≠ [] then (splitparamsL x).1 ++ ';' :: (splitparamsL x).2
      else (splitparamsL x).1) ++ [';'] := by
  by_cases h : '/' ∈ x
  · have hdec := List.takeWhile_append_dropWhile (fun c => decide (c ≠ '/')) x.reverse
    have hx : x = (List.dropWhile (fun c => decide (c ≠ '/')) x.reverse).reverse
        ++ (List.takeWhile (fun c => decide (c ≠ '/')) x.reverse).reverse := by
      rw [← List.reverse_append, hdec, List.reverse_reverse]
    cases hb : breakAt ';' (List.takeWhile (fun c => decide (c ≠ '/')) x.reverse).reverse with
    | none =>
      have hval : splitparamsL x = (x, []) := by
        rw [splitparamsL, if_pos h]
        simp only [hb]
      rw [hval]
      left
      simp
    | some ab =>
      have hval : splitparamsL x
          = ((List.dropWhile (fun c => decide (c ≠ '/')) x.reverse).reverse ++ ab.1,
            ab.2) := by
        rw [splitparamsL, if_pos h]
        simp only [hb]
      rcases breakAt_eq_some ';' _ ab.1 ab.2 (by rw [hb]) with ⟨hseg, _⟩
      rw [hval]
      by_cases hab : ab.2 = []
      · right
        rw [if_neg (by simpa using hab)]
        conv_lhs => rw [hx, hseg, hab]
        rw [List.append_assoc]
      · left
        rw [if_pos (by simpa using hab)]
        conv_rhs => rw [hx, hseg]
        rw [List.append_assoc]
  · cases hb : breakAt ';' x with
    | none =>
      have hval : splitparamsL x = (x, []) := by
        rw [splitparamsL, if_neg h, hb]
      rw [hval]
      left
      simp
    | some ab =>
      have hval : splitparamsL x = ab := by
        rw [splitparamsL, if_neg h, hb]
      rcases breakAt_eq_some ';' x ab.1 ab.2 (by rw [hb]) with ⟨hseg, _⟩
      rw [hval]
      by_cases hab : ab.2 = []
      · right
        rw [if_neg (by simpa using hab)]
        rw [hseg, hab]
      · left
        rw [if_pos (by simpa using hab)]
        rw [hseg]


/-! ## Step D batch 4: reparse helpers -/

theorem splitScheme_fail_head (c : Char) (rest : Chars) (h : c.isAlpha = false) :
    splitScheme (c :: rest) = ([], c :: rest) := by
  rw [splitScheme]
  by_cases hc : c = ':'
  · rw [if_neg]
    intro hcond
    have hpre : (c :: rest).takeWhile (fun c => decide (c ≠ ':')) = [] := by
      rw [List.takeWhile_cons_of_neg (by simp [hc])]
    rw [hpre] at hcond
    exact absurd hcond.2.1 (by simp)
  · rw [if_neg]
    intro hcond
    have hpre : (c :: rest).takeWhile (fun c => decide (c ≠ ':'))
        = c :: rest.takeWhile (fun c => decide (c ≠ ':')) := by
      rw [List.takeWhile_cons_of_pos (by simp [hc])]
    rw [hpre] at hcond
    rw [List.headD_cons] at hcond
    rw [hcond.2.2.1] at h
    exact Bool.true_eq_false.mp h

theorem take2_append_ne (pw Qp : Chars) (hpw : pw.take 2 ≠ ['/', '/'])
    (hQp : Qp = [] ∨ ∃ t, Qp = '?' :: t) :
    (pw ++ Qp).take 2 ≠ ['/', '/'] := by
  match pw with
  | [] =>
    rw [List.nil_append]
    rcases hQp with rfl | ⟨t, rfl⟩
    · simp
    · cases t with
      | nil => simp
      | cons a b =>
        intro hc
        have := (List.cons.injEq .. ▸ hc).1
        exact absurd this (by decide)
  | [c] =>
    rcases hQp with rfl | ⟨t, rfl⟩
    · simp
    · rw [List.singleton_append, List.take_succ_cons, List.take_succ_cons]
      intro hc
      have h2 := (List.cons.injEq .. ▸ hc).2
      have := (List.cons.injEq .. ▸ h2).1
      exact absurd this (by decide)
  | c :: d :: rest =>
    rw [List.cons_append, List.cons_append, List.take_succ_cons, List.take_succ_cons]
    rw [List.take_succ_cons, List.take_succ_cons] at hpw
    simpa using hpw

theorem head_lt_of_append (pw Qp : Chars)
    (hpw : ∀ c, pw.head? = some c → 32 < c.toNat)
    (hQp : Qp = [] ∨ ∃ t, Qp = '?' :: t) :
    ∀ c, (pw ++ Qp).head? = some c → 32 < c.toNat := by
  intro c hc
  cases pw with
  | nil =>
    rw [List.nil_append] at hc
    rcases hQp with rfl | ⟨t, rfl⟩
    · exact absurd hc (by simp)
    · rw [List.head?_cons] at hc
      rw [← Option.some.inj hc]
      decide
  | cons a as =>
    rw [List.cons_append, List.head?_cons] at hc
    rw [← Option.some.inj hc]
    exact hpw a rfl

theorem rejoin_of_cons_slash (pw : Chars)
    (hsplit : ';' ∈ pw → (if (splitparamsL pw).2 ≠ [] then
      (splitparamsL pw).1 ++ ';' :: (splitparamsL pw).2 else (splitparamsL pw).1) = pw)
    (hmem : ';' ∈ '/' :: pw) :
    (if (splitparamsL ('/' :: pw)).2 ≠ [] then
      (splitparamsL ('/' :: pw)).1 ++ ';' :: (splitparamsL ('/' :: pw)).2
      else (splitparamsL ('/' :: pw)).1) = '/' :: pw := by
  have hm : ';' ∈ pw := by
    rcases List.mem_cons.mp hmem with he | hm
    · exact absurd he (by decide)
    · exact hm
  rw [splitparams_cons_slash]
  have := hsplit hm
  by_cases hb : (splitparamsL pw).2 = []
  · rw [if_neg (by simpa using hb)]
    rw [if_neg (by simpa using hb)] at this
    rw [this]
  · rw [if_pos (by simpa using hb)]
    rw [if_pos (by simpa using hb)] at this
    rw [List.cons_append, this]


/-! ## Step D batch 5: urlsplit assembly -/

theorem urlsplitL_of_parts (u rest rest2 rest3 : Chars) (S N P Q F : Chars)
    (h1 : lstripC0 u = u) (h2 : stripUrlTabsNewlines u = u)
    (h3 : splitScheme u = (S, rest)) (h4 : netlocSplit rest = (N, rest2))
    (h5 : fragSplit rest2 = (rest3, F)) (h6 : querySplit rest3 = (P, Q))
    (h7 : bracketMismatch N = false) :
    urlsplitL u = Except.ok ⟨S, N, P, Q, F⟩ := by
  rw [urlsplitL, h1, h2]
  have hcore : urlsplitCore u = ⟨S, N, P, Q, F⟩ := by
    rw [urlsplitCore]
    simp only [h3, h4, h5, h6]
  rw [hcore]
  rw [if_neg (by simp [h7])]

theorem rest_split (n pp q' : Chars)
    (hn : ∀ c ∈ n, netlocDelim c = false)
    (hpp : pp = [] ∨ ∃ t, pp = '/' :: t) (hpp1 : '#' ∉ pp) (hpp2 : '?' ∉ pp)
    (hq : ∀ c ∈ q', goodQueryChar c = true) :
    netlocSplit ('/' :: '/' :: (n ++ pp) ++ (if q' ≠ [] then '?' :: q' else []))
      = (n, pp ++ (if q' ≠ [] then '?' :: q' else [])) ∧
    fragSplit (pp ++ (if q' ≠ [] then '?' :: q' else []))
      = (pp ++ (if q' ≠ [] then '?' :: q' else []), []) ∧
    querySplit (pp ++ (if q' ≠ [] then '?' :: q' else [])) = (pp, q') := by
  by_cases hq0 : q' = []
  · rw [if_neg (by simpa using hq0)]
    rw [List.append_nil, List.append_nil]
    refine ⟨?_, fragSplit_no_hash pp hpp1, ?_⟩
    · have hshape : '/' :: '/' :: (n ++ pp) = '/' :: '/' :: (n ++ pp) := rfl
      refine netlocSplit_slash n pp hn ?_
      rcases hpp with rfl | ⟨t, rfl⟩
      · exact Or.inl rfl
      · exact Or.inr ⟨'/', t, rfl, by decide⟩
    · rw [hq0]
      exact querySplit_no_q pp hpp2
  · rw [if_pos hq0]
    have hqm : ∀ c ∈ ('?' :: q' : Chars), c = '?' ∨ goodQueryChar c = true := by
      intro c hc
      rcases List.mem_cons.mp hc with he | hm
      · exact Or.inl he
      · exact Or.inr (hq c hm)
    refine ⟨?_, ?_, querySplit_append pp q' hpp2⟩
    · have hshape : '/' :: '/' :: (n ++ pp) ++ '?' :: q'
          = '/' :: '/' :: (n ++ (pp ++ '?' :: q')) := by
        simp
      rw [hshape]
      refine netlocSplit_slash n _ hn ?_
      rcases hpp with rfl | ⟨t, rfl⟩
      · exact Or.inr ⟨'?', q', rfl, by decide⟩
      · exact Or.inr ⟨'/', t ++ '?' :: q', rfl, by decide⟩
    · refine fragSplit_no_hash _ ?_
      intro hm
      rcases List.mem_append.mp hm with h1 | h1
      · exact hpp1 h1
      · rcases List.mem_cons.mp h1 with he | h2
        · exact absurd he (by decide)
        · have := goodQueryChar_toNat '#' (hq '#' h2)
          exact absurd this.2.1 (by decide)

theorem plain_split (pw q' : Chars)
    (htake : pw.take 2 ≠ ['/', '/'])
    (hpw1 : '#' ∉ pw) (hpw2 : '?' ∉ pw)
    (hq : ∀ c ∈ q', goodQueryChar c = true) :
    netlocSplit (pw ++ (if q' ≠ [] then '?' :: q' else []))
      = ([], pw ++ (if q' ≠ [] then '?' :: q' else [])) ∧
    fragSplit (pw ++ (if q' ≠ [] then '?' :: q' else []))
      = (pw ++ (if q' ≠ [] then '?' :: q' else []), []) ∧
    querySplit (pw ++ (if q' ≠ [] then '?' :: q' else [])) = (pw, q') := by
  by_cases hq0 : q' = []
  · rw [if_neg (by simpa using hq0)]
    rw [List.append_nil]
    refine ⟨netlocSplit_not_slash pw htake, fragSplit_no_hash pw hpw1, ?_⟩
    rw [hq0]
    exact querySplit_no_q pw hpw2
  · rw [if_pos hq0]
    refine ⟨?_, ?_, querySplit_append pw q' hpw2⟩
    · refine netlocSplit_not_slash _ ?_
      exact take2_append_ne pw ('?' :: q') htake (Or.inr ⟨q', rfl⟩)
    · refine fragSplit_no_hash _ ?_
      intro hm
      rcases List.mem_append.mp hm with h1 | h1
      · exact hpw1 h1
      · rcases List.mem_cons.mp h1 with he | h2
        · exact absurd he (by decide)
        · have := goodQueryChar_toNat '#' (hq '#' h2)
          exact absurd this.2.1 (by decide)

theorem urlparse_eval (u : Chars) (r : SplitParts) (h : urlsplitL u = Except.ok r) :
    urlparseL u = Except.ok (
      if r.scheme ∈ uses_paramsL ∧ ';' ∈ r.path then
        ⟨r.scheme, r.netloc, (splitparamsL r.path).1, (splitparamsL r.path).2,
          r.query, r.fragment⟩
      else ⟨r.scheme, r.netloc, r.path, [], r.query, r.fragment⟩) := by
  rw [urlparseL, h]
  simp only [Except.map]


/-! ## Step D batch 5b: full urlsplit evaluation -/

theorem scheme_head_lt (s : Chars) (hsne : s ≠ []) (halpha : (s.headD ' ').isAlpha = true)
    (X : Chars) : ∀ c, (s ++ X).head? = some c → 32 < c.toNat := by
  cases s with
  | nil => exact absurd rfl hsne
  | cons a as =>
    intro c hc
    rw [List.cons_append, List.head?_cons] at hc
    rw [← Option.some.inj hc]
    rw [List.headD_cons] at halpha
    rcases (isAlpha_iff a).mp halpha with h | h <;> omega

theorem qp_tab_free (q' : Chars) (hq : ∀ c ∈ q', goodQueryChar c = true) :
    ∀ c ∈ (if q' ≠ [] then '?' :: q' else []),
      c.toNat ≠ 9 ∧ c.toNat ≠ 13 ∧ c.toNat ≠ 10 := by
  intro c hc
  by_cases h0 : q' ≠ []
  · rw [if_pos h0] at hc
    rcases List.mem_cons.mp hc with rfl | hm
    · exact ⟨by decide, by decide, by decide⟩
    · have := goodQueryChar_toNat c (hq c hm)
      exact ⟨this.2.2.2.2.2.2.2.1, this.2.2.2.2.2.2.2.2.1, this.2.2.2.2.2.2.2.2.2⟩
  · rw [if_neg h0] at hc
    exact absurd hc (List.not_mem_nil c)

theorem scheme_tab_free (s : Chars) (hallsch : s.all schemeChar = true) :
    ∀ c ∈ s, c.toNat ≠ 9 ∧ c.toNat ≠ 13 ∧ c.toNat ≠ 10 := by
  intro c hc
  have := schemeChar_toNat c (List.all_eq_true.mp hallsch c hc)
  omega

theorem urlsplit_marker (s n pp q' : Chars)
    (hs : s = [] ∨ (s ≠ [] ∧ (s.headD ' ').isAlpha = true ∧ s.all schemeChar = true ∧
      s.map Char.toLower = s))
    (hn : ∀ c ∈ n, netlocDelim c = false ∧ c.toNat ≠ 9 ∧ c.toNat ≠ 13 ∧ c.toNat ≠ 10)
    (hbr : bracketMismatch n = false)
    (hpp : pp = [] ∨ ∃ t, pp = '/' :: t)
    (hpp1 : '#' ∉ pp) (hpp2 : '?' ∉ pp)
    (hpp3 : ∀ c ∈ pp, c.toNat ≠ 9 ∧ c.toNat ≠ 13 ∧ c.toNat ≠ 10)
    (hq : ∀ c ∈ q', goodQueryChar c = true) :
    urlsplitL ((if s ≠ [] then s ++ ':' :: ('/' :: '/' :: (n ++ pp))
        else '/' :: '/' :: (n ++ pp)) ++ (if q' ≠ [] then '?' :: q' else []))
      = Except.ok ⟨s, n, pp, q', []⟩ := by
  obtain ⟨hnet, hfrag, hquery⟩ := rest_split n pp q' (fun c hc => (hn c hc).1) hpp hpp1 hpp2 hq
  have htabrest : ∀ c ∈ '/' :: '/' :: (n ++ pp) ++ (if q' ≠ [] then '?' :: q' else []),
      c.toNat ≠ 9 ∧ c.toNat ≠ 13 ∧ c.toNat ≠ 10 := by
    intro c hc
    rcases List.mem_cons.mp hc with rfl | hc2
    · exact ⟨by decide, by decide, by decide⟩
    · rcases List.mem_cons.mp hc2 with rfl | hc3
      · exact ⟨by decide, by decide, by decide⟩
      · rcases List.mem_append.mp hc3 with h1 | h1
        · rcases List.mem_append.mp h1 with h2 | h2
          · exact (hn c h2).2
          · exact hpp3 c h2
        · exact qp_tab_free q' hq c h1
  rcases hs with rfl | ⟨hsne, halpha, hallsch, hlower⟩
  · rw [if_neg (by simp)]
    refine urlsplitL_of_parts _ _ _ _ _ _ _ _ _ ?_ ?_ ?_ hnet hfrag hquery hbr
    · refine lstripC0_eq_self _ ?_
      intro c hc
      rw [show (('/' :: '/' :: (n ++ pp)) ++
          (if q' ≠ [] then '?' :: q' else [])).head? = some '/' from rfl] at hc
      rw [← Option.some.inj hc]
      decide
    · refine stripUrlTabsNewlines_eq_self _ ?_
      intro c hc
      exact htabrest c (by simpa using hc)
    · exact splitScheme_fail_head '/' _ (by decide)
  · rw [if_pos hsne]
    have hW : (s ++ ':' :: ('/' :: '/' :: (n ++ pp)))
        ++ (if q' ≠ [] then '?' :: q' else [])
        = s ++ ':' :: ('/' :: '/' :: (n ++ pp) ++ (if q' ≠ [] then '?' :: q' else [])) := by
      simp
    rw [hW]
    refine urlsplitL_of_parts _ _ _ _ _ _ _ _ _ ?_ ?_ ?_ hnet hfrag hquery hbr
    · exact lstripC0_eq_self _ (scheme_head_lt s hsne halpha _)
    · refine stripUrlTabsNewlines_eq_self _ ?_
      intro c hc
      rcases List.mem_append.mp hc with h1 | h1
      · exact scheme_tab_free s hallsch c h1
      · rcases List.mem_cons.mp h1 with rfl | h2
        · exact ⟨by decide, by decide, by decide⟩
        · exact htabrest c h2
    · rw [splitScheme_scheme s _ hsne halpha hallsch, hlower]

theorem urlsplit_plain (s pw q' : Chars)
    (hs : s = [] ∨ (s ≠ [] ∧ (s.headD ' ').isAlpha = true ∧ s.all schemeChar = true ∧
      s.map Char.toLower = s))
    (htake : pw.take 2 ≠ ['/', '/'])
    (hpw1 : '#' ∉ pw) (hpw2 : '?' ∉ pw)
    (hpw3 : ∀ c ∈ pw, c.toNat ≠ 9 ∧ c.toNat ≠ 13 ∧ c.toNat ≠ 10)
    (hq : ∀ c ∈ q', goodQueryChar c = true)
    (hhead : s = [] → ∀ c, pw.head? = some c → 32 < c.toNat)
    (hsch : s = [] → splitScheme (pw ++ (if q' ≠ [] then '?' :: q' else []))
        = ([], pw ++ (if q' ≠ [] then '?' :: q' else []))) :
    urlsplitL ((if s ≠ [] then s ++ ':' :: pw else pw)
        ++ (if q' ≠ [] then '?' :: q' else []))
      = Except.ok ⟨s, [], pw, q', []⟩ := by
  obtain ⟨hnet, hfrag, hquery⟩ := plain_split pw q' htake hpw1 hpw2 hq
  have htabrest : ∀ c ∈ pw ++ (if q' ≠ [] then '?' :: q' else []),
      c.toNat ≠ 9 ∧ c.toNat ≠ 13 ∧ c.toNat ≠ 10 := by
    intro c hc
    rcases List.mem_append.mp hc with h1 | h1
    · exact hpw3 c h1
    · exact qp_tab_free q' hq c h1
  rcases hs with rfl | ⟨hsne, halpha, hallsch, hlower⟩
  · rw [if_neg (by simp)]
    refine urlsplitL_of_parts _ _ _ _ _ _ _ _ _ ?_ ?_ (hsch rfl) hnet hfrag hquery (by decide)
    · refine lstripC0_eq_self _ ?_
      exact head_lt_of_append pw _ (hhead rfl) (by
        by_cases h0 : q' ≠ []
        · exact Or.inr ⟨q', by rw [if_pos h0]⟩
        · exact Or.inl (by rw [if_neg h0]))
    · exact stripUrlTabsNewlines_eq_self _ htabrest
  · rw [if_pos hsne]
    have hW : (s ++ ':' :: pw) ++ (if q' ≠ [] then '?' :: q' else [])
        = s ++ ':' :: (pw ++ (if q' ≠ [] then '?' :: q' else [])) := by
      simp
    rw [hW]
    refine urlsplitL_of_parts _ _ _ _ _ _ _ _ _ ?_ ?_ ?_ hnet hfrag hquery (by decide)
    · exact lstripC0_eq_self _ (scheme_head_lt s hsne halpha _)
    · refine stripUrlTabsNewlines_eq_self _ ?_
      intro c hc
      rcases List.mem_append.mp hc with h1 | h1
      · exact scheme_tab_free s hallsch c h1
      · rcases List.mem_cons.mp h1 with rfl | h2
        · exact ⟨by decide, by decide, by decide⟩
        · exact htabrest c h2
    · rw [splitScheme_scheme s _ hsne halpha hallsch, hlower]


/-! ## Step D batch 6: canonicalize unfolding and urlunsplit evaluation -/

theorem canonicalize_of_error (u : String) (e : String)
    (h : urlparseL u.data = Except.error e) : canonicalize_url u = u := by
  rw [canonicalize_url, h]

theorem canonicalize_of_parse (u : String) (p : ParseParts)
    (h : urlparseL u.data = Except.ok p) :
    canonicalize_url u = String.mk (urlunparseL ⟨p.scheme, p.netloc, p.path, p.params,
      urlencodeL ((parse_qslL p.query).filter keepPairB), []⟩) := by
  rw [canonicalize_url, h]

theorem urlunsplit_eval (s n pw q' : Chars) :
    urlunsplitL ⟨s, n, pw, q', []⟩
      = (if s ≠ [] then
          s ++ ':' :: (if n ≠ [] ∨ (s ≠ [] ∧ s ∈ uses_netlocL ∧ pw.take 2 ≠ ['/', '/'])
            then '/' :: '/' ::
              (n ++ (if pw ≠ [] ∧ pw.head? ≠ some '/' then '/' :: pw else pw))
            else pw)
         else (if n ≠ [] ∨ (s ≠ [] ∧ s ∈ uses_netlocL ∧ pw.take 2 ≠ ['/', '/'])
            then '/' :: '/' ::
              (n ++ (if pw ≠ [] ∧ pw.head? ≠ some '/' then '/' :: pw else pw))
            else pw)) ++ (if q' ≠ [] then '?' :: q' else []) := by
  rw [urlunsplitL]
  simp only []
  rw [if_neg (show ¬([] : Chars) ≠ [] by simp)]
  by_cases hq0 : q' ≠ []
  · rw [if_pos hq0, if_pos hq0]
  · rw [if_neg hq0, if_neg hq0, List.append_nil]

theorem urlunparse_eval (s n pth prm q f : Chars) :
    urlunparseL ⟨s, n, pth, prm, q, f⟩
      = urlunsplitL ⟨s, n, if prm ≠ [] then pth ++ ';' :: prm else pth, q, f⟩ := by
  rw [urlunparseL]


/-! ## Step D batch 7: the canonicalization fixed point -/

theorem canonicalize_mk_of_error (w : Chars) (e : String)
    (h : urlparseL w = Except.error e) : canonicalize_url (String.mk w) = String.mk w := by
  rw [canonicalize_url]
  simp only [h]

theorem canonicalize_mk_of_parse (w : Chars) (p : ParseParts)
    (h : urlparseL w = Except.ok p) :
    canonicalize_url (String.mk w) = String.mk (urlunparseL ⟨p.scheme, p.netloc, p.path,
      p.params, urlencodeL ((parse_qslL p.query).filter keepPairB), []⟩) := by
  rw [canonicalize_url]
  simp only [h]

theorem canon_fixpoint (s n pw q' : Chars)
    (hs : s = [] ∨ (s ≠ [] ∧ (s.headD ' ').isAlpha = true ∧ s.all schemeChar = true ∧
      s.map Char.toLower = s))
    (hn : ∀ c ∈ n, netlocDelim c = false ∧ c.toNat ≠ 9 ∧ c.toNat ≠ 13 ∧ c.toNat ≠ 10)
    (hbr : bracketMismatch n = false)
    (hpw1 : '#' ∉ pw) (hpw2 : '?' ∉ pw)
    (hpw3 : ∀ c ∈ pw, c.toNat ≠ 9 ∧ c.toNat ≠ 13 ∧ c.toNat ≠ 10)
    (hq : ∀ c ∈ q', goodQueryChar c = true)
    (hH : n ≠ [] ∨ pw.take 2 ≠ ['/', '/'])
    (hhead : s = [] → n = [] → ∀ c, pw.head? = some c → 32 < c.toNat)
    (hsch : s = [] → n = [] →
      splitScheme (pw ++ (if q' ≠ [] then '?' :: q' else []))
        = ([], pw ++ (if q' ≠ [] then '?' :: q' else [])))
    (hsplit : s ∈ uses_paramsL → ';' ∈ pw → (if (splitparamsL pw).2 ≠ [] then
      (splitparamsL pw).1 ++ ';' :: (splitparamsL pw).2 else (splitparamsL pw).1) = pw)
    (hqf : (parse_qslL q').filter keepPairB = parse_qslL q')
    (hqe : urlencodeL (parse_qslL q') = q') :
    canonicalize_url (String.mk (urlunsplitL ⟨s, n, pw, q', []⟩))
      = String.mk (urlunsplitL ⟨s, n, pw, q', []⟩) := by
  by_cases hcond : n ≠ [] ∨ (s ≠ [] ∧ s ∈ uses_netlocL ∧ pw.take 2 ≠ ['/', '/'])
  · have hpp_or : (if pw ≠ [] ∧ pw.head? ≠ some '/' then '/' :: pw else pw) = pw ∨
        ((if pw ≠ [] ∧ pw.head? ≠ some '/' then '/' :: pw else pw) = '/' :: pw ∧
          pw ≠ [] ∧ pw.head? ≠ some '/') := by
      by_cases hc1 : pw ≠ [] ∧ pw.head? ≠ some '/'
      · exact Or.inr ⟨if_pos hc1, hc1⟩
      · exact Or.inl (if_neg hc1)
    have hpps : (if pw ≠ [] ∧ pw.head? ≠ some '/' then '/' :: pw else pw) = [] ∨
        ∃ t, (if pw ≠ [] ∧ pw.head? ≠ some '/' then '/' :: pw else pw) = '/' :: t := by
      by_cases hc1 : pw ≠ [] ∧ pw.head? ≠ some '/'
      · exact Or.inr ⟨pw, if_pos hc1⟩
      · rw [if_neg hc1]
        rcases not_and_or.mp hc1 with h1 | h1
        · left
          simpa using h1
        · have h1' : pw.head? = some '/' := by simpa using h1
          cases pw with
          | nil => exact Or.inl rfl
          | cons a as =>
            rw [List.head?_cons] at h1'
            exact Or.inr ⟨as, by rw [Option.some.inj h1']⟩
    rw [urlunsplit_eval, if_pos hcond]
    generalize hppdef : (if pw ≠ [] ∧ pw.head? ≠ some '/' then '/' :: pw else pw) = pp
      at hpp_or hpps ⊢
    have hpp1' : '#' ∉ pp := by
      rcases hpp_or with rfl | ⟨rfl, _, _⟩
      · exact hpw1
      · intro hm
        rcases List.mem_cons.mp hm with he | hm2
        · exact absurd he (by decide)
        · exact hpw1 hm2
    have hpp2' : '?' ∉ pp := by
      rcases hpp_or with rfl | ⟨rfl, _, _⟩
      · exact hpw2
      · intro hm
        rcases List.mem_cons.mp hm with he | hm2
        · exact absurd he (by decide)
        · exact hpw2 hm2
    have hpp3' : ∀ c ∈ pp, c.toNat ≠ 9 ∧ c.toNat ≠ 13 ∧ c.toNat ≠ 10 := by
      rcases hpp_or with rfl | ⟨rfl, _, _⟩
      · exact hpw3
      · intro c hc
        rcases List.mem_cons.mp hc with rfl | hm2
        · exact ⟨by decide, by decide, by decide⟩
        · exact hpw3 c hm2
    have hsplitW := urlsplit_marker s n pp q' hs hn hbr hpps hpp1' hpp2' hpp3' hq
    have hparse := urlparse_eval _ _ hsplitW
    simp only [] at hparse
    have hcond2 : n ≠ [] ∨ (s ≠ [] ∧ s ∈ uses_netlocL ∧ pp.take 2 ≠ ['/', '/']) := by
      rcases hcond with h1 | ⟨h1, h2, h3⟩
      · exact Or.inl h1
      · right
        refine ⟨h1, h2, ?_⟩
        rcases hpp_or with rfl | ⟨rfl, hne, hhd⟩
        · exact h3
        · cases pw with
          | nil => exact absurd rfl hne
          | cons a as =>
            have ha : a ≠ '/' := by
              intro he
              exact hhd (by rw [List.head?_cons, he])
            intro hc
            have h2' := (List.cons.injEq .. ▸ hc).2
            have := (List.cons.injEq .. ▸ h2').1
            exact ha this
    have hppfix : (if pp ≠ [] ∧ pp.head? ≠ some '/' then '/' :: pp else pp) = pp := by
      rcases hpps with rfl | ⟨t, rfl⟩
      · rw [if_neg (by simp)]
      · rw [if_neg (fun hcc => hcc.2 rfl)]
    by_cases hpar : s ∈ uses_paramsL ∧ ';' ∈ pp
    · rw [if_pos hpar] at hparse
      rw [canonicalize_mk_of_parse _ _ hparse]
      simp only []
      rw [hqf, hqe, urlunparse_eval]
      have hrejoin : (if (splitparamsL pp).2 ≠ [] then
          (splitparamsL pp).1 ++ ';' :: (splitparamsL pp).2
          else (splitparamsL pp).1) = pp := by
        rcases hpp_or with rfl | ⟨rfl, _, _⟩
        · exact hsplit hpar.1 hpar.2
        · exact rejoin_of_cons_slash pw (hsplit hpar.1) hpar.2
      rw [hrejoin]
      congr 1
      rw [urlunsplit_eval, if_pos hcond2, hppfix]
    · rw [if_neg hpar] at hparse
      rw [canonicalize_mk_of_parse _ _ hparse]
      simp only []
      rw [hqf, hqe, urlunparse_eval]
      rw [if_neg (by simp)]
      congr 1
      rw [urlunsplit_eval, if_pos hcond2, hppfix]
  · have hn0 : n = [] := by
      rcases not_or.mp hcond with ⟨h1, _⟩
      simpa using h1
    subst hn0
    have htake : pw.take 2 ≠ ['/', '/'] := by
      rcases hH with h1 | h1
      · exact absurd rfl h1
      · exact h1
    rw [urlunsplit_eval, if_neg hcond]
    have hsplitW := urlsplit_plain s pw q' hs htake hpw1 hpw2 hpw3 hq
      (fun hse => hhead hse rfl) (fun hse => hsch hse rfl)
    have hparse := urlparse_eval _ _ hsplitW
    simp only [] at hparse
    by_cases hpar : s ∈ uses_paramsL ∧ ';' ∈ pw
    · rw [if_pos hpar] at hparse
      rw [canonicalize_mk_of_parse _ _ hparse]
      simp only []
      rw [hqf, hqe, urlunparse_eval, hsplit hpar.1 hpar.2]
      congr 1
      rw [urlunsplit_eval, if_neg hcond]
    · rw [if_neg hpar] at hparse
      rw [canonicalize_mk_of_parse _ _ hparse]
      simp only []
      rw [hqf, hqe, urlunparse_eval]
      rw [if_neg (by simp)]
      congr 1
      rw [urlunsplit_eval, if_neg hcond]


/-! ## Step D batch 8: splitScheme failure analysis and transfer -/

theorem splitScheme_nil : splitScheme [] = ([], []) := by
  rw [splitScheme, if_neg]
  intro hcond
  exact absurd hcond.2.1 (by simp)

theorem splitScheme_no_colon (y : Chars) (h : ':' ∉ y) : splitScheme y = ([], y) := by
  rw [splitScheme, if_neg]
  intro hcond
  have hpre : y.takeWhile (fun c => decide (c ≠ ':')) = y := by
    rw [List.takeWhile_eq_self_iff]
    intro c hc
    simp only [decide_eq_true_eq, ne_eq]
    intro he
    exact h (he ▸ hc)
  rw [hpre] at hcond
  omega

theorem splitScheme_bad_char (y : Chars)
    (h : ∃ c ∈ y.takeWhile (fun c => decide (c ≠ ':')), schemeChar c = false) :
    splitScheme y = ([], y) := by
  rw [splitScheme, if_neg]
  intro hcond
  rcases h with ⟨c, hc, hbad⟩
  have := List.all_eq_true.mp hcond.2.2.2 c hc
  rw [this] at hbad
  exact Bool.true_eq_false.mp hbad

theorem splitScheme_fail_inv (x : Chars) (h : splitScheme x = ([], x)) :
    x = [] ∨ (∃ c t, x = c :: t ∧ c.isAlpha = false) ∨ ':' ∉ x ∨
      ∃ c ∈ x.takeWhile (fun c => decide (c ≠ ':')), schemeChar c = false := by
  rcases splitScheme_spec x with ⟨pre, hpredef, heq, hlen, hpos, halpha, hall⟩ | hfail
  · rw [heq] at h
    have h1 := (Prod.mk.injEq .. ▸ h).1
    have : pre = [] := by
      cases pre with
      | nil => rfl
      | cons a t => exact absurd h1 (by simp)
    rw [this] at hpos
    exact absurd hpos (by simp)
  · by_cases hx : x = []
    · exact Or.inl hx
    · rw [splitScheme] at hfail
      by_cases hcond : (x.takeWhile (fun c => decide (c ≠ ':'))).length < x.length ∧
          0 < (x.takeWhile (fun c => decide (c ≠ ':'))).length ∧
          ((x.takeWhile (fun c => decide (c ≠ ':'))).headD ' ').isAlpha = true ∧
          (x.takeWhile (fun c => decide (c ≠ ':'))).all schemeChar = true
      · rw [if_pos hcond] at hfail
        have h1 := (Prod.mk.injEq .. ▸ hfail).1
        have hpre0 : x.takeWhile (fun c => decide (c ≠ ':')) = [] := by
          cases hp : x.takeWhile (fun c => decide (c ≠ ':')) with
          | nil => rfl
          | cons a t =>
            rw [hp] at h1
            exact absurd h1 (by simp)
        rw [hpre0] at hcond
        exact absurd hcond.2.1 (by simp)
      · rcases not_and_or.mp hcond with h1 | h23
        · -- length not less: takeWhile = x, so no colon
          right; right; left
          have hpre : x.takeWhile (fun c => decide (c ≠ ':')) = x := by
            have hf := List.takeWhile_prefix (p := fun c => decide (c ≠ ':')) (l := x)
            refine hf.eq_of_length ?_
            have hle := hf.length_le
            omega
          intro hm
          have := List.mem_takeWhile_imp (hpre ▸ hm)
          simp at this
        · rcases not_and_or.mp h23 with h2 | h34
          · -- takeWhile empty: x is nil (excluded) or head fails the predicate, head is colon
            right; left
            have hpre0 : x.takeWhile (fun c => decide (c ≠ ':')) = [] := by
              cases hp : x.takeWhile (fun c => decide (c ≠ ':')) with
              | nil => rfl
              | cons a t =>
                rw [hp] at h2
                exact absurd (by simp) h2
            cases x with
            | nil => exact absurd rfl hx
            | cons a t =>
              refine ⟨a, t, rfl, ?_⟩
              by_cases ha : a = ':'
              · rw [ha]
                decide
              · rw [List.takeWhile_cons_of_pos (by simp [ha])] at hpre0
                exact absurd hpre0 (by simp)
          · rcases not_and_or.mp h34 with h3 | h4
            · -- head of pre not alpha; head of pre = head of x
              right; left
              cases x with
              | nil => exact absurd rfl hx
              | cons a t =>
                refine ⟨a, t, rfl, ?_⟩
                by_cases ha : a = ':'
                · rw [ha]
                  decide
                · rw [List.takeWhile_cons_of_pos (by simp [ha])] at h3
                  rw [List.headD_cons] at h3
                  exact Bool.not_eq_true _ ▸ h3
            · -- some char of pre fails schemeChar
              right; right; right
              have hne : ¬ ∀ c ∈ x.takeWhile (fun c => decide (c ≠ ':')),
                  schemeChar c = true :=
                fun hall => h4 (List.all_eq_true.mpr hall)
              push_neg at hne
              rcases hne with ⟨c, hc, hsc⟩
              cases hb : schemeChar c with
              | false => exact ⟨c, hc, hb⟩
              | true => exact absurd hb hsc


theorem splitScheme_fail_transfer (x path PW T q' : Chars)
    (hx : x = path ++ T)
    (hPW : PW = path ∨ path = PW ++ [';'])
    (hq : ∀ c ∈ q', goodQueryChar c = true)
    (hfail : splitScheme x = ([], x)) :
    splitScheme (PW ++ (if q' ≠ [] then '?' :: q' else []))
      = ([], PW ++ (if q' ≠ [] then '?' :: q' else [])) := by
  have hQfail : splitScheme (if q' ≠ [] then '?' :: q' else [])
      = ([], (if q' ≠ [] then '?' :: q' else [])) := by
    by_cases h0 : q' ≠ []
    · rw [if_pos h0]
      exact splitScheme_fail_head '?' q' (by decide)
    · rw [if_neg h0]
      exact splitScheme_nil
  have hQcolon : ':' ∉ (if q' ≠ [] then '?' :: q' else []) := by
    intro hm
    by_cases h0 : q' ≠ []
    · rw [if_pos h0] at hm
      rcases List.mem_cons.mp hm with he | hm2
      · exact absurd he (by decide)
      · have := goodQueryChar_toNat ':' (hq ':' hm2)
        exact absurd this.2.2.2.1 (by decide)
    · rw [if_neg h0] at hm
      exact List.not_mem_nil ':' hm
  have hPWnil : path = [] → PW = [] := by
    intro hp
    rcases hPW with rfl | hpe
    · exact hp
    · rw [hp] at hpe
      exact absurd hpe.symm (by simp)
  rcases splitScheme_fail_inv x hfail with hF1 | ⟨c, t, hF2, hF2a⟩ | hF3 | ⟨c, hcmem, hbad⟩
  · -- x empty
    have hp0 : path = [] := by
      rw [hF1] at hx
      exact (List.append_eq_nil.mp hx.symm).1
    rw [hPWnil hp0, List.nil_append]
    exact hQfail
  · -- head of x not a letter
    cases hpath : path with
    | nil =>
      rw [hPWnil hpath, List.nil_append]
      exact hQfail
    | cons a t' =>
      have hac : a = c := by
        rw [hpath, List.cons_append] at hx
        rw [hF2] at hx
        exact ((List.cons.injEq .. ▸ hx).1).symm
      rcases hPW with rfl | hpe
      · rw [hpath, List.cons_append]
        exact splitScheme_fail_head a _ (hac ▸ hF2a)
      · cases hPWc : PW with
        | nil =>
          rw [List.nil_append]
          exact hQfail
        | cons b t2 =>
          have hba : b = a := by
            rw [hPWc, hpath] at hpe
            rw [List.cons_append] at hpe
            exact ((List.cons.injEq .. ▸ hpe).1).symm
          rw [List.cons_append]
          refine splitScheme_fail_head b _ ?_
          rw [hba, hac]
          exact hF2a
  · -- no colon anywhere in x
    refine splitScheme_no_colon _ ?_
    intro hm
    rcases List.mem_append.mp hm with h1 | h1
    · have hcp : ':' ∈ path := by
        rcases hPW with rfl | hpe
        · exact h1
        · rw [hpe]
          exact List.mem_append_left _ h1
      exact hF3 (hx ▸ List.mem_append_left _ hcp)
    · exact hQcolon h1
  · -- a character before the first colon is not a scheme character
    by_cases hcolon : ':' ∈ path
    · have htwx : x.takeWhile (fun c => decide (c ≠ ':'))
          = path.takeWhile (fun c => decide (c ≠ ':')) := by
        rw [hx]
        exact takeWhile_append_stop _ _ ⟨':', hcolon, by simp⟩
      have hcolonPW : ':' ∈ PW := by
        rcases hPW with rfl | hpe
        · exact hcolon
        · rw [hpe] at hcolon
          rcases List.mem_append.mp hcolon with h1 | h1
          · exact h1
          · rcases List.mem_cons.mp h1 with he | h2
            · exact absurd he (by decide)
            · exact absurd h2 (List.not_mem_nil ':')
      have htwPW : path.takeWhile (fun c => decide (c ≠ ':'))
          = PW.takeWhile (fun c => decide (c ≠ ':')) := by
        rcases hPW with rfl | hpe
        · rfl
        · rw [hpe]
          exact takeWhile_append_stop _ _ ⟨':', hcolonPW, by simp⟩
      have htwy : (PW ++ (if q' ≠ [] then '?' :: q' else [])).takeWhile
            (fun c => decide (c ≠ ':'))
          = PW.takeWhile (fun c => decide (c ≠ ':')) :=
        takeWhile_append_stop _ _ ⟨':', hcolonPW, by simp⟩
      refine splitScheme_bad_char _ ?_
      rw [htwx, htwPW] at hcmem
      exact ⟨c, htwy ▸ hcmem, hbad⟩
    · refine splitScheme_no_colon _ ?_
      intro hm
      rcases List.mem_append.mp hm with h1 | h1
      · have hcp : ':' ∈ path := by
          rcases hPW with rfl | hpe
          · exact h1
          · rw [hpe]
            exact List.mem_append_left _ h1
        exact hcolon hcp
      · exact hQcolon h1


/-! ## Step D batch 9: facts from a successful parse -/

theorem toLower_isAlpha (c : Char) (h : c.isAlpha = true) :
    (Char.toLower c).isAlpha = true := by
  rcases (isAlpha_iff c).mp h with h1 | h1
  · refine (isAlpha_iff _).mpr ?_
    rw [toLower_toNat, if_pos h1]
    omega
  · refine (isAlpha_iff _).mpr ?_
    rw [toLower_toNat, if_neg (by omega)]
    omega

theorem schemeChar_of_toNat (c : Char)
    (h : (65 ≤ c.toNat ∧ c.toNat ≤ 90) ∨ (97 ≤ c.toNat ∧ c.toNat ≤ 122) ∨
      (48 ≤ c.toNat ∧ c.toNat ≤ 57) ∨ c.toNat = 43 ∨ c.toNat = 45 ∨ c.toNat = 46) :
    schemeChar c = true := by
  rw [schemeChar]
  rcases h with h1 | h1 | h1 | h1 | h1 | h1
  · simp [ (isAlpha_iff c).mpr (Or.inl h1)]
  · simp [(isAlpha_iff c).mpr (Or.inr h1)]
  · simp [(isDigit_iff c).mpr h1]
  · have : c = '+' := char_toNat_inj c '+' (by rw [h1]; rfl)
    simp [this]
  · have : c = '-' := char_toNat_inj c '-' (by rw [h1]; rfl)
    simp [this]
  · have : c = '.' := char_toNat_inj c '.' (by rw [h1]; rfl)
    simp [this]

theorem schemeChar_toLower (c : Char) (h : schemeChar c = true) :
    schemeChar (Char.toLower c) = true := by
  rcases schemeChar_toNat c h with h1 | h1 | h1 | h1 | h1 | h1 <;>
    refine schemeChar_of_toNat _ ?_ <;> rw [toLower_toNat]
  · rw [if_pos h1]
    omega
  · rw [if_neg (by omega)]
    omega
  · rw [if_neg (by omega)]
    omega
  · rw [if_neg (by omega)]
    omega
  · rw [if_neg (by omega)]
    omega
  · rw [if_neg (by omega)]
    omega

theorem toLower_idem (c : Char) : Char.toLower (Char.toLower c) = Char.toLower c := by
  apply char_toNat_inj
  rw [toLower_toNat (Char.toLower c), toLower_toNat c]
  by_cases h : 65 ≤ c.toNat ∧ c.toNat ≤ 90
  · simp only [if_pos h]
    rw [if_neg (by omega)]
  · simp only [if_neg h]

theorem strip_head_lt (u : Chars) :
    ∀ c, (stripUrlTabsNewlines (lstripC0 u)).head? = some c → 32 < c.toNat := by
  induction u with
  | nil =>
    intro c hc
    exact absurd hc (by simp [lstripC0, stripUrlTabsNewlines])
  | cons a t ih =>
    intro c hc
    rw [lstripC0] at hc
    by_cases ha : a.toNat ≤ 32
    · rw [if_pos ha] at hc
      exact ih c hc
    · rw [if_neg ha] at hc
      rw [stripUrlTabsNewlines, List.filter_cons, if_pos] at hc
      · rw [List.head?_cons] at hc
        rw [← Option.some.inj hc]
        omega
      · simp only [Bool.not_eq_true', Bool.or_eq_false_iff, beq_eq_false_iff_ne, ne_eq]
        refine ⟨⟨?_, ?_⟩, ?_⟩ <;> intro he <;> rw [he] at ha <;> exact ha (by decide)

theorem takeWhile_eq_nil_inv {p : Char → Bool} (l : Chars)
    (h : List.takeWhile p l = []) : l = [] ∨ ∃ c t, l = c :: t ∧ p c = false := by
  cases l with
  | nil => exact Or.inl rfl
  | cons a t =>
    right
    refine ⟨a, t, rfl, ?_⟩
    cases hp : p a with
    | false => rfl
    | true =>
      rw [List.takeWhile_cons_of_pos hp] at h
      exact absurd h (by simp)

theorem takeWhile_nil_dropWhile {p : Char → Bool} (l : Chars)
    (h : List.takeWhile p l = []) : List.dropWhile p l = l := by
  rcases takeWhile_eq_nil_inv l h with rfl | ⟨c, t, rfl, hp⟩
  · rfl
  · rw [List.dropWhile_cons_of_neg (by simp [hp])]

theorem urlsplit_ok_inv (u : Chars) (r : SplitParts) (h : urlsplitL u = Except.ok r) :
    ∃ rest rest2 rest3,
      splitScheme (stripUrlTabsNewlines (lstripC0 u)) = (r.scheme, rest) ∧
      netlocSplit rest = (r.netloc, rest2) ∧
      fragSplit rest2 = (rest3, r.fragment) ∧
      querySplit rest3 = (r.path, r.query) ∧
      bracketMismatch r.netloc = false := by
  rw [urlsplitL] at h
  by_cases hb : bracketMismatch
      (urlsplitCore (stripUrlTabsNewlines (lstripC0 u))).netloc = true
  · rw [if_pos hb] at h
    exact absurd h (by simp)
  · rw [if_neg hb] at h
    have hr : urlsplitCore (stripUrlTabsNewlines (lstripC0 u)) = r := Except.ok.inj h
    have h1 : (splitScheme (stripUrlTabsNewlines (lstripC0 u))).1 = r.scheme :=
      congrArg SplitParts.scheme hr
    have h2 : (netlocSplit (splitScheme (stripUrlTabsNewlines (lstripC0 u))).2).1
        = r.netloc := congrArg SplitParts.netloc hr
    have h3 : (fragSplit
        (netlocSplit (splitScheme (stripUrlTabsNewlines (lstripC0 u))).2).2).2
        = r.fragment := congrArg SplitParts.fragment hr
    have h4 : (querySplit (fragSplit
        (netlocSplit (splitScheme (stripUrlTabsNewlines (lstripC0 u))).2).2).1).1
        = r.path := congrArg SplitParts.path hr
    have h5 : (querySplit (fragSplit
        (netlocSplit (splitScheme (stripUrlTabsNewlines (lstripC0 u))).2).2).1).2
        = r.query := congrArg SplitParts.query hr
    refine ⟨(splitScheme (stripUrlTabsNewlines (lstripC0 u))).2,
      (netlocSplit (splitScheme (stripUrlTabsNewlines (lstripC0 u))).2).2,
      (fragSplit (netlocSplit (splitScheme (stripUrlTabsNewlines (lstripC0 u))).2).2).1,
      ?_, ?_, ?_, ?_, ?_⟩
    · rw [← h1]
    · rw [← h2]
    · rw [← h3]
    · rw [← h4, ← h5]
    · rw [hr] at hb
      cases hbb : bracketMismatch r.netloc with
      | false => rfl
      | true => exact absurd hbb hb

theorem urlparse_ok_inv (u : Chars) (p : ParseParts) (h : urlparseL u = Except.ok p) :
    ∃ r, urlsplitL u = Except.ok r ∧ r.scheme = p.scheme ∧ r.netloc = p.netloc ∧
      r.query = p.query ∧ r.fragment = p.fragment ∧
      ((r.scheme ∈ uses_paramsL ∧ ';' ∈ r.path ∧
        p.path = (splitparamsL r.path).1 ∧ p.params = (splitparamsL r.path).2) ∨
       (¬(r.scheme ∈ uses_paramsL ∧ ';' ∈ r.path) ∧ p.path = r.path ∧ p.params = [])) := by
  cases hr : urlsplitL u with
  | error e =>
    rw [urlparseL, hr] at h
    exact absurd h (by simp [Except.map])
  | ok r =>
    have he := urlparse_eval u r hr
    rw [he] at h
    have hp := Except.ok.inj h
    refine ⟨r, rfl, ?_⟩
    by_cases hc : r.scheme ∈ uses_paramsL ∧ ';' ∈ r.path
    · rw [if_pos hc] at hp
      rw [← hp]
      exact ⟨rfl, rfl, rfl, rfl, Or.inl ⟨hc.1, hc.2, rfl, rfl⟩⟩
    · rw [if_neg hc] at hp
      rw [← hp]
      exact ⟨rfl, rfl, rfl, rfl, Or.inr ⟨hc, rfl, rfl⟩⟩


theorem urlsplit_ok_facts (u : Chars) (r : SplitParts) (h : urlsplitL u = Except.ok r) :
    (r.scheme = [] ∨ (r.scheme ≠ [] ∧ (r.scheme.headD ' ').isAlpha = true ∧
      r.scheme.all schemeChar = true ∧ r.scheme.map Char.toLower = r.scheme)) ∧
    (∀ c ∈ r.netloc, netlocDelim c = false ∧ c.toNat ≠ 9 ∧ c.toNat ≠ 13 ∧ c.toNat ≠ 10) ∧
    bracketMismatch r.netloc = false ∧
    '#' ∉ r.path ∧ '?' ∉ r.path ∧
    (∀ c ∈ r.path, c.toNat ≠ 9 ∧ c.toNat ≠ 13 ∧ c.toNat ≠ 10) := by
  rcases urlsplit_ok_inv u r h with ⟨rest, rest2, rest3, hsch, hnet, hfr, hqy, hbr⟩
  have hmem_u1 : ∀ c ∈ stripUrlTabsNewlines (lstripC0 u),
      c.toNat ≠ 9 ∧ c.toNat ≠ 13 ∧ c.toNat ≠ 10 :=
    fun c hc => stripUrlTabsNewlines_mem _ c hc
  have hmem_rest : ∀ c ∈ rest, c ∈ stripUrlTabsNewlines (lstripC0 u) := by
    rcases splitScheme_spec (stripUrlTabsNewlines (lstripC0 u)) with
      ⟨pre, hpredef, heq, _, _, _, _⟩ | heq
    · rw [heq] at hsch
      have h2 := (Prod.mk.injEq .. ▸ hsch).2
      intro c hc
      rw [← h2] at hc
      exact List.mem_of_mem_drop hc
    · rw [heq] at hsch
      have h2 := (Prod.mk.injEq .. ▸ hsch).2
      intro c hc
      rw [← h2] at hc
      exact hc
  have hmem_rest2 : ∀ c ∈ rest2, c ∈ rest := by
    rcases netlocSplit_spec rest with ⟨rest0, hr0, heq⟩ | heq
    · rw [heq] at hnet
      have h2 := (Prod.mk.injEq .. ▸ hnet).2
      intro c hc
      rw [← h2] at hc
      have : c ∈ rest0 := (List.dropWhile_sublist _).subset hc
      rw [hr0]
      exact List.mem_cons_of_mem _ (List.mem_cons_of_mem _ this)
    · rw [heq] at hnet
      have h2 := (Prod.mk.injEq .. ▸ hnet).2
      intro c hc
      rw [← h2] at hc
      exact hc
  obtain ⟨hmem_rest3, hhash3⟩ : (∀ c ∈ rest3, c ∈ rest2) ∧ '#' ∉ rest3 := by
    rcases fragSplit_spec rest2 with ⟨a, b, heq, hu, hni⟩ | ⟨heq, hni⟩
    · rw [heq] at hfr
      obtain ⟨ha, hb⟩ := Prod.mk.injEq .. ▸ hfr
      subst ha
      exact ⟨fun c hc => hu ▸ List.mem_append_left _ hc, hni⟩
    · rw [heq] at hfr
      obtain ⟨ha, hb⟩ := Prod.mk.injEq .. ▸ hfr
      subst ha
      exact ⟨fun c hc => hc, hni⟩
  obtain ⟨hmem_path, hq_path⟩ : (∀ c ∈ r.path, c ∈ rest3) ∧ '?' ∉ r.path := by
    rcases querySplit_spec rest3 with ⟨a, b, heq, hu, hni⟩ | ⟨heq, hni⟩
    · rw [heq] at hqy
      obtain ⟨ha, hb⟩ := Prod.mk.injEq .. ▸ hqy
      rw [← ha]
      exact ⟨fun c hc => hu ▸ List.mem_append_left _ hc, hni⟩
    · rw [heq] at hqy
      obtain ⟨ha, hb⟩ := Prod.mk.injEq .. ▸ hqy
      rw [← ha]
      exact ⟨fun c hc => hc, hni⟩
  refine ⟨?_, ?_, hbr, ?_, hq_path, ?_⟩
  · rcases splitScheme_spec (stripUrlTabsNewlines (lstripC0 u)) with
      ⟨pre, hpredef, heq, hlen, hpos, halpha, hall⟩ | heq
    · rw [heq] at hsch
      have h1 := (Prod.mk.injEq .. ▸ hsch).1
      right
      rw [← h1]
      refine ⟨?_, ?_, ?_, ?_⟩
      · cases pre with
        | nil => exact absurd hpos (by simp)
        | cons a t => simp
      · cases pre with
        | nil => exact absurd hpos (by simp)
        | cons a t =>
          rw [List.map_cons, List.headD_cons]
          rw [List.headD_cons] at halpha
          exact toLower_isAlpha a halpha
      · rw [List.all_eq_true]
        intro c hc
        rcases List.mem_map.mp hc with ⟨d, hd, rfl⟩
        exact schemeChar_toLower d (List.all_eq_true.mp hall d hd)
      · rw [List.map_map]
        refine List.map_congr_left ?_
        intro d _
        exact toLower_idem d
    · rw [heq] at hsch
      have h1 := (Prod.mk.injEq .. ▸ hsch).1
      exact Or.inl h1.symm
  · rcases netlocSplit_spec rest with ⟨rest0, hr0, heq⟩ | heq
    · rw [heq] at hnet
      have h1 := (Prod.mk.injEq .. ▸ hnet).1
      intro c hc
      rw [← h1] at hc
      constructor
      · have := List.mem_takeWhile_imp hc
        simp only [Bool.not_eq_true'] at this
        exact this
      · have hc0 : c ∈ rest0 := (List.takeWhile_sublist _).subset hc
        refine hmem_u1 c (hmem_rest c ?_)
        rw [hr0]
        exact List.mem_cons_of_mem _ (List.mem_cons_of_mem _ hc0)
    · rw [heq] at hnet
      have h1 := (Prod.mk.injEq .. ▸ hnet).1
      intro c hc
      rw [← h1] at hc
      exact absurd hc (List.not_mem_nil c)
  · intro hm
    exact hhash3 (hmem_path '#' hm)
  · intro c hc
    exact hmem_u1 c (hmem_rest c (hmem_rest2 c (hmem_rest3 c (hmem_path c hc))))


/-! ## Step D batch 10a: urlencode character class and small helpers -/

theorem take2_append_ne2 (a b : Chars) (ha : a.take 2 ≠ ['/', '/'])
    (hb : b.head? ≠ some '/') : (a ++ b).take 2 ≠ ['/', '/'] := by
  match a with
  | [] =>
    rw [List.nil_append]
    cases b with
    | nil => simp
    | cons x t =>
      intro hc
      rw [List.take_succ_cons] at hc
      have hx := (List.cons.injEq .. ▸ hc).1
      rw [List.head?_cons] at hb
      exact hb (by rw [hx])
  | [c] =>
    cases b with
    | nil =>
      rw [List.append_nil]
      exact ha
    | cons x t =>
      rw [List.singleton_append, List.take_succ_cons, List.take_succ_cons]
      intro hc
      have hx := (List.cons.injEq .. ▸ (List.cons.injEq .. ▸ hc).2).1
      rw [List.head?_cons] at hb
      exact hb (by rw [hx])
  | c :: d :: rest =>
    rw [List.cons_append, List.cons_append, List.take_succ_cons, List.take_succ_cons]
    rw [List.take_succ_cons, List.take_succ_cons] at ha
    simpa using ha

theorem joinAmp_mem : ∀ (ps : List Chars) (c : Char), c ∈ joinAmp ps →
    c = '&' ∨ ∃ p ∈ ps, c ∈ p := by
  intro ps
  induction ps with
  | nil =>
    intro c hc
    exact absurd hc (List.not_mem_nil c)
  | cons p rest ih =>
    intro c hc
    cases rest with
    | nil =>
      rw [joinAmp] at hc
      exact Or.inr ⟨p, List.mem_cons_self p [], hc⟩
    | cons q qs =>
      rw [joinAmp] at hc
      rcases List.mem_append.mp hc with h1 | h1
      · exact Or.inr ⟨p, List.mem_cons_self p _, h1⟩
      · rcases List.mem_cons.mp h1 with rfl | h2
        · exact Or.inl rfl
        · rcases ih c h2 with h3 | ⟨p2, hp2, hcp2⟩
          · exact Or.inl h3
          · exact Or.inr ⟨p2, List.mem_cons_of_mem p hp2, hcp2⟩

theorem goodPair_goodQuery (c : Char) (h : goodPairChar c = true) :
    goodQueryChar c = true := by
  rw [goodQueryChar, h]
  rfl

theorem urlencode_good (l : List (Chars × Chars)) :
    ∀ c ∈ urlencodeL l, goodQueryChar c = true := by
  intro c hc
  rw [urlencodeL] at hc
  rcases joinAmp_mem _ c hc with rfl | ⟨p, hp, hcp⟩
  · decide
  · rcases List.mem_map.mp hp with ⟨kv, _, rfl⟩
    rcases List.mem_append.mp hcp with h1 | h1
    · exact goodPair_goodQuery c (quote_plus_good kv.1 c h1)
    · rcases List.mem_cons.mp h1 with rfl | h2
      · decide
      · exact goodPair_goodQuery c (quote_plus_good kv.2 c h2)

theorem splitparams_mem (x : Chars) :
    (∀ c ∈ (splitparamsL x).1, c ∈ x) ∧ (∀ c ∈ (splitparamsL x).2, c ∈ x) := by
  rcases splitparams_rejoin x with hre | hre
  · by_cases hb : (splitparamsL x).2 = []
    · rw [if_neg (by simpa using hb)] at hre
      constructor
      · intro c hc
        rw [← hre]
        exact hc
      · intro c hc
        rw [hb] at hc
        exact absurd hc (List.not_mem_nil c)
    · rw [if_pos (by simpa using hb)] at hre
      constructor
      · intro c hc
        rw [← hre]
        exact List.mem_append_left _ hc
      · intro c hc
        rw [← hre]
        exact List.mem_append_right _ (List.mem_cons_of_mem ';' hc)
  · by_cases hb : (splitparamsL x).2 = []
    · rw [if_neg (by simpa using hb)] at hre
      constructor
      · intro c hc
        rw [hre]
        exact List.mem_append_left _ hc
      · intro c hc
        rw [hb] at hc
        exact absurd hc (List.not_mem_nil c)
    · rw [if_pos (by simpa using hb)] at hre
      constructor
      · intro c hc
        rw [hre]
        exact List.mem_append_left _ (List.mem_append_left _ hc)
      · intro c hc
        rw [hre]
        exact List.mem_append_left _
          (List.mem_append_right _ (List.mem_cons_of_mem ';' hc))


/-! ## Step D batch 10b: idempotence for parseable URLs -/

theorem splitScheme_qp_fail (q' : Chars) :
    splitScheme (if q' ≠ [] then '?' :: q' else [])
      = ([], if q' ≠ [] then '?' :: q' else []) := by
  by_cases h0 : q' ≠ []
  · rw [if_pos h0]
    exact splitScheme_fail_head '?' q' (by decide)
  · rw [if_neg h0]
    exact splitScheme_nil

theorem canonicalize_idem_of_ok (u : String) (p : ParseParts)
    (hp : urlparseL u.data = Except.ok p)
    (hH : p.netloc ≠ [] ∨ p.path.take 2 ≠ ['/', '/']) :
    canonicalize_url (canonicalize_url u) = canonicalize_url u := by
  rcases urlparse_ok_inv u.data p hp with ⟨r, hr, hrs, hrn, hrq, hrf, hbranch⟩
  obtain ⟨hschemeF, hnetF, hbrF, hhashF, hqmF, htabF⟩ := urlsplit_ok_facts u.data r hr
  rcases urlsplit_ok_inv u.data r hr with ⟨rest, rest2, rest3, hsch0, hnet0, hfr0, hqy0, _⟩
  have hNQ : ∀ c ∈ urlencodeL ((parse_qslL p.query).filter keepPairB),
      goodQueryChar c = true := urlencode_good _
  have hPWrel : (if p.params ≠ [] then p.path ++ ';' :: p.params else p.path) = r.path ∨
      r.path = (if p.params ≠ [] then p.path ++ ';' :: p.params else p.path) ++ [';'] := by
    rcases hbranch with ⟨hup, hsemi, hpath, hparams⟩ | ⟨hnot, hpath, hparams⟩
    · rw [hpath, hparams]
      exact splitparams_rejoin r.path
    · rw [hpath, hparams, if_neg (by simp)]
      exact Or.inl rfl
  have hPWmem : ∀ c ∈ (if p.params ≠ [] then p.path ++ ';' :: p.params else p.path),
      c ∈ r.path := by
    rcases hPWrel with hre | hre
    · intro c hc
      rw [← hre]
      exact hc
    · intro c hc
      rw [hre]
      exact List.mem_append_left _ hc
  have hPWhead : ∀ c, (if p.params ≠ [] then p.path ++ ';' :: p.params
      else p.path).head? = some c → r.path.head? = some c := by
    rcases hPWrel with hre | hre
    · intro c hc
      rw [← hre]
      exact hc
    · intro c hc
      cases hPW0 : (if p.params ≠ [] then p.path ++ ';' :: p.params else p.path) with
      | nil =>
        rw [hPW0] at hc
        exact absurd hc (by simp)
      | cons a t =>
        rw [hPW0] at hc
        rw [hre, hPW0, List.cons_append, List.head?_cons]
        rw [List.head?_cons] at hc
        exact hc
  -- analysis for the schemeless, netloc-less case
  have hmain : p.scheme = [] → p.netloc = [] →
      (∀ c, r.path.head? = some c → 32 < c.toNat) ∧
      ((∃ T, stripUrlTabsNewlines (lstripC0 u.data) = r.path ++ T ∧
          splitScheme (stripUrlTabsNewlines (lstripC0 u.data))
            = ([], stripUrlTabsNewlines (lstripC0 u.data))) ∨
        (r.path = [] ∨ ∃ t, r.path = '/' :: t)) := by
    intro hse hne
    have hse' : r.scheme = [] := by rw [hrs, hse]
    have hne' : r.netloc = [] := by rw [hrn, hne]
    have hfail : splitScheme (stripUrlTabsNewlines (lstripC0 u.data))
        = ([], stripUrlTabsNewlines (lstripC0 u.data)) ∧
        rest = stripUrlTabsNewlines (lstripC0 u.data) := by
      rcases splitScheme_spec (stripUrlTabsNewlines (lstripC0 u.data)) with
        ⟨pre, _, heq, hlen, hpos, _, _⟩ | heq
      · rw [heq] at hsch0
        have h1 := (Prod.mk.injEq .. ▸ hsch0).1
        rw [hse'] at h1
        have : pre = [] := by
          cases pre with
          | nil => rfl
          | cons a t => exact absurd h1 (by simp)
        rw [this] at hpos
        exact absurd hpos (by simp)
      · rw [heq] at hsch0
        obtain ⟨h1, h2⟩ := Prod.mk.injEq .. ▸ hsch0
        exact ⟨heq, h2.symm⟩
    have hchain : ∀ c, r.path.head? = some c → rest2.head? = some c := by
      intro c hc
      have h3 : rest3.head? = some c := by
        rcases querySplit_spec rest3 with ⟨a, b, heq, hu, _⟩ | ⟨heq, _⟩
        · rw [heq] at hqy0
          obtain ⟨ha, hb⟩ := Prod.mk.injEq .. ▸ hqy0
          rw [hu, ha]
          cases hpp : r.path with
          | nil =>
            rw [hpp] at hc
            exact absurd hc (by simp)
          | cons d t =>
            rw [List.cons_append, List.head?_cons]
            rw [hpp, List.head?_cons] at hc
            exact hc
        · rw [heq] at hqy0
          obtain ⟨ha, _⟩ := Prod.mk.injEq .. ▸ hqy0
          rw [ha]
          exact hc
      rcases fragSplit_spec rest2 with ⟨a, b, heq, hu, _⟩ | ⟨heq, _⟩
      · rw [heq] at hfr0
        obtain ⟨ha, hb⟩ := Prod.mk.injEq .. ▸ hfr0
        rw [hu, ha]
        cases hpp : rest3 with
        | nil =>
          rw [hpp] at h3
          exact absurd h3 (by simp)
        | cons d t =>
          rw [List.cons_append, List.head?_cons]
          rw [hpp, List.head?_cons] at h3
          exact h3
      · rw [heq] at hfr0
        obtain ⟨ha, _⟩ := Prod.mk.injEq .. ▸ hfr0
        rw [ha]
        exact h3
    have hpath_mem_head : ∀ c, r.path.head? = some c → c ∈ r.path := by
      intro c hc
      cases hpp : r.path with
      | nil =>
        rw [hpp] at hc
        exact absurd hc (by simp)
      | cons d t =>
        rw [hpp, List.head?_cons] at hc
        rw [← Option.some.inj hc]
        exact List.mem_cons_self d t
    rcases netlocSplit_spec rest with ⟨rest0, hr00, heq⟩ | heq
    · -- netloc part came from a // prefix
      rw [heq] at hnet0
      obtain ⟨h1, h2⟩ := Prod.mk.injEq .. ▸ hnet0
      have htw0 : List.takeWhile (fun c => !netlocDelim c) rest0 = [] := by
        rw [h1, hne']
      have hrest2 : rest2 = rest0 := by
        rw [← h2, takeWhile_nil_dropWhile _ htw0]
      rcases takeWhile_eq_nil_inv rest0 htw0 with hr000 | ⟨d, t, hr000, hd⟩
      · have hpath0 : r.path = [] := by
          cases hpp : r.path with
          | nil => rfl
          | cons a t' =>
            have := hchain a (by rw [hpp, List.head?_cons])
            rw [hrest2, hr000] at this
            exact absurd this (by simp)
        constructor
        · intro c hc
          rw [hpath0] at hc
          exact absurd hc (by simp)
        · exact Or.inr (Or.inl hpath0)
      · have hdel : netlocDelim d = true := by
          simpa using hd
        have hdcase : d = '/' ∨ d = '?' ∨ d = '#' := by
          rw [netlocDelim] at hdel
          simp only [Bool.or_eq_true, beq_iff_eq] at hdel
          tauto
        have hhead_eq : ∀ c, r.path.head? = some c → c = d := by
          intro c hc
          have := hchain c hc
          rw [hrest2, hr000, List.head?_cons] at this
          exact (Option.some.inj this).symm
        have hdslash : ∀ c, r.path.head? = some c → c = '/' := by
          intro c hc
          have hcd := hhead_eq c hc
          rcases hdcase with h' | h' | h'
          · rw [hcd, h']
          · exfalso
            rw [h'] at hcd
            exact hqmF (hcd ▸ hpath_mem_head c hc)
          · exfalso
            rw [h'] at hcd
            exact hhashF (hcd ▸ hpath_mem_head c hc)
        constructor
        · intro c hc
          rw [hdslash c hc]
          decide
        · right
          cases hpp : r.path with
          | nil => exact Or.inl rfl
          | cons a t' =>
            right
            have : a = '/' := hdslash a (by rw [hpp, List.head?_cons])
            exact ⟨t', by rw [this]⟩
    · -- no netloc marker: the whole remainder is path/query/fragment material
      rw [heq] at hnet0
      obtain ⟨h1, h2⟩ := Prod.mk.injEq .. ▸ hnet0
      have hrest2 : rest2 = stripUrlTabsNewlines (lstripC0 u.data) := by
        rw [← h2, hfail.2]
      constructor
      · intro c hc
        have := hchain c hc
        rw [hrest2] at this
        exact strip_head_lt u.data c this
      · left
        have hu1a : ∃ T1, rest2 = rest3 ++ T1 := by
          rcases fragSplit_spec rest2 with ⟨a, b, heq2, hu2, _⟩ | ⟨heq2, _⟩
          · rw [heq2] at hfr0
            obtain ⟨ha, hb⟩ := Prod.mk.injEq .. ▸ hfr0
            exact ⟨'#' :: b, by rw [← ha]; exact hu2⟩
          · rw [heq2] at hfr0
            obtain ⟨ha, _⟩ := Prod.mk.injEq .. ▸ hfr0
            exact ⟨[], by rw [← ha, List.append_nil]⟩
        have hu1b : ∃ T2, rest3 = r.path ++ T2 := by
          rcases querySplit_spec rest3 with ⟨a, b, heq2, hu2, _⟩ | ⟨heq2, _⟩
          · rw [heq2] at hqy0
            obtain ⟨ha, hb⟩ := Prod.mk.injEq .. ▸ hqy0
            exact ⟨'?' :: b, by rw [← ha]; exact hu2⟩
          · rw [heq2] at hqy0
            obtain ⟨ha, _⟩ := Prod.mk.injEq .. ▸ hqy0
            exact ⟨[], by rw [← ha, List.append_nil]⟩
        rcases hu1a with ⟨T1, hT1⟩
        rcases hu1b with ⟨T2, hT2⟩
        refine ⟨T2 ++ T1, ?_, hfail.1⟩
        rw [← hrest2, hT1, hT2, List.append_assoc]
  rw [canonicalize_of_parse u p hp, urlunparse_eval]
  apply canon_fixpoint
  · rw [← hrs]
    exact hschemeF
  · rw [← hrn]
    exact hnetF
  · rw [← hrn]
    exact hbrF
  · intro hm
    exact hhashF (hPWmem '#' hm)
  · intro hm
    exact hqmF (hPWmem '?' hm)
  · intro c hc
    exact htabF c (hPWmem c hc)
  · exact hNQ
  · rcases hH with h1 | h1
    · exact Or.inl h1
    · right
      by_cases hpar : p.params ≠ []
      · rw [if_pos hpar]
        refine take2_append_ne2 p.path (';' :: p.params) h1 ?_
        rw [List.head?_cons]
        intro he
        exact absurd (Option.some.inj he) (by decide)
      · rw [if_neg hpar]
        exact h1
  · intro hse hne c hc
    exact (hmain hse hne).1 c (hPWhead c hc)
  · intro hse hne
    rcases (hmain hse hne).2 with ⟨T, hxT, hfail⟩ | hdirect
    · exact splitScheme_fail_transfer _ r.path _ T _ hxT hPWrel hNQ hfail
    · rcases hdirect with hp0 | ⟨t, hpt⟩
      · have hPW0 : (if p.params ≠ [] then p.path ++ ';' :: p.params else p.path) = [] := by
          rw [List.eq_nil_iff_forall_not_mem]
          intro c hc
          have := hPWmem c hc
          rw [hp0] at this
          exact List.not_mem_nil c this
        rw [hPW0, List.nil_append]
        exact splitScheme_qp_fail _
      · rcases hPWrel with hre | hre
        · rw [hre, hpt, List.cons_append]
          exact splitScheme_fail_head '/' _ (by decide)
        · cases hPW0 : (if p.params ≠ [] then p.path ++ ';' :: p.params else p.path) with
          | nil =>
            rw [List.nil_append]
            exact splitScheme_qp_fail _
          | cons a t2 =>
            have ha : a = '/' := by
              rw [hPW0, hpt, List.cons_append] at hre
              exact ((List.cons.injEq .. ▸ hre).1).symm
            rw [List.cons_append]
            refine splitScheme_fail_head a _ ?_
            rw [ha]
            decide
  · intro hup hsemi
    rcases hbranch with ⟨hup2, hsemi2, hpath, hparams⟩ | ⟨hnot, hpath, hparams⟩
    · obtain ⟨H, A, hHA, hHp, hAsemi, hAslash, hps2slash⟩ := splitparams_shape r.path
      by_cases hb2 : (splitparamsL r.path).2 = []
      · have hPWv : (if p.params ≠ [] then p.path ++ ';' :: p.params else p.path)
            = H ++ A := by
          rw [hparams, if_neg (by simpa using hb2), hpath, hHA]
        rw [hPWv, splitparams_no_semi H A hHp hAsemi hAslash, if_neg (by simp)]
      · have hPWv : (if p.params ≠ [] then p.path ++ ';' :: p.params else p.path)
            = H ++ (A ++ ';' :: (splitparamsL r.path).2) := by
          rw [hparams, if_pos (by simpa using hb2), hpath, hHA, List.append_assoc]
        rw [hPWv, splitparams_append H A _ hHp hAsemi hAslash hps2slash]
        rw [if_pos (by simpa using hb2)]
        rw [List.append_assoc]
    · exfalso
      apply hnot
      refine ⟨by rw [hrs]; exact hup, ?_⟩
      rw [hparams, if_neg (by simp), hpath] at hsemi
      exact hsemi
  · rw [parse_qsl_urlencode]
    exact List.filter_eq_self.mpr (fun a ha => List.of_mem_filter ha)
  · rw [parse_qsl_urlencode]


/-! ## Claims C6, C7, C8 -/

/-- C6: the claim that canonicalization is idempotent on every URL string is
false: CPython 3.11's `urlunsplit` drops extra leading slashes, so
`canonicalize_url "/////x" = "///x"` while `canonicalize_url "///x" = "/x"`. -/
theorem canonicalize_not_idempotent :
    canonicalize_url (canonicalize_url "/////x") ≠ canonicalize_url "/////x" := by
  decide

/-- C6 (amended): canonicalization is idempotent on every URL whose parse
fails, and on every parseable URL whose parsed netloc is nonempty or whose
parsed path does not begin with `//`. -/
theorem canonicalize_idempotent_amended (u : String)
    (h : ∀ p, urlparseL u.data = Except.ok p →
      p.netloc ≠ [] ∨ p.path.take 2 ≠ ['/', '/']) :
    canonicalize_url (canonicalize_url u) = canonicalize_url u := by
  cases hp : urlparseL u.data with
  | error e =>
    rw [canonicalize_of_error u e hp]
    exact canonicalize_of_error u e hp
  | ok p => exact canonicalize_idem_of_ok u p hp (h p hp)

theorem canonicalize_idempotent_amended_witness :
    canonicalize_url (canonicalize_url "http://e/a?b=1")
      = canonicalize_url "http://e/a?b=1" :=
  canonicalize_idempotent_amended "http://e/a?b=1" (fun p hp => by
    have he : urlparseL ("http://e/a?b=1").data
        = Except.ok ⟨"http".data, "e".data, "/a".data, [], "b=1".data, []⟩ := by
      rfl
    rw [he] at hp
    rw [← Except.ok.inj hp]
    left
    decide)

/-- C7: for every parseable URL, canonicalization rebuilds the query from the
original pairs in order, keeping exactly the pairs that survive the tracking
filter (`keepPairB`: the lower-cased key is not `fbclid`/`gclid`/`ref` and
does not start with `utm_`), and drops the fragment; consequently two URLs
whose parses agree except for the filtered query pairs canonicalize
identically. -/
theorem canonicalize_query_filter (u : String) (p : ParseParts)
    (hp : urlparseL u.data = Except.ok p) :
    ∃ q' : Chars,
      canonicalize_url u
        = String.mk (urlunparseL ⟨p.scheme, p.netloc, p.path, p.params, q', []⟩) ∧
      parse_qslL q' = (parse_qslL p.query).filter keepPairB ∧
      (∀ v : String, ∀ p2 : ParseParts, urlparseL v.data = Except.ok p2 →
        p2.scheme = p.scheme → p2.netloc = p.netloc → p2.path = p.path →
        p2.params = p.params →
        (parse_qslL p2.query).filter keepPairB = (parse_qslL p.query).filter keepPairB →
        canonicalize_url v = canonicalize_url u) := by
  refine ⟨urlencodeL ((parse_qslL p.query).filter keepPairB),
    canonicalize_of_parse u p hp, parse_qsl_urlencode _, ?_⟩
  intro v p2 hv hs hn hpth hprm hq
  rw [canonicalize_of_parse v p2 hv, canonicalize_of_parse u p hp, hs, hn, hpth, hprm, hq]

theorem canonicalize_query_filter_witness :
    canonicalize_url "http://e/p?utm_source=x&a=1" = canonicalize_url "http://e/p?a=1" := by
  obtain ⟨q', h1, h2, h3⟩ := canonicalize_query_filter "http://e/p?a=1"
    ⟨"http".data, "e".data, "/p".data, [], "a=1".data, []⟩ (by rfl)
  exact h3 "http://e/p?utm_source=x&a=1"
    ⟨"http".data, "e".data, "/p".data, [], "utm_source=x&a=1".data, []⟩
    (by rfl) rfl rfl rfl rfl (by decide)

/-- C8: `canonicalize_url` is a total function: for every input it either
returns the input unchanged (exactly when `urlparseL` fails) or returns the
rebuild from the parsed parts with the filtered, re-encoded query and no
fragment; being a pure function, equal inputs always yield equal outputs. -/
theorem canonicalize_total (u : String) :
    (∃ e, urlparseL u.data = Except.error e ∧ canonicalize_url u = u) ∨
    (∃ p, urlparseL u.data = Except.ok p ∧
      canonicalize_url u = String.mk (urlunparseL ⟨p.scheme, p.netloc, p.path, p.params,
        urlencodeL ((parse_qslL p.query).filter keepPairB), []⟩)) := by
  cases hp : urlparseL u.data with
  | error e => exact Or.inl ⟨e, rfl, canonicalize_of_error u e hp⟩
  | ok p => exact Or.inr ⟨p, rfl, canonicalize_of_parse u p hp⟩


end DailyBrief
